import Mathlib

/-!
Verification development for the `soongo/negotiator` HTTP content-negotiation
library (Go).  The Go sources are embedded shallowly:

* Go strings are `List Char` (`Str`);  `strings.Split`, `strings.Trim`,
  `strings.ToLower` (ASCII range), `strings.Index` are given as executable
  list functions.
* Go `float64` quality values are modelled by `GoF`: an exact rational
  together with the IEEE specials `+Inf`, `-Inf`, `NaN` that
  `strconv.ParseFloat` can produce.  Decimal literals are kept exact
  (float64 rounding of distinct decimals to the same bit pattern, hex float
  literals and exact overflow thresholds are outside the model and are noted
  at `parseGoFloat`).
* The `regexp2` patterns used by the parsers are anchored and
  backtracking-free on their input grammar, so each is embedded as the
  equivalent maximal-munch scanner (`.` does not match a newline and `$`
  also matches before a single final newline, which the scanners reproduce).
* `sort.Sort` is embedded as the exact Go 1.14 algorithm (quicksort with
  median-of-three/nine pivoting, heapsort fallback, shell pass + insertion
  sort for short ranges); this matters because several comparators in the
  library are not strict weak orders, so the unstable algorithm's concrete
  behaviour is observable.  (The project's CI pins Go 1.11–1.14.)
* `parseCharset`, `parseEncoding` and `parseLanguage` index `p[1]` after
  splitting a parameter on `=`; on a parameter that is exactly `q` this is
  an out-of-range panic in Go, so those functions and everything reaching
  them return `Except Unit`, `.error ()` being the panic.
-/

set_option maxRecDepth 10000

namespace Negotiator

/-- Go strings, as lists of characters. -/
abbrev Str := List Char

/-- The whitespace class `\s` of the `regexp2` patterns (ASCII range). -/
def goIsSpace (c : Char) : Bool :=
  c = ' ' ∨ c = '\t' ∨ c = '\n' ∨ c = Char.ofNat 11 ∨ c = Char.ofNat 12 ∨ c = '\r'

/-- `strings.ToLower` on one character (ASCII range). -/
def goLowerChar (c : Char) : Char :=
  if 'A' ≤ c ∧ c ≤ 'Z' then Char.ofNat (c.toNat + 32) else c

/-- `strings.ToLower` (ASCII range). -/
def goLower (s : Str) : Str := s.map goLowerChar

/-- `strings.Split(s, sep)` for a one-character separator. -/
def splitCh (sep : Char) : Str → List Str
  | [] => [[]]
  | c :: rest =>
    match splitCh sep rest with
    | [] => [[c]]
    | h :: t => if c = sep then [] :: h :: t else (c :: h) :: t

/-- `strings.Trim(s, " ")`: strip leading and trailing space characters. -/
def trimSp (s : Str) : Str :=
  ((s.dropWhile (· = ' ')).reverse.dropWhile (· = ' ')).reverse

/-- Go `float64` values produced by `strconv.ParseFloat`: exact rationals
plus the IEEE specials. -/
inductive GoF where
  | num (x : ℚ)
  | inf
  | ninf
  | nan
deriving Repr, DecidableEq

namespace GoF

/-- Go `<` on float64 (false whenever either side is NaN). -/
def lt : GoF → GoF → Bool
  | .num a, .num b => a < b
  | .num _, .inf => true
  | .ninf, .num _ => true
  | .ninf, .inf => true
  | _, _ => false

/-- Go `>` on float64. -/
def gt (a b : GoF) : Bool := lt b a

/-- Go `==` on float64 (false whenever either side is NaN). -/
def goEq : GoF → GoF → Bool
  | .num a, .num b => a = b
  | .inf, .inf => true
  | .ninf, .ninf => true
  | _, _ => false

/-- Go float64 subtraction, used only for sign tests; the sign of an IEEE
difference of finite floats agrees with the exact sign, and the special
cases (`Inf - Inf = NaN`, …) are reproduced. -/
def sub : GoF → GoF → GoF
  | .num a, .num b => .num (a - b)
  | .num _, .inf => .ninf
  | .num _, .ninf => .inf
  | .inf, .num _ => .inf
  | .ninf, .num _ => .ninf
  | .inf, .ninf => .inf
  | .ninf, .inf => .ninf
  | _, _ => .nan

/-- Go `math.Min`: `-Inf` dominates, then NaN, else the smaller value. -/
def goMin (x y : GoF) : GoF :=
  if x = .ninf ∨ y = .ninf then .ninf
  else if x = .nan ∨ y = .nan then .nan
  else if lt x y then x else y

end GoF

/-- Digit test for `parseGoFloat`. -/
def isDigit (c : Char) : Bool := '0' ≤ c ∧ c ≤ '9'

/-- Digit-group underscores accepted by `strconv.ParseFloat` (Go ≥ 1.13):
every `_` must stand between two digits. -/
def underscoresOK : Str → Bool
  | [] => true
  | '_' :: _ => false
  | [_] => true
  | a :: '_' :: c :: rest => isDigit a && isDigit c && underscoresOK (c :: rest)
  | _ :: b :: rest => underscoresOK (b :: rest)

/-- Numeric value of a digit string. -/
def digitsToNat : Str → Nat → Nat
  | [], acc => acc
  | c :: rest, acc => digitsToNat rest (acc * 10 + (c.toNat - '0'.toNat))

/-- Number of decimal digits of a nonzero `Nat` (first argument is fuel). -/
def natDigits : Nat → Nat → Nat
  | 0, _ => 0
  | fuel + 1, n => if n = 0 then 0 else natDigits fuel (n / 10) + 1

end Negotiator

namespace Negotiator

/-- Decimal core of `strconv.ParseFloat` after the optional sign and after
underscores have been validated and removed: `digits [. digits] [(e|E)
[sign] digits]`, at least one mantissa digit, exponent digits nonempty when
`e` is present.  Returns mantissa and decimal exponent. -/
def parsePlainFloat (s : Str) : Option (Nat × Int) :=
  let intPart := s.takeWhile isDigit
  let rest1 := s.drop intPart.length
  let (fracPart, rest2) :=
    match rest1 with
    | '.' :: r => (r.takeWhile isDigit, r.drop (r.takeWhile isDigit).length)
    | _ => ([], rest1)
  if intPart.length + fracPart.length = 0 then none
  else
    let mant := digitsToNat (intPart ++ fracPart) 0
    let exp0 : Int := -(fracPart.length : Int)
    match rest2 with
    | [] => some (mant, exp0)
    | e :: r =>
      if e = 'e' ∨ e = 'E' then
        let (esign, r') : Int × Str :=
          match r with
          | '+' :: r' => (1, r')
          | '-' :: r' => (-1, r')
          | _ => (1, r)
        let edigits := r'.takeWhile isDigit
        if edigits.length = 0 ∨ r'.length ≠ edigits.length then none
        else some (mant, exp0 + esign * (digitsToNat edigits 0 : Int))
      else none

/-- `strconv.ParseFloat(s, 64)`, as a partial model: decimal and
special-value syntax with digit-group underscores.  `none` is a parse (or
range) error, in which case every caller in the library drops the segment.
Out of the model's scope (documented, not relied on by any claim):
hexadecimal float literals, and the exact IEEE overflow/underflow
thresholds — the model rejects decimal magnitudes above `10^309` or below
`10^(-324)` where Go tests rounding to `±Inf`/`0`. -/
def parseGoFloat (s : Str) : Option GoF :=
  let ls := goLower s
  if ls = "inf".data ∨ ls = "infinity".data ∨ ls = "+inf".data ∨ ls = "+infinity".data then
    some .inf
  else if ls = "-inf".data ∨ ls = "-infinity".data then some .ninf
  else if ls = "nan".data then some .nan
  else
    let (sign, body) : Int × Str :=
      match s with
      | '+' :: r => (1, r)
      | '-' :: r => (-1, r)
      | _ => (1, s)
    if ¬ underscoresOK body then none
    else
      match parsePlainFloat (body.filter (· ≠ '_')) with
      | none => none
      | some (mant, exp10) =>
        if mant = 0 then some (.num 0)
        else
          let mag : Int := exp10 + (natDigits mant mant : Nat)
          if mag > 309 ∨ mag < -324 then none
          else
            match exp10 with
            | .ofNat e => some (.num (mkRat (sign * mant * (10 ^ e : Nat)) 1))
            | .negSucc e => some (.num (mkRat (sign * mant) (10 ^ (e + 1))))

end Negotiator

namespace Negotiator

/-- Tail of a match against `(?:;(.*))?$` in `regexp2`: `.` does not match a
newline, and `$` also matches just before a single final newline, so the
group-2 text is `rest` itself when it has no newline, `rest` minus a final
newline when that is its only newline, and there is no match otherwise. -/
def dollarRest (rest : Str) : Option Str :=
  if '\n' ∈ rest then
    if rest.getLast? = some '\n' ∧ '\n' ∉ rest.dropLast then some rest.dropLast
    else none
  else some rest

/-- The anchored pattern `^\s*([^\s;]+)\s*(?:;(.*))?$` of
`simpleCharsetRegExp` and `simpleEncodingRegExp`, as the equivalent
maximal-munch scanner: leading whitespace, a nonempty token of
non-whitespace non-semicolon characters, whitespace, then either the end or
a `;` followed by the group-2 text. -/
def simpleCharsetRegExpMatch (s : Str) : Option (Str × Str) :=
  let s1 := s.dropWhile goIsSpace
  let tok := s1.takeWhile fun c => ¬ goIsSpace c ∧ c ≠ ';'
  if tok.isEmpty then none
  else
    match (s1.drop tok.length).dropWhile goIsSpace with
    | [] => some (tok, [])
    | ';' :: rest => (dollarRest rest).map fun g2 => (tok, g2)
    | _ => none

/-- Result of scanning a parameter list for `q` in `parseCharset`,
`parseEncoding` and `parseLanguage`: `.error ()` is the Go panic on a
parameter that is exactly `q` (the code indexes `p[1]` after splitting on
`=`), `.ok none` drops the segment (`q` value fails to parse), `.ok (some
q)` is the final quality (`1` when no `q` parameter occurs). -/
def qScan : List Str → Except Unit (Option GoF)
  | [] => .ok (some (.num 1))
  | piece :: rest =>
    match splitCh '=' (trimSp piece) with
    | [] => qScan rest
    | [k] => if k = "q".data then .error () else qScan rest
    | k :: v :: _ =>
      if k = "q".data then
        match parseGoFloat v with
        | none => .ok none
        | some q => .ok (some q)
      else qScan rest

/-- One parsed `Accept-Charset` entry (`acceptCharset` in Go). -/
structure AcceptCharset where
  charset : Str
  q : GoF
  i : Int
deriving Repr, DecidableEq

/-- `parseCharset(s, i)`.  `.error ()` models the Go panic (see `qScan`). -/
def parseCharset (s : Str) (i : Int) : Except Unit (Option AcceptCharset) :=
  match simpleCharsetRegExpMatch s with
  | none => .ok none
  | some (tok, g2) =>
    if g2 ≠ [] then
      match qScan (splitCh ';' g2) with
      | .error () => .error ()
      | .ok none => .ok none
      | .ok (some q) => .ok (some ⟨tok, q, i⟩)
    else .ok (some ⟨tok, .num 1, i⟩)

/-- Segment loop of `parseAcceptCharset`. -/
def parseAcceptCharsetAux : List Str → Int → Except Unit (List AcceptCharset)
  | [], _ => .ok []
  | seg :: rest, i => do
    let e ← parseCharset (trimSp seg) i
    let tail ← parseAcceptCharsetAux rest (i + 1)
    match e with
    | none => pure tail
    | some ac => pure (ac :: tail)

/-- `parseAcceptCharset(accept)`. -/
def parseAcceptCharset (accept : Str) : Except Unit (List AcceptCharset) :=
  parseAcceptCharsetAux (splitCh ',' accept) 0

/-- The shared `specificity` record: candidate index `i`, matched entry
order `o`, quality `q`, specificity bits `s`. -/
structure Specificity where
  i : Int
  o : Int
  q : GoF
  s : Int
deriving Repr, DecidableEq

/-- The sentinel priority `specificity{o: -1, q: 0, s: 0}` (Go zero value
`i = 0`). -/
def sentinelSpec : Specificity := ⟨0, -1, .num 0, 0⟩

/-- Go `==` on two `specificity` values (field-wise, float equality on `q`,
hence false when either quality is NaN). -/
def specEqGo (a b : Specificity) : Bool :=
  a.i = b.i ∧ a.o = b.o ∧ GoF.goEq a.q b.q ∧ a.s = b.s

/-- `specificities.indexOf`: index of the first Go-equal element, `-1` if
none. -/
def indexOfSpec (ss : List Specificity) (v : Specificity) : Int :=
  indexOfSpecAux ss v 0
where
  indexOfSpecAux : List Specificity → Specificity → Int → Int
    | [], _, _ => -1
    | x :: rest, v, k => if specEqGo x v then k else indexOfSpecAux rest v (k + 1)

/-- `charsetSpecify(charset, ac, index)`: bit 1 on case-insensitive
equality, otherwise a wildcard entry matches with bits 0, otherwise no
match. -/
def charsetSpecify (charset : Str) (ac : AcceptCharset) (index : Int) : Option Specificity :=
  if goLower ac.charset = goLower charset then some ⟨index, ac.i, ac.q, 1⟩
  else if ac.charset ≠ "*".data then none
  else some ⟨index, ac.i, ac.q, 0⟩

/-- The running-priority update shared by all `getXPriority` functions: the
incumbent is replaced when `priority.s - spec.s < 0 || priority.q - spec.q
< 0 || priority.o - spec.o < 0` — an unguarded disjunction, not a
lexicographic comparison. -/
def priorityStep (pr : Specificity) (spec : Specificity) : Specificity :=
  if pr.s - spec.s < 0 ∨ GoF.lt (GoF.sub pr.q spec.q) (.num 0) ∨ pr.o - spec.o < 0 then
    spec
  else pr

/-- Entry loop of `getCharsetPriority`. -/
def getCharsetPriorityAux (charset : Str) (index : Int) :
    List AcceptCharset → Specificity → Specificity
  | [], pr => pr
  | ac :: rest, pr =>
    match charsetSpecify charset ac index with
    | none => getCharsetPriorityAux charset index rest pr
    | some spec => getCharsetPriorityAux charset index rest (priorityStep pr spec)

/-- `getCharsetPriority(charset, acs, index)`. -/
def getCharsetPriority (charset : Str) (acs : List AcceptCharset) (index : Int) : Specificity :=
  getCharsetPriorityAux charset index acs sentinelSpec

/-- `isAcceptCharsetQuality`: quality strictly positive. -/
def isAcceptCharsetQuality (ac : AcceptCharset) : Bool := GoF.gt ac.q (.num 0)

/-- `isSpecificityQuality`: resolved quality strictly positive. -/
def isSpecificityQuality (s : Specificity) : Bool := GoF.gt s.q (.num 0)

end Negotiator

namespace Negotiator

section GoSort

variable {α : Type} (lt : α → α → Bool) (d : α)

/-- In-place element read `data[i]` (with a default, only reachable in
bounds during real runs). -/
def rdL (l : List α) (i : Nat) : α := l.getD i d

/-- `data.Less(i, j)`. -/
def lessL (l : List α) (i j : Nat) : Bool := lt (rdL d l i) (rdL d l j)

/-- `data.Swap(i, j)` (identity when an index is out of range). -/
def swapL (l : List α) (i j : Nat) : List α :=
  match l[i]?, l[j]? with
  | some x, some y => (l.set i y).set j x
  | _, _ => l

/-- Inner bubble of Go `insertionSort`: `for j := i; j > a &&
data.Less(j, j-1); j--  { data.Swap(j, j-1) }`. -/
def insBubble (a : Nat) : Nat → List α → List α
  | 0, l => l
  | j + 1, l =>
    if a < j + 1 ∧ lessL lt d l (j + 1) j then insBubble a j (swapL l (j + 1) j)
    else l

/-- Outer loop of Go `insertionSort`: `for i := a + 1; i < b; i++`. -/
def insLoop (a b : Nat) : Nat → Nat → List α → List α
  | 0, _, l => l
  | fuel + 1, i, l =>
    if i < b then insLoop a b fuel (i + 1) (insBubble lt d a i l) else l

/-- Go `insertionSort(data, a, b)`. -/
def insertionSortGo (l : List α) (a b : Nat) : List α :=
  insLoop lt d a b b (a + 1) l

/-- Shell pass of Go `quickSort` for ranges of at most 12 elements:
`for i := a + 6; i < b; i++ { if data.Less(i, i-6) { data.Swap(i, i-6) } }`. -/
def shellLoop (b : Nat) : Nat → Nat → List α → List α
  | 0, _, l => l
  | fuel + 1, i, l =>
    if i < b then
      shellLoop b fuel (i + 1) (if lessL lt d l i (i - 6) then swapL l i (i - 6) else l)
    else l

/-- Go `siftDown(data, lo, hi, first)` (fuel bounds the strictly growing
root). -/
def siftDownGo : Nat → Nat → Nat → Nat → List α → List α
  | 0, _, _, _, l => l
  | fuel + 1, root, hi, first, l =>
    let child := 2 * root + 1
    if child ≥ hi then l
    else
      let child :=
        if child + 1 < hi ∧ lessL lt d l (first + child) (first + child + 1) then child + 1
        else child
      if ¬ lessL lt d l (first + root) (first + child) then l
      else siftDownGo fuel child hi first (swapL l (first + root) (first + child))

/-- Heap-building loop of Go `heapSort`, running `siftDown` for
`i, i-1, …, 0`. -/
def heapBuild (hi first : Nat) : Nat → List α → List α
  | 0, l => siftDownGo lt d (hi + 1) 0 hi first l
  | i + 1, l => heapBuild hi first i (siftDownGo lt d (hi + 1) (i + 1) hi first l)

/-- Pop loop of Go `heapSort`, running `Swap(first, first+i); siftDown(lo,
i, first)` for `i = hi-1, …, 0`. -/
def heapPop (first : Nat) : Nat → List α → List α
  | 0, l => siftDownGo lt d 1 0 0 first (swapL l first first)
  | i + 1, l => heapPop first i (siftDownGo lt d (i + 2) 0 (i + 1) first (swapL l first (first + i + 1)))

/-- Go `heapSort(data, a, b)`. -/
def heapSortGo (l : List α) (a b : Nat) : List α :=
  let hi := b - a
  heapPop lt d a (hi - 1) (heapBuild lt d hi a ((hi - 1) / 2) l)

/-- Go `medianOfThree(data, m1, m0, m2)`. -/
def medianOfThreeGo (l : List α) (m1 m0 m2 : Nat) : List α :=
  let l := if lessL lt d l m1 m0 then swapL l m1 m0 else l
  if lessL lt d l m2 m1 then
    let l := swapL l m2 m1
    if lessL lt d l m1 m0 then swapL l m1 m0 else l
  else l

/-- First skip loop of `doPivot`: `for ; a < c && data.Less(a, pivot); a++`. -/
def dpSkipA : Nat → Nat → Nat → Nat → List α → Nat
  | 0, a, _, _, _ => a
  | fuel + 1, a, c, pivot, l =>
    if a < c ∧ lessL lt d l a pivot then dpSkipA fuel (a + 1) c pivot l else a

/-- `for ; b < c && !data.Less(pivot, b); b++`. -/
def dpSkipB : Nat → Nat → Nat → Nat → List α → Nat
  | 0, b, _, _, _ => b
  | fuel + 1, b, c, pivot, l =>
    if b < c ∧ ¬ lessL lt d l pivot b then dpSkipB fuel (b + 1) c pivot l else b

/-- `for ; b < c && data.Less(pivot, c-1); c--`. -/
def dpSkipC : Nat → Nat → Nat → Nat → List α → Nat
  | 0, c, _, _, _ => c
  | fuel + 1, c, b, pivot, l =>
    if b < c ∧ lessL lt d l pivot (c - 1) then dpSkipC fuel (c - 1) b pivot l else c

/-- Main partition loop of `doPivot`. -/
def dpLoop (pivot : Nat) : Nat → Nat → Nat → List α → List α × Nat × Nat
  | 0, b, c, l => (l, b, c)
  | fuel + 1, b, c, l =>
    let b' := dpSkipB lt d (c + 1) b c pivot l
    let c' := dpSkipC lt d (c + 1) c b' pivot l
    if b' ≥ c' then (l, b', c')
    else dpLoop pivot fuel (b' + 1) (c' - 1) (swapL l b' (c' - 1))

/-- `for ; a < b && !data.Less(b-1, pivot); b--`. -/
def dpSkipB2 : Nat → Nat → Nat → Nat → List α → Nat
  | 0, b, _, _, _ => b
  | fuel + 1, b, a, pivot, l =>
    if a < b ∧ ¬ lessL lt d l (b - 1) pivot then dpSkipB2 fuel (b - 1) a pivot l else b

/-- `for ; a < b && data.Less(a, pivot); a++`. -/
def dpSkipA2 : Nat → Nat → Nat → Nat → List α → Nat
  | 0, a, _, _, _ => a
  | fuel + 1, a, b, pivot, l =>
    if a < b ∧ lessL lt d l a pivot then dpSkipA2 fuel (a + 1) b pivot l else a

/-- Duplicate-protection loop of `doPivot`. -/
def dpProtLoop (pivot : Nat) : Nat → Nat → Nat → List α → List α × Nat
  | 0, _, b, l => (l, b)
  | fuel + 1, a, b, l =>
    let b' := dpSkipB2 lt d (b + 1) b a pivot l
    let a' := dpSkipA2 lt d (b' + 1) a b' pivot l
    if a' ≥ b' then (l, b')
    else dpProtLoop pivot fuel (a' + 1) (b' - 1) (swapL l a' (b' - 1))

/-- Tukey-ninther pre-pass of `doPivot` for ranges longer than 40. -/
def dpNinther (l : List α) (lo hi m : Nat) : List α :=
  if hi - lo > 40 then
    let s := (hi - lo) / 8
    let l := medianOfThreeGo lt d l lo (lo + s) (lo + 2 * s)
    let l := medianOfThreeGo lt d l m (m - s) (m + s)
    medianOfThreeGo lt d l (hi - 1) (hi - 1 - s) (hi - 1 - 2 * s)
  else l

/-- Duplicate-detection block of `doPivot` (sets `protect`). -/
def dpDups (l : List α) (lo hi m pivot b c : Nat) : List α × Nat × Nat × Bool :=
  let protect : Bool := hi - c < 5
  if protect = false ∧ hi - c < (hi - lo) / 4 then
    let (l, c, dups) :=
      if ¬ lessL lt d l pivot (hi - 1) then (swapL l c (hi - 1), c + 1, 1) else (l, c, 0)
    let (b, dups) :=
      if ¬ lessL lt d l (b - 1) pivot then (b - 1, dups + 1) else (b, dups)
    let (l, b, dups) :=
      if ¬ lessL lt d l m pivot then (swapL l m (b - 1), b - 1, dups + 1) else (l, b, dups)
    (l, b, c, decide (dups > 1))
  else (l, b, c, protect)

/-- Go `doPivot(data, lo, hi)`, returning the permuted data together with
`(midlo, midhi)`.  Only invoked with `hi - lo > 12`, where the Go `int`
arithmetic coincides with the `Nat` arithmetic used here. -/
def doPivotGo (l : List α) (lo hi : Nat) : List α × Nat × Nat :=
  let m := (lo + hi) / 2
  let l := dpNinther lt d l lo hi m
  let l := medianOfThreeGo lt d l lo m (hi - 1)
  let pivot := lo
  let a := dpSkipA lt d hi (lo + 1) (hi - 1) pivot l
  let (l, b, c) := dpLoop lt d pivot hi a (hi - 1) l
  let (l, b, c, protect) := dpDups lt d l lo hi m pivot b c
  let (l, b) := if protect then dpProtLoop lt d pivot hi a b l else (l, b)
  let l := swapL l pivot (b - 1)
  (l, b - 1, c)

/-- Go `quickSort(data, a, b, maxDepth)`; the loop with the shrinking
interval is unfolded into recursion (fuel dominates the loop count since
every iteration strictly shrinks `b - a`). -/
def quickSortGo : Nat → Nat → Nat → Nat → List α → List α
  | 0, _, _, _, l => l
  | fuel + 1, a, b, depth, l =>
    if b - a > 12 then
      if depth = 0 then heapSortGo lt d l a b
      else
        let (l, mlo, mhi) := doPivotGo lt d l a b
        if mlo - a < b - mhi then
          let l := quickSortGo fuel a mlo (depth - 1) l
          quickSortGo fuel mhi b (depth - 1) l
        else
          let l := quickSortGo fuel mhi b (depth - 1) l
          quickSortGo fuel a mlo (depth - 1) l
    else if b - a > 1 then
      insertionSortGo lt d (shellLoop lt d b b (a + 6) l) a b
    else l

/-- Bit-length loop of Go `maxDepth`. -/
def maxDepthLoop : Nat → Nat → Nat
  | 0, _ => 0
  | fuel + 1, n => if n = 0 then 0 else maxDepthLoop fuel (n / 2) + 1

/-- Go `maxDepth(n)`: `2 * ⌈lg(n+1)⌉`. -/
def maxDepthGo (n : Nat) : Nat := 2 * maxDepthLoop n n

/-- Go `sort.Sort` (Go 1.14) with comparator `lt`. -/
def sortGo (l : List α) : List α :=
  quickSortGo lt d (l.length + 1) 0 l.length (maxDepthGo l.length) l

end GoSort

end Negotiator

namespace Negotiator

/-- Default elements used to instantiate the sort (reads outside bounds are
unreachable during real runs). -/
def dummyCharset : AcceptCharset := ⟨[], .num 0, 0⟩

/-- Default `Specificity` for the sort instantiation. -/
def dummySpec : Specificity := ⟨0, 0, .num 0, 0⟩

/-- The inline no-candidate comparator of `PreferredCharsets`:
`ac1.q > ac2.q || ac1.i < ac2.i` (an unguarded disjunction). -/
def acceptCharsetBy (ac1 ac2 : AcceptCharset) : Bool :=
  GoF.gt ac1.q ac2.q ∨ ac1.i < ac2.i

/-- The inline candidate-mode comparator of `PreferredCharsets` and
`PreferredMediaTypes`: `s1.q > s2.q || s1.s < s2.s || s1.o < s2.o ||
s1.i < s2.i` (an unguarded disjunction). -/
def specDisjBy (s1 s2 : Specificity) : Bool :=
  GoF.gt s1.q s2.q ∨ s1.s < s2.s ∨ s1.o < s2.o ∨ s1.i < s2.i

/-- `acceptCharsets.toCharsets`. -/
def toCharsets (acs : List AcceptCharset) : List Str := acs.map AcceptCharset.charset

/-- `getCharsetSpecificities(types, acs)`: one priority per candidate, at
the candidate's position. -/
def getCharsetSpecificitiesAux (acs : List AcceptCharset) : List Str → Int → List Specificity
  | [], _ => []
  | v :: rest, i => getCharsetPriority v acs i :: getCharsetSpecificitiesAux acs rest (i + 1)

/-- `getCharsetSpecificities(types, acs)`. -/
def getCharsetSpecificities (types : List Str) (acs : List AcceptCharset) : List Specificity :=
  getCharsetSpecificitiesAux acs types 0

/-- The projection loop shared by all candidate-mode selectors: for each
sorted priority look up its first Go-equal index among the unsorted
priorities and emit the candidate at that index. -/
def projectResults (priorities : List Specificity) (provided : List Str) :
    List Specificity → List Str
  | [] => []
  | v :: rest =>
    let i := indexOfSpec priorities v
    if i ≥ 0 then provided.getD i.toNat [] :: projectResults priorities provided rest
    else projectResults priorities provided rest

/-- `PreferredCharsets(accept, provided...)`. -/
def PreferredCharsets (accept : Str) (provided : List Str) : Except Unit (List Str) := do
  let acs ← parseAcceptCharset accept
  if provided.length = 0 then
    let filteredAcs := acs.filter isAcceptCharsetQuality
    pure (toCharsets (sortGo acceptCharsetBy dummyCharset filteredAcs))
  else
    let priorities := getCharsetSpecificities provided acs
    let filteredPriorities := priorities.filter isSpecificityQuality
    pure (projectResults priorities provided (sortGo specDisjBy dummySpec filteredPriorities))

/-- One parsed `Accept-Encoding` entry (`acceptEncoding` in Go). -/
structure AcceptEncoding where
  encoding : Str
  q : GoF
  i : Int
deriving Repr, DecidableEq

/-- `parseEncoding(s, i)` (same shape as `parseCharset`). -/
def parseEncoding (s : Str) (i : Int) : Except Unit (Option AcceptEncoding) :=
  match simpleCharsetRegExpMatch s with
  | none => .ok none
  | some (tok, g2) =>
    if g2 ≠ [] then
      match qScan (splitCh ';' g2) with
      | .error () => .error ()
      | .ok none => .ok none
      | .ok (some q) => .ok (some ⟨tok, q, i⟩)
    else .ok (some ⟨tok, .num 1, i⟩)

/-- `encodingSpecify(encoding, ac, index)` (same rule as
`charsetSpecify`). -/
def encodingSpecify (encoding : Str) (ac : AcceptEncoding) (index : Int) : Option Specificity :=
  if goLower ac.encoding = goLower encoding then some ⟨index, ac.i, ac.q, 1⟩
  else if ac.encoding ≠ "*".data then none
  else some ⟨index, ac.i, ac.q, 0⟩

/-- Segment loop of `parseAcceptEncoding`, carrying the `hasIdentity` flag
and the running `math.Min` of the parsed qualities. -/
def parseAcceptEncodingAux :
    List Str → Int → Bool → GoF → Except Unit (List AcceptEncoding × Bool × GoF)
  | [], _, hasId, minQ => .ok ([], hasId, minQ)
  | seg :: rest, i, hasId, minQ => do
    match ← parseEncoding (trimSp seg) i with
    | none => parseAcceptEncodingAux rest (i + 1) hasId minQ
    | some enc => do
      let spec := encodingSpecify "identity".data enc 0
      let (tail, hasId', minQ') ←
        parseAcceptEncodingAux rest (i + 1) (hasId || spec.isSome) (GoF.goMin minQ enc.q)
      pure (enc :: tail, hasId', minQ')

/-- `parseAcceptEncoding(accept)`: parse the segments and, when no parsed
entry matches `identity`, append the synthetic identity entry with the
minimum observed quality and order `len(accepts)` (the raw segment
count). -/
def parseAcceptEncoding (accept : Str) : Except Unit (List AcceptEncoding) := do
  let accepts := splitCh ',' accept
  let (results, hasIdentity, minQuality) ← parseAcceptEncodingAux accepts 0 false (.num 1)
  if hasIdentity = false then
    pure (results ++ [⟨"identity".data, minQuality, (accepts.length : Int)⟩])
  else pure results

/-- `isAcceptEncodingQuality`. -/
def isAcceptEncodingQuality (ac : AcceptEncoding) : Bool := GoF.gt ac.q (.num 0)

/-- Modelled from the spec: `compareSpecs`, the candidate-mode specificity
comparator used by `PreferredEncodings` and `PreferredLanguages`, is
referenced but not among the provided sources; §4.5 of the spec prescribes
sorting by quality descending, then specificity bits ascending, then
matched-entry order ascending, then candidate order ascending, which is
this lexicographic comparator. -/
def compareSpecs (s1 s2 : Specificity) : Bool :=
  if GoF.goEq s1.q s2.q = false then GoF.gt s1.q s2.q
  else if s1.s ≠ s2.s then decide (s1.s < s2.s)
  else if s1.o ≠ s2.o then decide (s1.o < s2.o)
  else decide (s1.i < s2.i)

end Negotiator

namespace Negotiator

/-- One parsed `Accept-Language` entry (`acceptLanguage` in Go; the Go
field `prefix` is a Lean keyword and is named `primary` here, as in the
specification). -/
structure AcceptLanguage where
  primary : Str
  suffix : Str
  full : Str
  q : GoF
  i : Int
deriving Repr, DecidableEq

/-- The anchored pattern `^\s*([^\s\-;]+)(?:-([^\s;]+))?\s*(?:;(.*))?$` of
`simpleLanguageRegExp` as the equivalent maximal-munch scanner, returning
`(primary, suffix, group 3)`; the suffix may itself contain `-`. -/
def simpleLanguageRegExpMatch (s : Str) : Option (Str × Str × Str) :=
  let s1 := s.dropWhile goIsSpace
  let g1 := s1.takeWhile fun c => ¬ goIsSpace c ∧ c ≠ '-' ∧ c ≠ ';'
  if g1.isEmpty then none
  else
    let s2 := s1.drop g1.length
    let cont : Str → Str → Option (Str × Str × Str) := fun suffix s3 =>
      match s3.dropWhile goIsSpace with
      | [] => some (g1, suffix, [])
      | ';' :: rest => (dollarRest rest).map fun g3 => (g1, suffix, g3)
      | _ => none
    match s2 with
    | '-' :: rest2 =>
      let g2 := rest2.takeWhile fun c => ¬ goIsSpace c ∧ c ≠ ';'
      if g2.isEmpty then none else cont g2 (rest2.drop g2.length)
    | _ => cont [] s2

/-- `parseLanguage(s, i)`.  `.error ()` models the Go panic (see `qScan`). -/
def parseLanguage (s : Str) (i : Int) : Except Unit (Option AcceptLanguage) :=
  match simpleLanguageRegExpMatch s with
  | none => .ok none
  | some (primary, suffix, g3) =>
    let full := if suffix ≠ [] then primary ++ '-' :: suffix else primary
    if g3 ≠ [] then
      match qScan (splitCh ';' g3) with
      | .error () => .error ()
      | .ok none => .ok none
      | .ok (some q) => .ok (some ⟨primary, suffix, full, q, i⟩)
    else .ok (some ⟨primary, suffix, full, .num 1, i⟩)

/-- Segment loop of `parseAcceptLanguage`. -/
def parseAcceptLanguageAux : List Str → Int → Except Unit (List AcceptLanguage)
  | [], _ => .ok []
  | seg :: rest, i => do
    let e ← parseLanguage (trimSp seg) i
    let tail ← parseAcceptLanguageAux rest (i + 1)
    match e with
    | none => pure tail
    | some ac => pure (ac :: tail)

/-- `parseAcceptLanguage(accept)`. -/
def parseAcceptLanguage (accept : Str) : Except Unit (List AcceptLanguage) :=
  parseAcceptLanguageAux (splitCh ',' accept) 0

/-- Pure part of `languageSpecify`, after the candidate has been reparsed
(`p?` is the `parseLanguage` result): bits 4 on full = full, else 2 on
entry primary = candidate full, else 1 on entry full = candidate primary
(all case-insensitive), else 0 for a wildcard entry, else no match. -/
def languageSpecifyCore (p? : Option AcceptLanguage) (ac : AcceptLanguage) (index : Int) :
    Option Specificity :=
  match p? with
  | none => none
  | some p =>
    if goLower ac.full = goLower p.full then some ⟨index, ac.i, ac.q, 4⟩
    else if goLower ac.primary = goLower p.full then some ⟨index, ac.i, ac.q, 2⟩
    else if goLower ac.full = goLower p.primary then some ⟨index, ac.i, ac.q, 1⟩
    else if ac.full ≠ "*".data then none
    else some ⟨index, ac.i, ac.q, 0⟩

/-- `languageSpecify(language, ac, index)`: reparse the candidate (which
can panic, see `qScan`) and score it with `languageSpecifyCore`. -/
def languageSpecify (language : Str) (ac : AcceptLanguage) (index : Int) :
    Except Unit (Option Specificity) := do
  let p? ← parseLanguage language index
  pure (languageSpecifyCore p? ac index)

/-- Entry loop of `getLanguagePriority`. -/
def getLanguagePriorityAux (language : Str) (index : Int) :
    List AcceptLanguage → Specificity → Except Unit Specificity
  | [], pr => .ok pr
  | ac :: rest, pr => do
    match ← languageSpecify language ac index with
    | none => getLanguagePriorityAux language index rest pr
    | some spec => getLanguagePriorityAux language index rest (priorityStep pr spec)

/-- `getLanguagePriority(language, acs, index)`. -/
def getLanguagePriority (language : Str) (acs : List AcceptLanguage) (index : Int) :
    Except Unit Specificity :=
  getLanguagePriorityAux language index acs sentinelSpec

/-- `isAcceptLanguageQuality`. -/
def isAcceptLanguageQuality (ac : AcceptLanguage) : Bool := GoF.gt ac.q (.num 0)

/-- The no-candidate comparator of `PreferredLanguages` — unlike the
charset/media-type ones this one guards on quality equality, so it is a
genuine lexicographic comparison. -/
def acceptLanguageBy (ac1 ac2 : AcceptLanguage) : Bool :=
  if GoF.goEq ac1.q ac2.q = false then GoF.gt ac1.q ac2.q
  else decide (ac1.i < ac2.i)

/-- `acceptLanguages.toLanguages`: the entries' `full` strings. -/
def toLanguages (acs : List AcceptLanguage) : List Str := acs.map AcceptLanguage.full

/-- `getLanguageSpecificities(types, acs)`. -/
def getLanguageSpecificitiesAux (acs : List AcceptLanguage) :
    List Str → Int → Except Unit (List Specificity)
  | [], _ => .ok []
  | v :: rest, i => do
    let pr ← getLanguagePriority v acs i
    let tail ← getLanguageSpecificitiesAux acs rest (i + 1)
    pure (pr :: tail)

/-- `getLanguageSpecificities(types, acs)`. -/
def getLanguageSpecificities (types : List Str) (acs : List AcceptLanguage) :
    Except Unit (List Specificity) :=
  getLanguageSpecificitiesAux acs types 0

/-- Default `AcceptLanguage` for the sort instantiation. -/
def dummyLanguage : AcceptLanguage := ⟨[], [], [], .num 0, 0⟩

/-- `PreferredLanguages(accept, provided...)`. -/
def PreferredLanguages (accept : Str) (provided : List Str) : Except Unit (List Str) := do
  let acs ← parseAcceptLanguage accept
  if provided.length = 0 then
    let filteredAcs := acs.filter isAcceptLanguageQuality
    pure (toLanguages (sortGo acceptLanguageBy dummyLanguage filteredAcs))
  else
    let priorities ← getLanguageSpecificities provided acs
    let filteredPriorities := priorities.filter isSpecificityQuality
    pure (projectResults priorities provided (sortGo compareSpecs dummySpec filteredPriorities))

end Negotiator

namespace Negotiator

/-- One parsed `Accept` entry (`acceptMediaType` in Go).  The Go
`map[string]string` is an association list with pairwise-distinct keys in
insertion order; the code only reads it through its key set and lookups, so
Go's randomized map iteration order is not observable. -/
structure AcceptMediaType where
  mainType : Str
  subtype : Str
  params : List (Str × Str)
  q : GoF
  i : Int
deriving Repr, DecidableEq

/-- `quoteCount(s)`: number of `"` characters. -/
def quoteCount (s : Str) : Nat := s.count '"'

/-- Accumulating loop shared by `splitMediaTypes` and `splitParameters`:
re-join pieces while the accumulated piece has an odd quote count. -/
def mergeQuotedAux (delim : Char) (cur : Str) : List Str → List Str
  | [] => [cur]
  | p :: rest =>
    if quoteCount cur % 2 = 0 then cur :: mergeQuotedAux delim p rest
    else mergeQuotedAux delim (cur ++ delim :: p) rest

/-- Quote-aware re-joining of split pieces. -/
def mergeQuoted (delim : Char) : List Str → List Str
  | [] => []
  | p :: rest => mergeQuotedAux delim p rest

/-- `splitMediaTypes(accept)`. -/
def splitMediaTypes (accept : Str) : List Str :=
  mergeQuoted ',' (splitCh ',' accept)

/-- `splitParameters(str)` (quote-aware split on `;`, each piece trimmed of
spaces). -/
def splitParameters (str : Str) : List Str :=
  (mergeQuoted ';' (splitCh ';' str)).map trimSp

/-- `splitKeyValuePair(s)`: split at the first `=` (`strings.Index`),
value empty when there is none. -/
def splitKeyValuePair (s : Str) : Str × Str :=
  match s.findIdx? (· = '=') with
  | none => (s, [])
  | some idx => (s.take idx, s.drop (idx + 1))

/-- The anchored pattern `^\s*([^\s\/;]+)\/([^;\s]+)\s*(?:;(.*))?$` of
`simpleMediaTypeRegExp` as the equivalent maximal-munch scanner, returning
`(type, subtype, group 3)`; the subtype may itself contain `/`. -/
def simpleMediaTypeRegExpMatch (s : Str) : Option (Str × Str × Str) :=
  let s1 := s.dropWhile goIsSpace
  let g1 := s1.takeWhile fun c => ¬ goIsSpace c ∧ c ≠ '/' ∧ c ≠ ';'
  if g1.isEmpty then none
  else
    match s1.drop g1.length with
    | '/' :: rest2 =>
      let g2 := rest2.takeWhile fun c => c ≠ ';' ∧ ¬ goIsSpace c
      if g2.isEmpty then none
      else
        match (rest2.drop g2.length).dropWhile goIsSpace with
        | [] => some (g1, g2, [])
        | ';' :: rest => (dollarRest rest).map fun g3 => (g1, g2, g3)
        | _ => none
    | _ => none

/-- Quote stripping of a parameter value in `parseMediaType`:
`val[1:int(math.Max(float64(len(val)-1), 1))]` when the value is nonempty
and starts and ends with `"` (for the one-character value `"` this is
`val[1:1] = ""`, never an out-of-range read). -/
def stripQuotesGo (val : Str) : Str :=
  if val ≠ [] ∧ val.head? = some '"' ∧ val.getLast? = some '"' then
    (val.take (max (val.length - 1) 1)).drop 1
  else val

/-- Go map assignment `params[key] = val` on the association-list model. -/
def insertAssoc : List (Str × Str) → Str → Str → List (Str × Str)
  | [], k, v => [(k, v)]
  | (k', v') :: rest, k, v =>
    if k' = k then (k', v) :: rest else (k', v') :: insertAssoc rest k v

/-- Go map read `m[k]` (zero value `""` when absent). -/
def lookupAssocD (params : List (Str × Str)) (k : Str) : Str :=
  match params with
  | [] => []
  | (k', v) :: rest => if k' = k then v else lookupAssocD rest k

/-- Parameter loop of `parseMediaType`: lowercase the key, strip quotes
from the value, stop at the first `q` key (failing the whole segment when
its value does not parse), store every pair seen before it. -/
def mediaParamsScan : List (Str × Str) → List (Str × Str) → Option (List (Str × Str) × GoF)
  | [], params => some (params, .num 1)
  | (k, v) :: rest, params =>
    let key := goLower k
    let val := stripQuotesGo v
    if key = "q".data then
      match parseGoFloat val with
      | none => none
      | some q => some (params, q)
    else mediaParamsScan rest (insertAssoc params key val)

/-- `parseMediaType(s, i)` (total: its parameter loop indexes no slice out
of range). -/
def parseMediaType (s : Str) (i : Int) : Option AcceptMediaType :=
  match simpleMediaTypeRegExpMatch s with
  | none => none
  | some (mainType, subType, g3) =>
    if g3 ≠ [] then
      let arr := (splitParameters g3).map splitKeyValuePair
      match mediaParamsScan arr [] with
      | none => none
      | some (params, q) => some ⟨mainType, subType, params, q, i⟩
    else some ⟨mainType, subType, [], .num 1, i⟩

/-- Segment loop of `parseAcceptMediaType`. -/
def parseAcceptMediaTypeAux : List Str → Int → List AcceptMediaType
  | [], _ => []
  | seg :: rest, i =>
    match parseMediaType (trimSp seg) i with
    | none => parseAcceptMediaTypeAux rest (i + 1)
    | some mt => mt :: parseAcceptMediaTypeAux rest (i + 1)

/-- `parseAcceptMediaType(accept)`. -/
def parseAcceptMediaType (accept : Str) : List AcceptMediaType :=
  parseAcceptMediaTypeAux (splitMediaTypes accept) 0

/-- `mediaTypeSpecify(mediaType, ac, index)`: reparse the candidate; bit 4
for a type match (wildcard entry type passes with no bit), bit 2 likewise
for the subtype, bit 1 when the entry has parameters and each one is `*` or
matches the candidate's value case-insensitively (a missing candidate key
reads as `""`). -/
def mediaTypeSpecify (mediaType : Str) (ac : AcceptMediaType) (index : Int) :
    Option Specificity :=
  match parseMediaType mediaType index with
  | none => none
  | some p =>
    let sMain : Option Int :=
      if goLower ac.mainType = goLower p.mainType then some 4
      else if ac.mainType ≠ "*".data then none
      else some 0
    match sMain with
    | none => none
    | some s0 =>
      let sSub : Option Int :=
        if goLower ac.subtype = goLower p.subtype then some (s0 + 2)
        else if ac.subtype ≠ "*".data then none
        else some s0
      match sSub with
      | none => none
      | some s1 =>
        if ac.params.length > 0 then
          if ac.params.all fun kv =>
              kv.2 = "*".data ∨ goLower kv.2 = goLower (lookupAssocD p.params kv.1) then
            some ⟨index, ac.i, ac.q, s1 + 1⟩
          else none
        else some ⟨index, ac.i, ac.q, s1⟩

/-- Entry loop of `getMediaTypePriority`. -/
def getMediaTypePriorityAux (mediaType : Str) (index : Int) :
    List AcceptMediaType → Specificity → Specificity
  | [], pr => pr
  | ac :: rest, pr =>
    match mediaTypeSpecify mediaType ac index with
    | none => getMediaTypePriorityAux mediaType index rest pr
    | some spec => getMediaTypePriorityAux mediaType index rest (priorityStep pr spec)

/-- `getMediaTypePriority(mediaType, acs, index)`. -/
def getMediaTypePriority (mediaType : Str) (acs : List AcceptMediaType) (index : Int) :
    Specificity :=
  getMediaTypePriorityAux mediaType index acs sentinelSpec

/-- `isAcceptMediaTypeQuality`. -/
def isAcceptMediaTypeQuality (ac : AcceptMediaType) : Bool := GoF.gt ac.q (.num 0)

/-- The inline no-candidate comparator of `PreferredMediaTypes`:
`ac1.q > ac2.q || ac1.i < ac2.i`. -/
def acceptMediaTypeBy (ac1 ac2 : AcceptMediaType) : Bool :=
  GoF.gt ac1.q ac2.q ∨ ac1.i < ac2.i

/-- `acceptMediaTypes.toMediaTypes`: `mainType + "/" + subtype`. -/
def toMediaTypes (acs : List AcceptMediaType) : List Str :=
  acs.map fun ac => ac.mainType ++ '/' :: ac.subtype

/-- `getMediaTypeSpecificities(types, acs)`. -/
def getMediaTypeSpecificitiesAux (acs : List AcceptMediaType) : List Str → Int → List Specificity
  | [], _ => []
  | v :: rest, i => getMediaTypePriority v acs i :: getMediaTypeSpecificitiesAux acs rest (i + 1)

/-- `getMediaTypeSpecificities(types, acs)`. -/
def getMediaTypeSpecificities (types : List Str) (acs : List AcceptMediaType) :
    List Specificity :=
  getMediaTypeSpecificitiesAux acs types 0

/-- Default `AcceptMediaType` for the sort instantiation. -/
def dummyMediaType : AcceptMediaType := ⟨[], [], [], .num 0, 0⟩

/-- `PreferredMediaTypes(accept, provided...)` (total: the media-type
pipeline has no panic path). -/
def PreferredMediaTypes (accept : Str) (provided : List Str) : List Str :=
  let acs := parseAcceptMediaType accept
  if provided.length = 0 then
    let filteredAcs := acs.filter isAcceptMediaTypeQuality
    toMediaTypes (sortGo acceptMediaTypeBy dummyMediaType filteredAcs)
  else
    let priorities := getMediaTypeSpecificities provided acs
    let filteredPriorities := priorities.filter isSpecificityQuality
    projectResults priorities provided (sortGo specDisjBy dummySpec filteredPriorities)

end Negotiator

namespace Negotiator

section GoSortPerm

variable {α : Type} [DecidableEq α] (lt : α → α → Bool) (d : α)

theorem swapL_perm (l : List α) (i j : Nat) : (swapL l i j).Perm l := by
  unfold swapL
  cases hx : l[i]? with
  | none => exact .refl l
  | some x =>
    cases hy : l[j]? with
    | none => exact .refl l
    | some y =>
      obtain ⟨hi, hxa⟩ := List.getElem?_eq_some_iff.mp hx
      obtain ⟨hj, hya⟩ := List.getElem?_eq_some_iff.mp hy
      rw [List.perm_iff_count]
      intro a
      have hj' : j < (l.set i y).length := by simpa using hj
      rw [List.count_set _ _ _ _ hj', List.count_set _ _ _ _ hi]
      have hgy : (l.set i y)[j] = y := by
        rw [List.getElem_set]
        split <;> simp_all
      rw [hgy, hxa]
      by_cases hx1 : x = a
      · have : 0 < List.count a l := by
          rw [List.count_pos_iff]
          exact hx1 ▸ hxa ▸ List.getElem_mem hi
        by_cases hy1 : y = a <;> simp [hx1, hy1] <;> omega
      · by_cases hy1 : y = a <;> simp [hx1, hy1]

theorem insBubble_perm (a : Nat) : ∀ (j : Nat) (l : List α), (insBubble lt d a j l).Perm l
  | 0, l => .refl l
  | j + 1, l => by
    unfold insBubble
    split
    · exact (insBubble_perm a j _).trans (swapL_perm _ _ _)
    · exact .refl l

theorem insLoop_perm (a b : Nat) :
    ∀ (fuel i : Nat) (l : List α), (insLoop lt d a b fuel i l).Perm l
  | 0, _, l => .refl l
  | fuel + 1, i, l => by
    unfold insLoop
    split
    · exact (insLoop_perm a b fuel (i + 1) _).trans (insBubble_perm lt d a i l)
    · exact .refl l

theorem insertionSortGo_perm (l : List α) (a b : Nat) :
    (insertionSortGo lt d l a b).Perm l :=
  insLoop_perm lt d a b b (a + 1) l

theorem shellLoop_perm (b : Nat) :
    ∀ (fuel i : Nat) (l : List α), (shellLoop lt d b fuel i l).Perm l
  | 0, _, l => .refl l
  | fuel + 1, i, l => by
    unfold shellLoop
    split
    · refine (shellLoop_perm b fuel (i + 1) _).trans ?_
      split
      · exact swapL_perm _ _ _
      · exact .refl l
    · exact .refl l

theorem siftDownGo_perm :
    ∀ (fuel root hi first : Nat) (l : List α), (siftDownGo lt d fuel root hi first l).Perm l
  | 0, _, _, _, l => .refl l
  | fuel + 1, root, hi, first, l => by
    unfold siftDownGo
    dsimp only
    split
    · exact .refl l
    · split <;> split
      · exact .refl l
      · exact (siftDownGo_perm fuel _ hi first _).trans (swapL_perm _ _ _)
      · exact .refl l
      · exact (siftDownGo_perm fuel _ hi first _).trans (swapL_perm _ _ _)

theorem heapBuild_perm (hi first : Nat) :
    ∀ (i : Nat) (l : List α), (heapBuild lt d hi first i l).Perm l
  | 0, l => siftDownGo_perm lt d _ 0 hi first l
  | i + 1, l =>
    (heapBuild_perm hi first i _).trans (siftDownGo_perm lt d _ (i + 1) hi first l)

theorem heapPop_perm (first : Nat) :
    ∀ (i : Nat) (l : List α), (heapPop lt d first i l).Perm l
  | 0, l => (siftDownGo_perm lt d 1 0 0 first _).trans (swapL_perm _ _ _)
  | i + 1, l =>
    (heapPop_perm first i _).trans
      ((siftDownGo_perm lt d _ 0 (i + 1) first _).trans (swapL_perm _ _ _))

theorem heapSortGo_perm (l : List α) (a b : Nat) : (heapSortGo lt d l a b).Perm l :=
  (heapPop_perm lt d a _ _).trans (heapBuild_perm lt d (b - a) a _ l)

theorem ifSwap_perm (x : List α) (i j : Nat) :
    (if lessL lt d x i j then swapL x i j else x).Perm x := by
  split
  · exact swapL_perm _ _ _
  · exact .refl x

theorem medianOfThreeGo_perm (l : List α) (m1 m0 m2 : Nat) :
    (medianOfThreeGo lt d l m1 m0 m2).Perm l := by
  unfold medianOfThreeGo
  dsimp only
  have main : ∀ x : List α, x.Perm l →
      (if lessL lt d x m2 m1 then
        if lessL lt d (swapL x m2 m1) m1 m0 then swapL (swapL x m2 m1) m1 m0
        else swapL x m2 m1
      else x).Perm l := by
    intro x hx
    split
    · split
      · exact (swapL_perm _ _ _).trans ((swapL_perm _ _ _).trans hx)
      · exact (swapL_perm _ _ _).trans hx
    · exact hx
  split
  · exact main _ (swapL_perm _ _ _)
  · exact main _ (.refl l)

theorem dpLoop_perm (pivot : Nat) :
    ∀ (fuel b c : Nat) (l : List α), (dpLoop lt d pivot fuel b c l).1.Perm l
  | 0, _, _, l => .refl l
  | fuel + 1, b, c, l => by
    unfold dpLoop
    dsimp only
    split
    · exact .refl l
    · exact (dpLoop_perm pivot fuel _ _ _).trans (swapL_perm _ _ _)

theorem dpProtLoop_perm (pivot : Nat) :
    ∀ (fuel a b : Nat) (l : List α), (dpProtLoop lt d pivot fuel a b l).1.Perm l
  | 0, _, _, l => .refl l
  | fuel + 1, a, b, l => by
    unfold dpProtLoop
    dsimp only
    split
    · exact .refl l
    · exact (dpProtLoop_perm pivot fuel _ _ _).trans (swapL_perm _ _ _)

theorem dpNinther_perm (l : List α) (lo hi m : Nat) : (dpNinther lt d l lo hi m).Perm l := by
  unfold dpNinther
  split
  · exact (medianOfThreeGo_perm _ _ _ _ _ _).trans
      ((medianOfThreeGo_perm _ _ _ _ _ _).trans (medianOfThreeGo_perm _ _ _ _ _ _))
  · exact .refl l

theorem dpDups_perm (l : List α) (lo hi m pivot b c : Nat) :
    (dpDups lt d l lo hi m pivot b c).1.Perm l := by
  unfold dpDups
  dsimp only
  split
  · split <;> dsimp only
    all_goals try (split <;> dsimp only)
    all_goals try (split <;> dsimp only)
    all_goals
      first
        | exact (swapL_perm _ _ _).trans (swapL_perm _ _ _)
        | exact swapL_perm _ _ _
        | exact .refl l
  · exact .refl l

theorem doPivotGo_perm (l : List α) (lo hi : Nat) : (doPivotGo lt d l lo hi).1.Perm l := by
  unfold doPivotGo
  dsimp only
  have hLperm : (medianOfThreeGo lt d (dpNinther lt d l lo hi ((lo + hi) / 2)) lo
      ((lo + hi) / 2) (hi - 1)).Perm l :=
    (medianOfThreeGo_perm lt d _ _ _ _).trans (dpNinther_perm lt d l lo hi _)
  rcases h1 : dpLoop lt d lo hi
      (dpSkipA lt d hi (lo + 1) (hi - 1) lo
        (medianOfThreeGo lt d (dpNinther lt d l lo hi ((lo + hi) / 2)) lo ((lo + hi) / 2) (hi - 1)))
      (hi - 1)
      (medianOfThreeGo lt d (dpNinther lt d l lo hi ((lo + hi) / 2)) lo ((lo + hi) / 2) (hi - 1))
    with ⟨l1, b1, c1⟩
  have p1 : l1.Perm l := by
    have h := dpLoop_perm lt d lo hi
      (dpSkipA lt d hi (lo + 1) (hi - 1) lo
        (medianOfThreeGo lt d (dpNinther lt d l lo hi ((lo + hi) / 2)) lo ((lo + hi) / 2) (hi - 1)))
      (hi - 1)
      (medianOfThreeGo lt d (dpNinther lt d l lo hi ((lo + hi) / 2)) lo ((lo + hi) / 2) (hi - 1))
    rw [h1] at h
    exact h.trans hLperm
  dsimp only
  rcases h2 : dpDups lt d l1 lo hi ((lo + hi) / 2) lo b1 c1 with ⟨l2, b2, c2, prot⟩
  have p2 : l2.Perm l1 := by
    have h := dpDups_perm lt d l1 lo hi ((lo + hi) / 2) lo b1 c1
    rw [h2] at h
    exact h
  dsimp only
  rcases h3 : (if prot then dpProtLoop lt d lo hi
      (dpSkipA lt d hi (lo + 1) (hi - 1) lo
        (medianOfThreeGo lt d (dpNinther lt d l lo hi ((lo + hi) / 2)) lo ((lo + hi) / 2) (hi - 1)))
      b2 l2 else (l2, b2)) with ⟨l3, b3⟩
  have p3 : l3.Perm l2 := by
    have h : (if prot then dpProtLoop lt d lo hi
        (dpSkipA lt d hi (lo + 1) (hi - 1) lo
          (medianOfThreeGo lt d (dpNinther lt d l lo hi ((lo + hi) / 2)) lo ((lo + hi) / 2) (hi - 1)))
        b2 l2 else (l2, b2)).1.Perm l2 := by
      split
      · exact dpProtLoop_perm lt d lo _ _ _ _
      · exact .refl l2
    rw [h3] at h
    exact h
  dsimp only
  exact (swapL_perm _ _ _).trans (p3.trans (p2.trans p1))

theorem quickSortGo_perm :
    ∀ (fuel a b depth : Nat) (l : List α), (quickSortGo lt d fuel a b depth l).Perm l
  | 0, _, _, _, l => .refl l
  | fuel + 1, a, b, depth, l => by
    unfold quickSortGo
    split
    · split
      · exact heapSortGo_perm lt d l a b
      · dsimp only
        rcases h : doPivotGo lt d l a b with ⟨l1, mlo, mhi⟩
        have p1 : l1.Perm l := by
          have hp := doPivotGo_perm lt d l a b
          rw [h] at hp
          exact hp
        dsimp only
        split
        · exact (quickSortGo_perm fuel mhi b (depth - 1) _).trans
            ((quickSortGo_perm fuel a mlo (depth - 1) l1).trans p1)
        · exact (quickSortGo_perm fuel a mlo (depth - 1) _).trans
            ((quickSortGo_perm fuel mhi b (depth - 1) l1).trans p1)
    · split
      · exact (insertionSortGo_perm lt d _ a b).trans (shellLoop_perm lt d b b (a + 6) l)
      · exact .refl l

theorem sortGo_perm (l : List α) : (sortGo lt d l).Perm l :=
  quickSortGo_perm lt d (l.length + 1) 0 l.length (maxDepthGo l.length) l

end GoSortPerm

end Negotiator

namespace Negotiator

section GoSortSorted

variable {β : Type} (ltb : β → β → Bool) (db : β)

/-- The range `[a, b)` of `l` is sorted for the comparator: no later
element is strictly below an earlier one. -/
def SortedRng (l : List β) (a b : Nat) : Prop :=
  ∀ i j, a ≤ i → i < j → j < b → ltb (rdL db l j) (rdL db l i) = false

/-- Predicate: `l1` is `l0` changed only inside `[a, b)`: same length, reads outside
agree, and every value read inside `l1`'s window already occurred inside
`l0`'s window. -/
def Within (l0 l1 : List β) (a b : Nat) : Prop :=
  l1.length = l0.length ∧
  (∀ i, i < a ∨ b ≤ i → rdL db l1 i = rdL db l0 i) ∧
  (∀ i, a ≤ i → i < b → ∃ j, a ≤ j ∧ j < b ∧ rdL db l0 j = rdL db l1 i)

theorem Within_refl (l : List β) (a b : Nat) : Within db l l a b :=
  ⟨rfl, fun _ _ => rfl, fun i hi hi' => ⟨i, hi, hi', rfl⟩⟩

theorem Within_trans {l0 l1 l2 : List β} {a b : Nat}
    (h1 : Within db l0 l1 a b) (h2 : Within db l1 l2 a b) : Within db l0 l2 a b := by
  obtain ⟨hL1, hO1, hI1⟩ := h1
  obtain ⟨hL2, hO2, hI2⟩ := h2
  refine ⟨hL2.trans hL1, fun i hi => (hO2 i hi).trans (hO1 i hi), fun i hi hi' => ?_⟩
  obtain ⟨j, hj, hj', hjv⟩ := hI2 i hi hi'
  obtain ⟨k, hk, hk', hkv⟩ := hI1 j hj hj'
  exact ⟨k, hk, hk', hkv.trans hjv⟩

theorem Within_mono {l0 l1 : List β} {a b a' b' : Nat}
    (ha : a' ≤ a) (hb : b ≤ b') (h : Within db l0 l1 a b) : Within db l0 l1 a' b' := by
  obtain ⟨hL, hO, hI⟩ := h
  refine ⟨hL, fun i hi => hO i (by omega), fun i hi hi' => ?_⟩
  by_cases hin : a ≤ i ∧ i < b
  · obtain ⟨j, hj, hj', hjv⟩ := hI i hin.1 hin.2
    exact ⟨j, by omega, by omega, hjv⟩
  · exact ⟨i, hi, hi', (hO i (by omega)).symm⟩

theorem swapL_length (l : List β) (i j : Nat) : (swapL l i j).length = l.length := by
  rw [swapL]
  cases hx : l[i]? with
  | none => rfl
  | some x =>
    cases hy : l[j]? with
    | none => rfl
    | some y => simp

theorem swapL_out {l : List β} {i j : Nat} (h : ¬ (i < l.length ∧ j < l.length)) :
    swapL l i j = l := by
  rw [swapL]
  cases hx : l[i]? with
  | none => rfl
  | some x =>
    cases hy : l[j]? with
    | none => rfl
    | some y =>
      exact absurd ⟨(List.getElem?_eq_some_iff.mp hx).1, (List.getElem?_eq_some_iff.mp hy).1⟩ h

theorem rdL_lt_length {l : List β} {i : Nat} (h : i < l.length) : rdL db l i = l[i] := by
  rw [rdL, List.getD_eq_getElem l db h]

theorem rdL_swapL (l : List β) (i j k : Nat) (hi : i < l.length) (hj : j < l.length) :
    rdL db (swapL l i j) k =
      if k = j then rdL db l i else if k = i then rdL db l j else rdL db l k := by
  rw [swapL, List.getElem?_eq_getElem hi, List.getElem?_eq_getElem hj]
  by_cases hkj : k = j
  · subst hkj
    rw [if_pos rfl, rdL_lt_length db (by simpa using hj),
      List.getElem_set_self, rdL_lt_length db hi]
  · rw [if_neg hkj]
    by_cases hkl : k < l.length
    · rw [rdL_lt_length db (by simpa using hkl), List.getElem_set_ne (by omega)]
      by_cases hki : k = i
      · subst hki
        rw [if_pos rfl, List.getElem_set_self, rdL_lt_length db hj]
      · rw [if_neg hki, List.getElem_set_ne (by omega), rdL_lt_length db hkl]
    · have hki : k ≠ i := by omega
      rw [if_neg hki, rdL, rdL, List.getD_eq_getElem?_getD, List.getD_eq_getElem?_getD,
        List.getElem?_eq_none (by simpa using Nat.le_of_not_lt hkl),
        List.getElem?_eq_none (by simpa using Nat.le_of_not_lt hkl)]

theorem Within_swapL (l : List β) {i j a b : Nat}
    (hai : a ≤ i) (hib : i < b) (haj : a ≤ j) (hjb : j < b) :
    Within db l (swapL l i j) a b := by
  by_cases hin : i < l.length ∧ j < l.length
  · obtain ⟨hi, hj⟩ := hin
    refine ⟨swapL_length l i j, fun k hk => ?_, fun k hk hk' => ?_⟩
    · rw [rdL_swapL db l i j k hi hj, if_neg (by omega), if_neg (by omega)]
    · rw [rdL_swapL db l i j k hi hj]
      by_cases hkj : k = j
      · exact ⟨i, hai, hib, by rw [if_pos hkj]⟩
      · by_cases hki : k = i
        · exact ⟨j, haj, hjb, by rw [if_neg hkj, if_pos hki]⟩
        · exact ⟨k, hk, hk', by rw [if_neg hkj, if_neg hki]⟩
  · rw [swapL_out hin]
    exact Within_refl db l a b

theorem Within_length {l0 l1 : List β} {a b : Nat} (h : Within db l0 l1 a b) :
    l1.length = l0.length := h.1

theorem Within_bound {l0 l1 : List β} {a b : Nat} (h : Within db l0 l1 a b)
    (P : β → Prop) (hP : ∀ i, a ≤ i → i < b → P (rdL db l0 i)) :
    ∀ i, a ≤ i → i < b → P (rdL db l1 i) := by
  intro i hi hi'
  obtain ⟨j, hj, hj', hjv⟩ := h.2.2 i hi hi'
  rw [← hjv]
  exact hP j hj hj'

theorem SortedRng_sub {l : List β} {a b a' b' : Nat} (ha : a ≤ a') (hb : b' ≤ b)
    (h : SortedRng ltb db l a b) : SortedRng ltb db l a' b' :=
  fun i j hi hij hj => h i j (by omega) hij (by omega)

theorem SortedRng_trivial {l : List β} {a b : Nat} (h : b ≤ a + 1) :
    SortedRng ltb db l a b := by
  intro i j hi hij hj
  omega

theorem SortedRng_congr {l0 l1 : List β} {a b : Nat}
    (h : ∀ i, a ≤ i → i < b → rdL db l1 i = rdL db l0 i)
    (hs : SortedRng ltb db l0 a b) : SortedRng ltb db l1 a b := by
  intro i j hi hij hj
  rw [h i hi (by omega), h j (by omega) hj]
  exact hs i j hi hij hj

theorem ltb_irrefl (hasym : ∀ x y, ltb x y = true → ltb y x = false) (x : β) :
    ltb x x = false := by
  cases h : ltb x x with
  | false => rfl
  | true => rw [hasym x x h] at h; cases h

end GoSortSorted

end Negotiator


namespace Negotiator

section GoSortSorted

variable {β : Type} (ltb : β → β → Bool) (db : β)

/-- The inner bubble of Go `insertionSort`: starting from a sorted prefix
`[a, jp)`, a sorted suffix `[jp, i+1)` and the cross bound, it leaves
`[a, i+1)` sorted, touching only that window. -/
theorem insBubble_spec (hasym : ∀ x y, ltb x y = true → ltb y x = false)
    (hneg : ∀ x y z, ltb x y = false → ltb y z = false → ltb x z = false) (a i : Nat) :
    ∀ (jp : Nat) (l : List β), jp ≤ i → i < l.length →
      SortedRng ltb db l a jp →
      SortedRng ltb db l jp (i + 1) →
      (∀ p q, a ≤ p → p < jp → jp < q → q ≤ i → ltb (rdL db l q) (rdL db l p) = false) →
      SortedRng ltb db (insBubble ltb db a jp l) a (i + 1) ∧
        Within db l (insBubble ltb db a jp l) a (i + 1) := by
  intro jp
  induction jp with
  | zero =>
    intro l _ _ _ hsuf _
    rw [insBubble]
    exact ⟨SortedRng_sub ltb db (Nat.zero_le a) (le_refl (i + 1)) hsuf,
      Within_refl db l a (i + 1)⟩
  | succ jp ih =>
    intro l hji hlen hpre hsuf hcross
    rw [insBubble]
    by_cases hg : a < jp + 1 ∧ lessL ltb db l (jp + 1) jp = true
    · rw [if_pos hg]
      have hlt := hg.2
      rw [lessL] at hlt
      have hjl : jp + 1 < l.length := by omega
      have hjl0 : jp < l.length := by omega
      have hrd : ∀ k, rdL db (swapL l (jp + 1) jp) k =
          if k = jp then rdL db l (jp + 1)
          else if k = jp + 1 then rdL db l jp else rdL db l k :=
        fun k => rdL_swapL db l (jp + 1) jp k hjl hjl0
      have hres := ih (swapL l (jp + 1) jp) (by omega)
        (by rw [swapL_length]; exact hlen)
        (by
          refine SortedRng_congr ltb db (fun k hk hk' => ?_)
            (SortedRng_sub ltb db (le_refl a) (by omega) hpre)
          rw [hrd k, if_neg (by omega), if_neg (by omega)])
        (by
          intro p q hp hpq hq
          rw [hrd p, hrd q]
          by_cases hpj : p = jp
          · rw [if_pos hpj]
            by_cases hqj : q = jp + 1
            · rw [if_neg (by omega), if_pos hqj]
              exact hasym _ _ hlt
            · rw [if_neg (by omega), if_neg hqj]
              exact hsuf (jp + 1) q (le_refl _) (by omega) (by omega)
          · rw [if_neg hpj]
            by_cases hpj1 : p = jp + 1
            · rw [if_pos hpj1, if_neg (by omega), if_neg (by omega)]
              exact hcross jp q (by omega) (by omega) (by omega) (by omega)
            · rw [if_neg hpj1, if_neg (by omega), if_neg (by omega)]
              exact hsuf p q (by omega) hpq hq)
        (by
          intro p q hp hpj hjq hqi
          rw [hrd p, if_neg (by omega), if_neg (by omega), hrd q]
          by_cases hqj : q = jp + 1
          · rw [if_neg (by omega), if_pos hqj]
            exact hpre p jp hp hpj (by omega)
          · rw [if_neg (by omega), if_neg hqj]
            exact hcross p q hp (by omega) (by omega) hqi)
      refine ⟨hres.1, Within_trans db ?_ hres.2⟩
      exact Within_swapL db l (by omega) (by omega) (by omega) (by omega)
    · rw [if_neg hg]
      refine ⟨?_, Within_refl db l a (i + 1)⟩
      by_cases ha : a < jp + 1
      · have hlt : ltb (rdL db l (jp + 1)) (rdL db l jp) = false := by
          rcases Bool.eq_false_or_eq_true (lessL ltb db l (jp + 1) jp) with h | h
          · exact absurd ⟨ha, h⟩ hg
          · rw [lessL] at h; exact h
        intro p q hp hpq hq
        by_cases hpjp : jp + 1 ≤ p
        · exact hsuf p q hpjp hpq hq
        · by_cases hq1 : q ≤ jp
          · exact hpre p q hp hpq (by omega)
          · by_cases hq2 : q = jp + 1
            · subst hq2
              by_cases hpj : p = jp
              · subst hpj; exact hlt
              · exact hneg _ _ _ hlt (hpre p jp hp (by omega) (by omega))
            · exact hcross p q hp (by omega) (by omega) (by omega)
      · exact SortedRng_sub ltb db (by omega) (le_refl (i + 1)) hsuf

/-- The outer loop of Go `insertionSort`: a sorted prefix `[a, i)` grows to
a sorted `[a, b)`. -/
theorem insLoop_spec (hasym : ∀ x y, ltb x y = true → ltb y x = false)
    (hneg : ∀ x y z, ltb x y = false → ltb y z = false → ltb x z = false) (a b : Nat) :
    ∀ (fuel i : Nat) (l : List β), b ≤ l.length → b - i ≤ fuel →
      SortedRng ltb db l a i →
      SortedRng ltb db (insLoop ltb db a b fuel i l) a b ∧
        Within db l (insLoop ltb db a b fuel i l) a b := by
  intro fuel
  induction fuel with
  | zero =>
    intro i l _ hfuel hsort
    rw [insLoop]
    exact ⟨SortedRng_sub ltb db (le_refl a) (by omega) hsort, Within_refl db l a b⟩
  | succ fuel ih =>
    intro i l hblen hfuel hsort
    rw [insLoop]
    by_cases hib : i < b
    · rw [if_pos hib]
      have hbub := insBubble_spec ltb db hasym hneg a i i l (le_refl i) (by omega)
        hsort (SortedRng_trivial ltb db (le_refl (i + 1)))
        (fun p q _ _ hjq hqi => absurd (lt_of_lt_of_le hjq hqi) (lt_irrefl i))
      have hrec := ih (i + 1) (insBubble ltb db a i l)
        (by rw [Within_length db hbub.2]; exact hblen) (by omega)
        (SortedRng_sub ltb db (le_refl a) (le_refl (i + 1)) hbub.1)
      exact ⟨hrec.1,
        Within_trans db (Within_mono db (le_refl a) (by omega) hbub.2) hrec.2⟩
    · rw [if_neg hib]
      exact ⟨SortedRng_sub ltb db (le_refl a) (by omega) hsort, Within_refl db l a b⟩

/-- Go `insertionSort(data, a, b)` sorts `[a, b)` and touches nothing
else. -/
theorem insertionSortGo_sorted (hasym : ∀ x y, ltb x y = true → ltb y x = false)
    (hneg : ∀ x y z, ltb x y = false → ltb y z = false → ltb x z = false)
    (l : List β) (a b : Nat) (hblen : b ≤ l.length) :
    SortedRng ltb db (insertionSortGo ltb db l a b) a b ∧
      Within db l (insertionSortGo ltb db l a b) a b := by
  rw [insertionSortGo]
  exact insLoop_spec ltb db hasym hneg a b b (a + 1) l hblen (by omega)
    (SortedRng_trivial ltb db (le_refl (a + 1)))

/-- The gap-6 shell pass touches only `[a, b)`. -/
theorem shellLoop_within (a b : Nat) :
    ∀ (fuel i : Nat) (l : List β), a + 6 ≤ i →
      Within db l (shellLoop ltb db b fuel i l) a b := by
  intro fuel
  induction fuel with
  | zero => intro i l _; rw [shellLoop]; exact Within_refl db l a b
  | succ fuel ih =>
    intro i l hi
    rw [shellLoop]
    by_cases hib : i < b
    · rw [if_pos hib]
      refine Within_trans db ?_ (ih (i + 1) _ (by omega))
      by_cases hl : lessL ltb db l i (i - 6) = true
      · rw [if_pos hl]
        exact Within_swapL db l (by omega) hib (by omega) (by omega)
      · rw [if_neg hl]
        exact Within_refl db l a b
    · rw [if_neg hib]
      exact Within_refl db l a b

end GoSortSorted

end Negotiator

namespace Negotiator

section GoSortSorted

variable {β : Type} (ltb : β → β → Bool) (db : β)

/-- Loop `for ; a < c && data.Less(a, pivot); a++` — the skipped prefix is
strictly below the pivot and the stop point is not (unless `a = c`). -/
theorem dpSkipA_spec (pivot : Nat) :
    ∀ (fuel a c : Nat) (l : List β), a ≤ c → c - a ≤ fuel →
      a ≤ dpSkipA ltb db fuel a c pivot l ∧
      dpSkipA ltb db fuel a c pivot l ≤ c ∧
      (∀ i, a ≤ i → i < dpSkipA ltb db fuel a c pivot l →
        ltb (rdL db l i) (rdL db l pivot) = true) ∧
      (dpSkipA ltb db fuel a c pivot l < c →
        ltb (rdL db l (dpSkipA ltb db fuel a c pivot l)) (rdL db l pivot) = false) := by
  intro fuel
  induction fuel with
  | zero =>
    intro a c l hac hfuel
    rw [dpSkipA]
    exact ⟨le_refl a, hac, fun i hi hi' => absurd (lt_of_le_of_lt hi hi') (lt_irrefl a),
      fun h => absurd h (by omega)⟩
  | succ fuel ih =>
    intro a c l hac hfuel
    rw [dpSkipA]
    by_cases hg : a < c ∧ lessL ltb db l a pivot = true
    · rw [if_pos hg]
      obtain ⟨h1, h2, h3, h4⟩ := ih (a + 1) c l (by omega) (by omega)
      refine ⟨by omega, h2, fun i hi hi' => ?_, h4⟩
      by_cases hia : i = a
      · subst hia
        have := hg.2
        rw [lessL] at this
        exact this
      · exact h3 i (by omega) hi'
    · rw [if_neg hg]
      refine ⟨le_refl a, hac, fun i hi hi' => absurd (lt_of_le_of_lt hi hi') (lt_irrefl a),
        fun h => ?_⟩
      rcases Bool.eq_false_or_eq_true (lessL ltb db l a pivot) with ht | hf
      · exact absurd ⟨h, ht⟩ hg
      · rw [lessL] at hf; exact hf

/-- Loop `for ; b < c && !data.Less(pivot, b); b++` — the skipped block is not
above the pivot, the stop point is (unless `b = c`). -/
theorem dpSkipB_spec (pivot : Nat) :
    ∀ (fuel b c : Nat) (l : List β), b ≤ c → c - b ≤ fuel →
      b ≤ dpSkipB ltb db fuel b c pivot l ∧
      dpSkipB ltb db fuel b c pivot l ≤ c ∧
      (∀ i, b ≤ i → i < dpSkipB ltb db fuel b c pivot l →
        ltb (rdL db l pivot) (rdL db l i) = false) ∧
      (dpSkipB ltb db fuel b c pivot l < c →
        ltb (rdL db l pivot) (rdL db l (dpSkipB ltb db fuel b c pivot l)) = true) := by
  intro fuel
  induction fuel with
  | zero =>
    intro b c l hbc hfuel
    rw [dpSkipB]
    exact ⟨le_refl b, hbc, fun i hi hi' => absurd (lt_of_le_of_lt hi hi') (lt_irrefl b),
      fun h => absurd h (by omega)⟩
  | succ fuel ih =>
    intro b c l hbc hfuel
    rw [dpSkipB]
    by_cases hg : b < c ∧ ¬ lessL ltb db l pivot b = true
    · rw [if_pos hg]
      obtain ⟨h1, h2, h3, h4⟩ := ih (b + 1) c l (by omega) (by omega)
      refine ⟨by omega, h2, fun i hi hi' => ?_, h4⟩
      by_cases hib : i = b
      · subst hib
        have := hg.2
        rw [lessL] at this
        exact Bool.not_eq_true _ ▸ (by simpa using this)
      · exact h3 i (by omega) hi'
    · rw [if_neg hg]
      refine ⟨le_refl b, hbc, fun i hi hi' => absurd (lt_of_le_of_lt hi hi') (lt_irrefl b),
        fun h => ?_⟩
      rcases Bool.eq_false_or_eq_true (lessL ltb db l pivot b) with ht | hf
      · rw [lessL] at ht; exact ht
      · exact absurd ⟨h, by rw [hf]; exact Bool.false_ne_true⟩ hg

/-- Loop `for ; b < c && data.Less(pivot, c-1); c--` — the skipped suffix is
strictly above the pivot, the element before the stop point is not (unless
`c = b`). -/
theorem dpSkipC_spec (pivot : Nat) :
    ∀ (fuel c b : Nat) (l : List β), b ≤ c → c - b ≤ fuel →
      dpSkipC ltb db fuel c b pivot l ≤ c ∧
      b ≤ dpSkipC ltb db fuel c b pivot l ∧
      (∀ i, dpSkipC ltb db fuel c b pivot l ≤ i → i < c →
        ltb (rdL db l pivot) (rdL db l i) = true) ∧
      (b < dpSkipC ltb db fuel c b pivot l →
        ltb (rdL db l pivot) (rdL db l (dpSkipC ltb db fuel c b pivot l - 1)) = false) := by
  intro fuel
  induction fuel with
  | zero =>
    intro c b l hbc hfuel
    rw [dpSkipC]
    exact ⟨le_refl c, hbc, fun i hi hi' => absurd (lt_of_le_of_lt hi hi') (lt_irrefl c),
      fun h => absurd h (by omega)⟩
  | succ fuel ih =>
    intro c b l hbc hfuel
    rw [dpSkipC]
    by_cases hg : b < c ∧ lessL ltb db l pivot (c - 1) = true
    · rw [if_pos hg]
      obtain ⟨h1, h2, h3, h4⟩ := ih (c - 1) b l (by omega) (by omega)
      refine ⟨by omega, h2, fun i hi hi' => ?_, h4⟩
      by_cases hic : i = c - 1
      · subst hic
        have := hg.2
        rw [lessL] at this
        exact this
      · exact h3 i hi (by omega)
    · rw [if_neg hg]
      refine ⟨le_refl c, hbc, fun i hi hi' => absurd (lt_of_le_of_lt hi hi') (lt_irrefl c),
        fun h => ?_⟩
      rcases Bool.eq_false_or_eq_true (lessL ltb db l pivot (c - 1)) with ht | hf
      · exact absurd ⟨h, ht⟩ hg
      · rw [lessL] at hf; exact hf

/-- Loop `for ; a < b && !data.Less(b-1, pivot); b--` — the skipped suffix is
not below the pivot, the element before the stop point is (unless
`b = a`). -/
theorem dpSkipB2_spec (pivot : Nat) :
    ∀ (fuel b a : Nat) (l : List β), a ≤ b → b - a ≤ fuel →
      dpSkipB2 ltb db fuel b a pivot l ≤ b ∧
      a ≤ dpSkipB2 ltb db fuel b a pivot l ∧
      (∀ i, dpSkipB2 ltb db fuel b a pivot l ≤ i → i < b →
        ltb (rdL db l i) (rdL db l pivot) = false) ∧
      (a < dpSkipB2 ltb db fuel b a pivot l →
        ltb (rdL db l (dpSkipB2 ltb db fuel b a pivot l - 1)) (rdL db l pivot) = true) := by
  intro fuel
  induction fuel with
  | zero =>
    intro b a l hab hfuel
    rw [dpSkipB2]
    exact ⟨le_refl b, hab, fun i hi hi' => absurd (lt_of_le_of_lt hi hi') (lt_irrefl b),
      fun h => absurd h (by omega)⟩
  | succ fuel ih =>
    intro b a l hab hfuel
    rw [dpSkipB2]
    by_cases hg : a < b ∧ ¬ lessL ltb db l (b - 1) pivot = true
    · rw [if_pos hg]
      obtain ⟨h1, h2, h3, h4⟩ := ih (b - 1) a l (by omega) (by omega)
      refine ⟨by omega, h2, fun i hi hi' => ?_, h4⟩
      by_cases hib : i = b - 1
      · subst hib
        have := hg.2
        rw [lessL] at this
        simpa using this
      · exact h3 i hi (by omega)
    · rw [if_neg hg]
      refine ⟨le_refl b, hab, fun i hi hi' => absurd (lt_of_le_of_lt hi hi') (lt_irrefl b),
        fun h => ?_⟩
      rcases Bool.eq_false_or_eq_true (lessL ltb db l (b - 1) pivot) with ht | hf
      · rw [lessL] at ht; exact ht
      · exact absurd ⟨h, by rw [hf]; exact Bool.false_ne_true⟩ hg

/-- Loop `for ; a < b && data.Less(a, pivot); a++`. -/
theorem dpSkipA2_spec (pivot : Nat) :
    ∀ (fuel a b : Nat) (l : List β), a ≤ b → b - a ≤ fuel →
      a ≤ dpSkipA2 ltb db fuel a b pivot l ∧
      dpSkipA2 ltb db fuel a b pivot l ≤ b ∧
      (∀ i, a ≤ i → i < dpSkipA2 ltb db fuel a b pivot l →
        ltb (rdL db l i) (rdL db l pivot) = true) ∧
      (dpSkipA2 ltb db fuel a b pivot l < b →
        ltb (rdL db l (dpSkipA2 ltb db fuel a b pivot l)) (rdL db l pivot) = false) := by
  intro fuel
  induction fuel with
  | zero =>
    intro a b l hab hfuel
    rw [dpSkipA2]
    exact ⟨le_refl a, hab, fun i hi hi' => absurd (lt_of_le_of_lt hi hi') (lt_irrefl a),
      fun h => absurd h (by omega)⟩
  | succ fuel ih =>
    intro a b l hab hfuel
    rw [dpSkipA2]
    by_cases hg : a < b ∧ lessL ltb db l a pivot = true
    · rw [if_pos hg]
      obtain ⟨h1, h2, h3, h4⟩ := ih (a + 1) b l (by omega) (by omega)
      refine ⟨by omega, h2, fun i hi hi' => ?_, h4⟩
      by_cases hia : i = a
      · subst hia
        have := hg.2
        rw [lessL] at this
        exact this
      · exact h3 i (by omega) hi'
    · rw [if_neg hg]
      refine ⟨le_refl a, hab, fun i hi hi' => absurd (lt_of_le_of_lt hi hi') (lt_irrefl a),
        fun h => ?_⟩
      rcases Bool.eq_false_or_eq_true (lessL ltb db l a pivot) with ht | hf
      · exact absurd ⟨h, ht⟩ hg
      · rw [lessL] at hf; exact hf

end GoSortSorted

end Negotiator

namespace Negotiator

section GoSortSorted

variable {β : Type} (ltb : β → β → Bool) (db : β)

/-- The main partition loop of `doPivot`: starting from segments
`[a0, b)` not-above-pivot and `[c, hi-1)` strictly-above-pivot, it ends
with `b = c` separating the two, touching only `[a0, hi-1)`. -/
theorem dpLoop_spec (pivot a0 hi : Nat) (pv : β) :
    ∀ (fuel b c : Nat) (l : List β),
      pivot < a0 → a0 ≤ b → b ≤ c → c ≤ hi - 1 → hi ≤ l.length →
      rdL db l pivot = pv →
      (∀ i, a0 ≤ i → i < b → ltb pv (rdL db l i) = false) →
      (∀ i, c ≤ i → i < hi - 1 → ltb pv (rdL db l i) = true) →
      c - b ≤ fuel →
      a0 ≤ (dpLoop ltb db pivot fuel b c l).2.1 ∧
      (dpLoop ltb db pivot fuel b c l).2.1 = (dpLoop ltb db pivot fuel b c l).2.2 ∧
      (dpLoop ltb db pivot fuel b c l).2.1 ≤ hi - 1 ∧
      (dpLoop ltb db pivot fuel b c l).1.length = l.length ∧
      rdL db (dpLoop ltb db pivot fuel b c l).1 pivot = pv ∧
      (∀ i, a0 ≤ i → i < (dpLoop ltb db pivot fuel b c l).2.1 →
        ltb pv (rdL db (dpLoop ltb db pivot fuel b c l).1 i) = false) ∧
      (∀ i, (dpLoop ltb db pivot fuel b c l).2.2 ≤ i → i < hi - 1 →
        ltb pv (rdL db (dpLoop ltb db pivot fuel b c l).1 i) = true) ∧
      Within db l (dpLoop ltb db pivot fuel b c l).1 a0 (hi - 1) := by
  intro fuel
  induction fuel with
  | zero =>
    intro b c l hpa hab hbc hch hlen hpv hle hgt hfuel
    rw [dpLoop]
    dsimp only
    exact ⟨hab, by omega, by omega, rfl, hpv, fun i hi1 hi2 => hle i hi1 hi2,
      fun i hi1 hi2 => hgt i hi1 (by omega), Within_refl db l a0 (hi - 1)⟩
  | succ fuel ih =>
    intro b c l hpa hab hbc hch hlen hpv hle hgt hfuel
    rw [dpLoop]
    obtain ⟨hB1, hB2, hB3, hB4⟩ := dpSkipB_spec ltb db pivot (c + 1) b c l hbc (by omega)
    obtain ⟨hC1, hC2, hC3, hC4⟩ := dpSkipC_spec ltb db pivot (c + 1) c
      (dpSkipB ltb db (c + 1) b c pivot l) l hB2 (by omega)
    by_cases hbr : dpSkipB ltb db (c + 1) b c pivot l ≥
        dpSkipC ltb db (c + 1) c (dpSkipB ltb db (c + 1) b c pivot l) pivot l
    · rw [if_pos hbr]
      dsimp only
      refine ⟨by omega, by omega, by omega, rfl, hpv, fun i hi1 hi2 => ?_,
        fun i hi1 hi2 => ?_, Within_refl db l a0 (hi - 1)⟩
      · by_cases hib : i < b
        · exact hle i hi1 hib
        · rw [← hpv]; exact hB3 i (by omega) hi2
      · by_cases hic : c ≤ i
        · exact hgt i hic hi2
        · rw [← hpv]; exact hC3 i (by omega) (by omega)
    · rw [if_neg hbr]
      have hblt : dpSkipB ltb db (c + 1) b c pivot l <
          dpSkipC ltb db (c + 1) c (dpSkipB ltb db (c + 1) b c pivot l) pivot l := by omega
      have hBgt : ltb pv (rdL db l (dpSkipB ltb db (c + 1) b c pivot l)) = true := by
        rw [← hpv]; exact hB4 (by omega)
      have hCle : ltb pv (rdL db l
          (dpSkipC ltb db (c + 1) c (dpSkipB ltb db (c + 1) b c pivot l) pivot l - 1)) =
          false := by
        rw [← hpv]; exact hC4 (by omega)
      have hgap : dpSkipB ltb db (c + 1) b c pivot l + 2 ≤
          dpSkipC ltb db (c + 1) c (dpSkipB ltb db (c + 1) b c pivot l) pivot l := by
        by_contra hcon
        have heq : dpSkipC ltb db (c + 1) c (dpSkipB ltb db (c + 1) b c pivot l) pivot l - 1 =
            dpSkipB ltb db (c + 1) b c pivot l := by omega
        rw [heq, hBgt] at hCle
        cases hCle
      have hrd : ∀ k, rdL db (swapL l (dpSkipB ltb db (c + 1) b c pivot l)
          (dpSkipC ltb db (c + 1) c (dpSkipB ltb db (c + 1) b c pivot l) pivot l - 1)) k =
          if k = dpSkipC ltb db (c + 1) c (dpSkipB ltb db (c + 1) b c pivot l) pivot l - 1
          then rdL db l (dpSkipB ltb db (c + 1) b c pivot l)
          else if k = dpSkipB ltb db (c + 1) b c pivot l
          then rdL db l
            (dpSkipC ltb db (c + 1) c (dpSkipB ltb db (c + 1) b c pivot l) pivot l - 1)
          else rdL db l k :=
        fun k => rdL_swapL db l _ _ k (by omega) (by omega)
      obtain ⟨h1, h2, h3, h4, h5, h6, h7, h8⟩ := ih
        (dpSkipB ltb db (c + 1) b c pivot l + 1)
        (dpSkipC ltb db (c + 1) c (dpSkipB ltb db (c + 1) b c pivot l) pivot l - 1)
        (swapL l (dpSkipB ltb db (c + 1) b c pivot l)
          (dpSkipC ltb db (c + 1) c (dpSkipB ltb db (c + 1) b c pivot l) pivot l - 1))
        hpa (by omega) (by omega) (by omega) (by rw [swapL_length]; exact hlen)
        (by rw [hrd pivot, if_neg (by omega), if_neg (by omega)]; exact hpv)
        (by
          intro i hi1 hi2
          rw [hrd i, if_neg (by omega)]
          by_cases hib : i = dpSkipB ltb db (c + 1) b c pivot l
          · rw [if_pos hib]; exact hCle
          · rw [if_neg hib]
            by_cases hib2 : i < b
            · exact hle i hi1 hib2
            · rw [← hpv]; exact hB3 i (by omega) (by omega))
        (by
          intro i hi1 hi2
          rw [hrd i]
          by_cases hic : i =
              dpSkipC ltb db (c + 1) c (dpSkipB ltb db (c + 1) b c pivot l) pivot l - 1
          · rw [if_pos hic]; exact hBgt
          · rw [if_neg hic, if_neg (by omega)]
            by_cases hic2 : c ≤ i
            · exact hgt i hic2 hi2
            · rw [← hpv]; exact hC3 i (by omega) (by omega))
        (by omega)
      refine ⟨h1, h2, h3, by rw [h4, swapL_length], h5, h6, h7, ?_⟩
      refine Within_trans db ?_ h8
      exact Within_swapL db l (by omega) (by omega) (by omega) (by omega)

end GoSortSorted

end Negotiator

namespace Negotiator

section GoSortSorted

variable {β : Type} (ltb : β → β → Bool) (db : β)

/-- The duplicate-protection loop of `doPivot`: it moves the boundary `b`
down so that `[lo1, b)` is strictly below the pivot and `[b, b0)` is
pivot-equal, touching only `[a, b0)`. -/
theorem dpProtLoop_spec (pivot lo1 : Nat) (pv : β) :
    ∀ (fuel a b : Nat) (l : List β),
      pivot < lo1 → lo1 ≤ a → a ≤ b → b ≤ l.length →
      rdL db l pivot = pv →
      (∀ i, lo1 ≤ i → i < a → ltb (rdL db l i) pv = true) →
      (∀ i, a ≤ i → i < b → ltb pv (rdL db l i) = false) →
      b - a ≤ fuel →
      lo1 ≤ (dpProtLoop ltb db pivot fuel a b l).2 ∧
      (dpProtLoop ltb db pivot fuel a b l).2 ≤ b ∧
      (dpProtLoop ltb db pivot fuel a b l).1.length = l.length ∧
      rdL db (dpProtLoop ltb db pivot fuel a b l).1 pivot = pv ∧
      (∀ i, lo1 ≤ i → i < (dpProtLoop ltb db pivot fuel a b l).2 →
        ltb (rdL db (dpProtLoop ltb db pivot fuel a b l).1 i) pv = true) ∧
      (∀ i, (dpProtLoop ltb db pivot fuel a b l).2 ≤ i → i < b →
        ltb pv (rdL db (dpProtLoop ltb db pivot fuel a b l).1 i) = false ∧
        ltb (rdL db (dpProtLoop ltb db pivot fuel a b l).1 i) pv = false) ∧
      Within db l (dpProtLoop ltb db pivot fuel a b l).1 a b := by
  intro fuel
  induction fuel with
  | zero =>
    intro a b l hpl hla hab hblen hpv hstrict hle hfuel
    rw [dpProtLoop]
    refine ⟨by omega, le_refl b, rfl, hpv, fun i hi1 hi2 => ?_,
      fun i hi1 hi2 => absurd (lt_of_le_of_lt hi1 hi2) (lt_irrefl b),
      Within_refl db l a b⟩
    exact hstrict i hi1 (by omega)
  | succ fuel ih =>
    intro a b l hpl hla hab hblen hpv hstrict hle hfuel
    rw [dpProtLoop]
    obtain ⟨hB1, hB2, hB3, hB4⟩ := dpSkipB2_spec ltb db pivot (b + 1) b a l hab (by omega)
    obtain ⟨hA1, hA2, hA3, hA4⟩ := dpSkipA2_spec ltb db pivot (dpSkipB2 ltb db (b + 1) b a pivot l + 1)
      a (dpSkipB2 ltb db (b + 1) b a pivot l) l hB2 (by omega)
    by_cases hbr : dpSkipA2 ltb db (dpSkipB2 ltb db (b + 1) b a pivot l + 1) a
        (dpSkipB2 ltb db (b + 1) b a pivot l) pivot l ≥ dpSkipB2 ltb db (b + 1) b a pivot l
    · rw [if_pos hbr]
      dsimp only
      refine ⟨by omega, hB1, rfl, hpv, fun i hi1 hi2 => ?_, fun i hi1 hi2 => ?_,
        Within_refl db l a b⟩
      · by_cases hia : i < a
        · exact hstrict i hi1 hia
        · rw [← hpv]; exact hA3 i (by omega) (by omega)
      · refine ⟨hle i (by omega) hi2, ?_⟩
        rw [← hpv]; exact hB3 i (by omega) hi2
    · rw [if_neg hbr]
      have hA2f : ltb (rdL db l (dpSkipA2 ltb db (dpSkipB2 ltb db (b + 1) b a pivot l + 1) a
          (dpSkipB2 ltb db (b + 1) b a pivot l) pivot l)) pv = false := by
        rw [← hpv]; exact hA4 (by omega)
      have hB2t : ltb (rdL db l (dpSkipB2 ltb db (b + 1) b a pivot l - 1)) pv = true := by
        rw [← hpv]; exact hB4 (by omega)
      have hgap : dpSkipA2 ltb db (dpSkipB2 ltb db (b + 1) b a pivot l + 1) a
          (dpSkipB2 ltb db (b + 1) b a pivot l) pivot l + 2 ≤
          dpSkipB2 ltb db (b + 1) b a pivot l := by
        by_contra hcon
        have heq : dpSkipB2 ltb db (b + 1) b a pivot l - 1 =
            dpSkipA2 ltb db (dpSkipB2 ltb db (b + 1) b a pivot l + 1) a
              (dpSkipB2 ltb db (b + 1) b a pivot l) pivot l := by omega
        rw [heq, hA2f] at hB2t
        cases hB2t
      have hrd : ∀ k, rdL db (swapL l (dpSkipA2 ltb db (dpSkipB2 ltb db (b + 1) b a pivot l + 1) a
          (dpSkipB2 ltb db (b + 1) b a pivot l) pivot l)
          (dpSkipB2 ltb db (b + 1) b a pivot l - 1)) k =
          if k = dpSkipB2 ltb db (b + 1) b a pivot l - 1
          then rdL db l (dpSkipA2 ltb db (dpSkipB2 ltb db (b + 1) b a pivot l + 1) a
            (dpSkipB2 ltb db (b + 1) b a pivot l) pivot l)
          else if k = dpSkipA2 ltb db (dpSkipB2 ltb db (b + 1) b a pivot l + 1) a
            (dpSkipB2 ltb db (b + 1) b a pivot l) pivot l
          then rdL db l (dpSkipB2 ltb db (b + 1) b a pivot l - 1)
          else rdL db l k :=
        fun k => rdL_swapL db l _ _ k (by omega) (by omega)
      obtain ⟨h1, h2, h3, h4, h5, h6, h7⟩ := ih
        (dpSkipA2 ltb db (dpSkipB2 ltb db (b + 1) b a pivot l + 1) a
          (dpSkipB2 ltb db (b + 1) b a pivot l) pivot l + 1)
        (dpSkipB2 ltb db (b + 1) b a pivot l - 1)
        (swapL l (dpSkipA2 ltb db (dpSkipB2 ltb db (b + 1) b a pivot l + 1) a
          (dpSkipB2 ltb db (b + 1) b a pivot l) pivot l)
          (dpSkipB2 ltb db (b + 1) b a pivot l - 1))
        hpl (by omega) (by omega) (by rw [swapL_length]; omega)
        (by rw [hrd pivot, if_neg (by omega), if_neg (by omega)]; exact hpv)
        (by
          intro i hi1 hi2
          rw [hrd i, if_neg (by omega)]
          by_cases hia : i = dpSkipA2 ltb db (dpSkipB2 ltb db (b + 1) b a pivot l + 1) a
              (dpSkipB2 ltb db (b + 1) b a pivot l) pivot l
          · rw [if_pos hia]; exact hB2t
          · rw [if_neg hia]
            by_cases hia2 : i < a
            · exact hstrict i hi1 hia2
            · rw [← hpv]; exact hA3 i (by omega) (by omega))
        (by
          intro i hi1 hi2
          rw [hrd i, if_neg (by omega), if_neg (by omega)]
          exact hle i (by omega) (by omega))
        (by omega)
      refine ⟨h1, by omega, by rw [h3, swapL_length], h4, h5, fun i hi1 hi2 => ?_, ?_⟩
      · by_cases hig : i < dpSkipB2 ltb db (b + 1) b a pivot l - 1
        · exact h6 i hi1 hig
        · have hiu : rdL db (dpProtLoop ltb db pivot fuel
              (dpSkipA2 ltb db (dpSkipB2 ltb db (b + 1) b a pivot l + 1) a
                (dpSkipB2 ltb db (b + 1) b a pivot l) pivot l + 1)
              (dpSkipB2 ltb db (b + 1) b a pivot l - 1)
              (swapL l (dpSkipA2 ltb db (dpSkipB2 ltb db (b + 1) b a pivot l + 1) a
                (dpSkipB2 ltb db (b + 1) b a pivot l) pivot l)
                (dpSkipB2 ltb db (b + 1) b a pivot l - 1))).1 i =
            rdL db (swapL l (dpSkipA2 ltb db (dpSkipB2 ltb db (b + 1) b a pivot l + 1) a
              (dpSkipB2 ltb db (b + 1) b a pivot l) pivot l)
              (dpSkipB2 ltb db (b + 1) b a pivot l - 1)) i :=
            h7.2.1 i (by omega)
          rw [hiu, hrd i]
          by_cases hib : i = dpSkipB2 ltb db (b + 1) b a pivot l - 1
          · rw [if_pos hib]
            exact ⟨hle _ (by omega) (by omega), hA2f⟩
          · rw [if_neg hib, if_neg (by omega)]
            refine ⟨hle i (by omega) hi2, ?_⟩
            rw [← hpv]; exact hB3 i (by omega) hi2
      · refine Within_trans db ?_ (Within_mono db (by omega) (by omega) h7)
        exact Within_swapL db l (by omega) (by omega) (by omega) (by omega)

end GoSortSorted

end Negotiator


namespace Negotiator

section GoSortSorted

variable {β : Type} (ltb : β → β → Bool) (db : β)

/-- The partition state of `doPivot` before the final pivot swap: pivot
value at `lo`, `[lo+1, a0)` strictly below, `[a0, b)` not above, `[b, c)`
pivot-equal, `[c, hi-1)` strictly above, `data[hi-1]` not below. -/
def PartState (lo hi a0 : Nat) (pv : β) (l : List β) (b c : Nat) : Prop :=
  rdL db l lo = pv ∧
  (∀ i, lo + 1 ≤ i → i < a0 → ltb (rdL db l i) pv = true) ∧
  (∀ i, a0 ≤ i → i < b → ltb pv (rdL db l i) = false) ∧
  (∀ i, b ≤ i → i < c → ltb pv (rdL db l i) = false ∧ ltb (rdL db l i) pv = false) ∧
  (∀ i, c ≤ i → i < hi - 1 → ltb pv (rdL db l i) = true) ∧
  ltb (rdL db l (hi - 1)) pv = false

/-- The last two duplicate checks of `doPivot`'s testing block, split out
of `dpDups` so that each entry state can be handled once. -/
def dpDupsTail (m pivot : Nat) (l : List β) (b c dups : Nat) : List β × Nat × Nat × Bool :=
  let (b, dups) :=
    if ¬ lessL ltb db l (b - 1) pivot then (b - 1, dups + 1) else (b, dups)
  let (l, b, dups) :=
    if ¬ lessL ltb db l m pivot then (swapL l m (b - 1), b - 1, dups + 1) else (l, b, dups)
  (l, b, c, decide (dups > 1))

theorem dpDups_eq (l : List β) (lo hi m pivot b c : Nat) :
    dpDups ltb db l lo hi m pivot b c =
      if decide (hi - c < 5) = false ∧ hi - c < (hi - lo) / 4 then
        (if ¬ lessL ltb db l pivot (hi - 1) then
          dpDupsTail ltb db m pivot (swapL l c (hi - 1)) b (c + 1) 1
        else dpDupsTail ltb db m pivot l b c 0)
      else (l, b, c, decide (hi - c < 5)) := by
  rw [dpDups, dpDupsTail, dpDupsTail]
  dsimp only
  by_cases houter : decide (hi - c < 5) = false ∧ hi - c < (hi - lo) / 4
  · rw [if_pos houter, if_pos houter]
    by_cases hg1 : ¬ lessL ltb db l pivot (hi - 1) = true
    · rw [if_pos hg1, if_pos hg1]
    · rw [if_neg hg1, if_neg hg1]
  · rw [if_neg houter, if_neg houter]

/-- The tail of the duplicate-testing block preserves the partition state,
moving `b` down only across pivot-equal elements. -/
theorem dpDupsTail_spec (hasym : ∀ x y, ltb x y = true → ltb y x = false)
    (lo hi m a0 : Nat) (pv : β) (b c dups : Nat) (l : List β)
    (hm6 : lo + 6 ≤ m) (hmb : m + 3 ≤ b) (hlen : hi ≤ l.length)
    (ha0 : lo + 1 ≤ a0) (hab : a0 ≤ b) (hbc : b ≤ c) (hch : c ≤ hi - 1)
    (hst : PartState ltb db lo hi a0 pv l b c) :
    a0 ≤ (dpDupsTail ltb db m lo l b c dups).2.1 ∧
    (dpDupsTail ltb db m lo l b c dups).2.1 ≤ b ∧
    (dpDupsTail ltb db m lo l b c dups).2.2.1 = c ∧
    (dpDupsTail ltb db m lo l b c dups).1.length = l.length ∧
    PartState ltb db lo hi a0 pv (dpDupsTail ltb db m lo l b c dups).1
      (dpDupsTail ltb db m lo l b c dups).2.1 c ∧
    Within db l (dpDupsTail ltb db m lo l b c dups).1 (lo + 1) hi := by
  obtain ⟨hpv, hstrict, hle, hmid, hgt, hlast⟩ := hst
  rw [dpDupsTail]
  dsimp only
  have hstep2 : ∀ (b2 d2 : Nat), a0 ≤ b2 → b2 ≤ b → m + 2 ≤ b2 →
      (∀ i, b2 ≤ i → i < c → ltb pv (rdL db l i) = false ∧ ltb (rdL db l i) pv = false) →
      a0 ≤ (if ¬ lessL ltb db l m lo then (swapL l m (b2 - 1), b2 - 1, d2 + 1)
          else (l, b2, d2)).2.1 ∧
      (if ¬ lessL ltb db l m lo then (swapL l m (b2 - 1), b2 - 1, d2 + 1)
          else (l, b2, d2)).2.1 ≤ b2 ∧
      (if ¬ lessL ltb db l m lo then (swapL l m (b2 - 1), b2 - 1, d2 + 1)
          else (l, b2, d2)).1.length = l.length ∧
      PartState ltb db lo hi a0 pv
        (if ¬ lessL ltb db l m lo then (swapL l m (b2 - 1), b2 - 1, d2 + 1)
          else (l, b2, d2)).1
        (if ¬ lessL ltb db l m lo then (swapL l m (b2 - 1), b2 - 1, d2 + 1)
          else (l, b2, d2)).2.1 c ∧
      Within db l (if ¬ lessL ltb db l m lo then (swapL l m (b2 - 1), b2 - 1, d2 + 1)
          else (l, b2, d2)).1 (lo + 1) hi := by
    intro b2 d2 hab2 hb2b hmb2 hmid2
    by_cases hg3 : ¬ lessL ltb db l m lo = true
    · rw [if_pos hg3]
      dsimp only
      have hg3' : ltb (rdL db l m) pv = false := by
        rcases Bool.eq_false_or_eq_true (lessL ltb db l m lo) with ht | hf
        · exact absurd ht hg3
        · rw [lessL, hpv] at hf; exact hf
      have hma : a0 ≤ m := by
        by_contra hcon
        rw [hstrict m (by omega) (by omega)] at hg3'
        cases hg3'
      have hrd3 : ∀ k, rdL db (swapL l m (b2 - 1)) k =
          if k = b2 - 1 then rdL db l m else if k = m then rdL db l (b2 - 1)
          else rdL db l k :=
        fun k => rdL_swapL db l m (b2 - 1) k (by omega) (by omega)
      refine ⟨by omega, by omega, by rw [swapL_length], ?_,
        Within_swapL db l (by omega) (by omega) (by omega) (by omega)⟩
      refine ⟨?_, ?_, ?_, ?_, ?_, ?_⟩
      · rw [hrd3 lo, if_neg (by omega), if_neg (by omega)]; exact hpv
      · intro i hi1 hi2
        rw [hrd3 i, if_neg (by omega), if_neg (by omega)]
        exact hstrict i hi1 hi2
      · intro i hi1 hi2
        rw [hrd3 i, if_neg (by omega)]
        by_cases him : i = m
        · rw [if_pos him]
          exact hle (b2 - 1) (by omega) (by omega)
        · rw [if_neg him]
          exact hle i hi1 (by omega)
      · intro i hi1 hi2
        rw [hrd3 i]
        by_cases hib : i = b2 - 1
        · rw [if_pos hib]
          exact ⟨hle m hma (by omega), hg3'⟩
        · rw [if_neg hib, if_neg (by omega)]
          exact hmid2 i (by omega) hi2
      · intro i hi1 hi2
        rw [hrd3 i, if_neg (by omega), if_neg (by omega)]
        exact hgt i hi1 hi2
      · rw [hrd3 (hi - 1), if_neg (by omega), if_neg (by omega)]
        exact hlast
    · rw [if_neg hg3]
      dsimp only
      exact ⟨hab2, le_refl b2, rfl,
        ⟨hpv, hstrict, fun i hi1 hi2 => hle i hi1 (by omega), hmid2, hgt, hlast⟩,
        Within_refl db l (lo + 1) hi⟩
  by_cases hg2 : ¬ lessL ltb db l (b - 1) lo = true
  · rw [if_pos hg2]
    dsimp only
    have hg2' : ltb (rdL db l (b - 1)) pv = false := by
      rcases Bool.eq_false_or_eq_true (lessL ltb db l (b - 1) lo) with ht | hf
      · exact absurd ht hg2
      · rw [lessL, hpv] at hf; exact hf
    have hba : a0 ≤ b - 1 := by
      by_contra hcon
      rw [hstrict (b - 1) (by omega) (by omega)] at hg2'
      cases hg2'
    obtain ⟨k1, k2, k3, k4, k5⟩ := hstep2 (b - 1) (dups + 1) hba (by omega) (by omega)
      (by
        intro i hi1 hi2
        by_cases hib : i = b - 1
        · subst hib
          exact ⟨hle (b - 1) hba (by omega), hg2'⟩
        · exact hmid i (by omega) hi2)
    exact ⟨k1, le_trans k2 (Nat.sub_le b 1), rfl, k3, k4, k5⟩
  · rw [if_neg hg2]
    dsimp only
    obtain ⟨k1, k2, k3, k4, k5⟩ := hstep2 b dups hab (le_refl b) (by omega) hmid
    exact ⟨k1, k2, rfl, k3, k4, k5⟩

end GoSortSorted

end Negotiator


namespace Negotiator

section GoSortSorted

variable {β : Type} (ltb : β → β → Bool) (db : β)

/-- A conditional swap touches only the window holding both positions. -/
theorem Within_ifSwap (l : List β) (c : Prop) [Decidable c] (i j wlo whi : Nat)
    (h1 : wlo ≤ i) (h2 : i < whi) (h3 : wlo ≤ j) (h4 : j < whi) :
    Within db l (if c then swapL l i j else l) wlo whi := by
  split
  · exact Within_swapL db l h1 h2 h3 h4
  · exact Within_refl db l wlo whi

/-- Go `medianOfThree` touches only the three given positions. -/
theorem medianOfThreeGo_within (l : List β) (m1 m0 m2 wlo whi : Nat)
    (hw1 : wlo ≤ m1) (hw1' : m1 < whi) (hw0 : wlo ≤ m0) (hw0' : m0 < whi)
    (hw2 : wlo ≤ m2) (hw2' : m2 < whi) :
    Within db l (medianOfThreeGo ltb db l m1 m0 m2) wlo whi := by
  rw [medianOfThreeGo]
  dsimp only
  by_cases hg2 : lessL ltb db (if lessL ltb db l m1 m0 = true then swapL l m1 m0 else l)
      m2 m1 = true
  · rw [if_pos hg2]
    refine Within_trans db
      (Within_ifSwap db l (lessL ltb db l m1 m0 = true) m1 m0 wlo whi hw1 hw1' hw0 hw0')
      (Within_trans db (Within_swapL db _ hw2 hw2' hw1 hw1') ?_)
    exact Within_ifSwap db _
      (lessL ltb db (swapL (if lessL ltb db l m1 m0 = true then swapL l m1 m0 else l) m2 m1)
        m1 m0 = true) m1 m0 wlo whi hw1 hw1' hw0 hw0'
  · rw [if_neg hg2]
    exact Within_ifSwap db l (lessL ltb db l m1 m0 = true) m1 m0 wlo whi hw1 hw1' hw0 hw0'

/-- Go `medianOfThree(data, m1, m0, m2)` leaves `data[m0] ≤ data[m1] ≤
data[m2]`. -/
theorem medianOfThreeGo_spec (hasym : ∀ x y, ltb x y = true → ltb y x = false)
    (l : List β) (m1 m0 m2 : Nat)
    (h10 : m1 ≠ m0) (h20 : m2 ≠ m0) (h21 : m2 ≠ m1)
    (hb1 : m1 < l.length) (hb0 : m0 < l.length) (hb2 : m2 < l.length) :
    ltb (rdL db (medianOfThreeGo ltb db l m1 m0 m2) m1)
      (rdL db (medianOfThreeGo ltb db l m1 m0 m2) m0) = false ∧
    ltb (rdL db (medianOfThreeGo ltb db l m1 m0 m2) m2)
      (rdL db (medianOfThreeGo ltb db l m1 m0 m2) m1) = false := by
  rw [medianOfThreeGo]
  dsimp only
  have hpost1 : ltb (rdL db (if lessL ltb db l m1 m0 = true then swapL l m1 m0 else l) m1)
      (rdL db (if lessL ltb db l m1 m0 = true then swapL l m1 m0 else l) m0) = false := by
    by_cases hg : lessL ltb db l m1 m0 = true
    · rw [if_pos hg, rdL_swapL db l m1 m0 m1 hb1 hb0, rdL_swapL db l m1 m0 m0 hb1 hb0,
        if_neg h10, if_pos rfl, if_pos rfl]
      rw [lessL] at hg
      exact hasym _ _ hg
    · rw [if_neg hg]
      rcases Bool.eq_false_or_eq_true (lessL ltb db l m1 m0) with ht | hf
      · exact absurd ht hg
      · rw [lessL] at hf; exact hf
  have hlen1 : (if lessL ltb db l m1 m0 = true then swapL l m1 m0 else l).length = l.length := by
    split
    · exact swapL_length l m1 m0
    · rfl
  by_cases hg2 : lessL ltb db (if lessL ltb db l m1 m0 = true then swapL l m1 m0 else l)
      m2 m1 = true
  · rw [if_pos hg2]
    have hrd2 : ∀ k, rdL db
        (swapL (if lessL ltb db l m1 m0 = true then swapL l m1 m0 else l) m2 m1) k =
        if k = m1 then rdL db (if lessL ltb db l m1 m0 = true then swapL l m1 m0 else l) m2
        else if k = m2 then rdL db (if lessL ltb db l m1 m0 = true then swapL l m1 m0 else l) m1
        else rdL db (if lessL ltb db l m1 m0 = true then swapL l m1 m0 else l) k :=
      fun k => rdL_swapL db _ m2 m1 k (by omega) (by omega)
    rw [lessL] at hg2
    by_cases hg3 : lessL ltb db
        (swapL (if lessL ltb db l m1 m0 = true then swapL l m1 m0 else l) m2 m1) m1 m0 = true
    · rw [if_pos hg3]
      rw [lessL] at hg3
      have hrd3 : ∀ k, rdL db (swapL
          (swapL (if lessL ltb db l m1 m0 = true then swapL l m1 m0 else l) m2 m1) m1 m0) k =
          if k = m0 then rdL db
            (swapL (if lessL ltb db l m1 m0 = true then swapL l m1 m0 else l) m2 m1) m1
          else if k = m1 then rdL db
            (swapL (if lessL ltb db l m1 m0 = true then swapL l m1 m0 else l) m2 m1) m0
          else rdL db
            (swapL (if lessL ltb db l m1 m0 = true then swapL l m1 m0 else l) m2 m1) k := by
        intro k
        refine rdL_swapL db _ m1 m0 k ?_ ?_ <;> rw [swapL_length] <;> omega
      constructor
      · rw [hrd3 m1, hrd3 m0, if_neg h10, if_pos rfl, if_pos rfl]
        exact hasym _ _ hg3
      · rw [hrd3 m2, hrd3 m1, if_neg h20, if_neg h21, if_neg h10, if_pos rfl,
          hrd2 m2, hrd2 m0, if_neg h21, if_pos rfl, if_neg (Ne.symm h10), if_neg (Ne.symm h20)]
        exact hpost1
    · rw [if_neg hg3]
      constructor
      · rcases Bool.eq_false_or_eq_true (lessL ltb db
            (swapL (if lessL ltb db l m1 m0 = true then swapL l m1 m0 else l) m2 m1) m1 m0)
          with ht | hf
        · exact absurd ht hg3
        · rw [lessL] at hf; exact hf
      · rw [hrd2 m2, hrd2 m1, if_neg h21, if_pos rfl, if_pos rfl]
        exact hasym _ _ hg2
  · rw [if_neg hg2]
    refine ⟨hpost1, ?_⟩
    rcases Bool.eq_false_or_eq_true (lessL ltb db
        (if lessL ltb db l m1 m0 = true then swapL l m1 m0 else l) m2 m1) with ht | hf
    · exact absurd ht hg2
    · rw [lessL] at hf; exact hf

/-- The Tukey-ninther pre-pass touches only `[lo, hi)`. -/
theorem dpNinther_within (l : List β) (lo hi m : Nat) (hm : m = (lo + hi) / 2)
    (h12 : lo + 12 < hi) :
    Within db l (dpNinther ltb db l lo hi m) lo hi := by
  rw [dpNinther]
  by_cases h40 : hi - lo > 40
  · rw [if_pos h40]
    dsimp only
    have w1 := medianOfThreeGo_within ltb db l lo (lo + (hi - lo) / 8)
      (lo + 2 * ((hi - lo) / 8)) lo hi (by omega) (by omega) (by omega) (by omega)
      (by omega) (by omega)
    have w2 := medianOfThreeGo_within ltb db
      (medianOfThreeGo ltb db l lo (lo + (hi - lo) / 8) (lo + 2 * ((hi - lo) / 8)))
      m (m - (hi - lo) / 8) (m + (hi - lo) / 8) lo hi (by omega) (by omega) (by omega)
      (by omega) (by omega) (by omega)
    have w3 := medianOfThreeGo_within ltb db
      (medianOfThreeGo ltb db
        (medianOfThreeGo ltb db l lo (lo + (hi - lo) / 8) (lo + 2 * ((hi - lo) / 8)))
        m (m - (hi - lo) / 8) (m + (hi - lo) / 8))
      (hi - 1) (hi - 1 - (hi - lo) / 8) (hi - 1 - 2 * ((hi - lo) / 8)) lo hi
      (by omega) (by omega) (by omega) (by omega) (by omega) (by omega)
    exact Within_trans db (Within_trans db w1 w2) w3
  · rw [if_neg h40]
    exact Within_refl db l lo hi

end GoSortSorted

end Negotiator

namespace Negotiator

section GoSortSorted

variable {β : Type} (ltb : β → β → Bool) (db : β)

/-- Go `doPivot(data, lo, hi)`: the returned `(midlo, midhi)` split
`[lo, hi)` into a not-above-pivot prefix, a pivot-equal middle block and a
not-below-pivot suffix, touching only `[lo, hi)`. -/
theorem doPivotGo_spec (hasym : ∀ x y, ltb x y = true → ltb y x = false)
    (l : List β) (lo hi : Nat) (h12 : lo + 12 < hi) (hlen : hi ≤ l.length) :
    ∀ (lf : List β) (mlo mhi : Nat), doPivotGo ltb db l lo hi = (lf, mlo, mhi) →
      lo ≤ mlo ∧ mlo < mhi ∧ mhi ≤ hi ∧
      lf.length = l.length ∧
      Within db l lf lo hi ∧
      (∀ i, lo ≤ i → i < mlo → ltb (rdL db lf mlo) (rdL db lf i) = false) ∧
      (∀ i, mlo ≤ i → i < mhi →
        ltb (rdL db lf mlo) (rdL db lf i) = false ∧
        ltb (rdL db lf i) (rdL db lf mlo) = false) ∧
      (∀ i, mhi ≤ i → i < hi → ltb (rdL db lf i) (rdL db lf mlo) = false) := by
  intro lf mlo mhi heq
  unfold doPivotGo at heq
  dsimp only at heq
  have WM : Within db l (medianOfThreeGo ltb db (dpNinther ltb db l lo hi ((lo + hi) / 2))
      lo ((lo + hi) / 2) (hi - 1)) lo hi :=
    Within_trans db (dpNinther_within ltb db l lo hi ((lo + hi) / 2) rfl h12)
      (medianOfThreeGo_within ltb db (dpNinther ltb db l lo hi ((lo + hi) / 2))
        lo ((lo + hi) / 2) (hi - 1) lo hi (le_refl lo) (by omega) (by omega) (by omega)
        (by omega) (by omega))
  have hMlen : (medianOfThreeGo ltb db (dpNinther ltb db l lo hi ((lo + hi) / 2))
      lo ((lo + hi) / 2) (hi - 1)).length = l.length := WM.1
  have hnlen : (dpNinther ltb db l lo hi ((lo + hi) / 2)).length = l.length :=
    (dpNinther_within ltb db l lo hi ((lo + hi) / 2) rfl h12).1
  have hlast : ltb (rdL db (medianOfThreeGo ltb db (dpNinther ltb db l lo hi ((lo + hi) / 2))
      lo ((lo + hi) / 2) (hi - 1)) (hi - 1))
      (rdL db (medianOfThreeGo ltb db (dpNinther ltb db l lo hi ((lo + hi) / 2))
        lo ((lo + hi) / 2) (hi - 1)) lo) = false :=
    (medianOfThreeGo_spec ltb db hasym (dpNinther ltb db l lo hi ((lo + hi) / 2))
      lo ((lo + hi) / 2) (hi - 1) (by omega) (by omega) (by omega)
      (by omega) (by omega) (by omega)).2
  obtain ⟨hA1, hA2, hA3, hA4⟩ := dpSkipA_spec ltb db lo hi (lo + 1) (hi - 1)
    (medianOfThreeGo ltb db (dpNinther ltb db l lo hi ((lo + hi) / 2))
      lo ((lo + hi) / 2) (hi - 1)) (by omega) (by omega)
  rcases hDL : dpLoop ltb db lo hi
      (dpSkipA ltb db hi (lo + 1) (hi - 1) lo
        (medianOfThreeGo ltb db (dpNinther ltb db l lo hi ((lo + hi) / 2))
          lo ((lo + hi) / 2) (hi - 1)))
      (hi - 1)
      (medianOfThreeGo ltb db (dpNinther ltb db l lo hi ((lo + hi) / 2))
        lo ((lo + hi) / 2) (hi - 1)) with ⟨l1, b1, c1⟩
  rw [hDL] at heq
  dsimp only at heq
  have hDLs := dpLoop_spec ltb db lo
    (dpSkipA ltb db hi (lo + 1) (hi - 1) lo
      (medianOfThreeGo ltb db (dpNinther ltb db l lo hi ((lo + hi) / 2))
        lo ((lo + hi) / 2) (hi - 1))) hi
    (rdL db (medianOfThreeGo ltb db (dpNinther ltb db l lo hi ((lo + hi) / 2))
      lo ((lo + hi) / 2) (hi - 1)) lo) hi
    (dpSkipA ltb db hi (lo + 1) (hi - 1) lo
      (medianOfThreeGo ltb db (dpNinther ltb db l lo hi ((lo + hi) / 2))
        lo ((lo + hi) / 2) (hi - 1)))
    (hi - 1)
    (medianOfThreeGo ltb db (dpNinther ltb db l lo hi ((lo + hi) / 2))
      lo ((lo + hi) / 2) (hi - 1))
    (by omega) (le_refl _) hA2 (le_refl _) (by omega) rfl
    (fun i h1 h2 => absurd (lt_of_le_of_lt h1 h2) (lt_irrefl _))
    (fun i h1 h2 => absurd (lt_of_le_of_lt h1 h2) (lt_irrefl _))
    (by omega)
  rw [hDL] at hDLs
  dsimp only at hDLs
  obtain ⟨d1, d2, d3, d4, d5, d6, d7, d8⟩ := hDLs
  have PS1 : PartState ltb db lo hi
      (dpSkipA ltb db hi (lo + 1) (hi - 1) lo
        (medianOfThreeGo ltb db (dpNinther ltb db l lo hi ((lo + hi) / 2))
          lo ((lo + hi) / 2) (hi - 1)))
      (rdL db (medianOfThreeGo ltb db (dpNinther ltb db l lo hi ((lo + hi) / 2))
        lo ((lo + hi) / 2) (hi - 1)) lo) l1 b1 c1 := by
    refine ⟨d5, fun i h1 h2 => ?_, d6, fun i h1 h2 => absurd (h1.trans_lt h2) (by omega),
      d7, ?_⟩
    · rw [d8.2.1 i (Or.inl h2)]
      exact hA3 i h1 h2
    · rw [d8.2.1 (hi - 1) (Or.inr (le_refl _))]
      exact hlast
  have hl1len : l1.length = l.length := by rw [d4, hMlen]
  have hDDfacts :
      (dpSkipA ltb db hi (lo + 1) (hi - 1) lo
        (medianOfThreeGo ltb db (dpNinther ltb db l lo hi ((lo + hi) / 2))
          lo ((lo + hi) / 2) (hi - 1))) ≤
        (dpDups ltb db l1 lo hi ((lo + hi) / 2) lo b1 c1).2.1 ∧
      (dpDups ltb db l1 lo hi ((lo + hi) / 2) lo b1 c1).2.1 ≤ b1 ∧
      c1 ≤ (dpDups ltb db l1 lo hi ((lo + hi) / 2) lo b1 c1).2.2.1 ∧
      (dpDups ltb db l1 lo hi ((lo + hi) / 2) lo b1 c1).2.2.1 ≤ hi - 1 ∧
      (dpDups ltb db l1 lo hi ((lo + hi) / 2) lo b1 c1).1.length = l1.length ∧
      PartState ltb db lo hi
        (dpSkipA ltb db hi (lo + 1) (hi - 1) lo
          (medianOfThreeGo ltb db (dpNinther ltb db l lo hi ((lo + hi) / 2))
            lo ((lo + hi) / 2) (hi - 1)))
        (rdL db (medianOfThreeGo ltb db (dpNinther ltb db l lo hi ((lo + hi) / 2))
          lo ((lo + hi) / 2) (hi - 1)) lo)
        (dpDups ltb db l1 lo hi ((lo + hi) / 2) lo b1 c1).1
        (dpDups ltb db l1 lo hi ((lo + hi) / 2) lo b1 c1).2.1
        (dpDups ltb db l1 lo hi ((lo + hi) / 2) lo b1 c1).2.2.1 ∧
      Within db l1 (dpDups ltb db l1 lo hi ((lo + hi) / 2) lo b1 c1).1 (lo + 1) hi := by
    obtain ⟨hpv1, hstrict1, hle1, hmid1, hgt1, hlast1⟩ := PS1
    rw [dpDups_eq]
    by_cases houter : decide (hi - c1 < 5) = false ∧ hi - c1 < (hi - lo) / 4
    · have hc5 : ¬ hi - c1 < 5 := of_decide_eq_false houter.1
      rw [if_pos houter]
      by_cases hg1 : ¬ lessL ltb db l1 lo (hi - 1) = true
      · rw [if_pos hg1]
        have hg1' : ltb (rdL db (medianOfThreeGo ltb db
            (dpNinther ltb db l lo hi ((lo + hi) / 2)) lo ((lo + hi) / 2) (hi - 1)) lo)
            (rdL db l1 (hi - 1)) = false := by
          rcases Bool.eq_false_or_eq_true (lessL ltb db l1 lo (hi - 1)) with ht | hf
          · exact absurd ht hg1
          · rw [lessL, hpv1] at hf; exact hf
        have hgtc : ltb (rdL db (medianOfThreeGo ltb db
            (dpNinther ltb db l lo hi ((lo + hi) / 2)) lo ((lo + hi) / 2) (hi - 1)) lo)
            (rdL db l1 c1) = true := hgt1 c1 (le_refl c1) (by omega)
        have hrd1 : ∀ k, rdL db (swapL l1 c1 (hi - 1)) k =
            if k = hi - 1 then rdL db l1 c1 else if k = c1 then rdL db l1 (hi - 1)
            else rdL db l1 k :=
          fun k => rdL_swapL db l1 c1 (hi - 1) k (by omega) (by omega)
        have hPS' : PartState ltb db lo hi
            (dpSkipA ltb db hi (lo + 1) (hi - 1) lo
              (medianOfThreeGo ltb db (dpNinther ltb db l lo hi ((lo + hi) / 2))
                lo ((lo + hi) / 2) (hi - 1)))
            (rdL db (medianOfThreeGo ltb db (dpNinther ltb db l lo hi ((lo + hi) / 2))
              lo ((lo + hi) / 2) (hi - 1)) lo)
            (swapL l1 c1 (hi - 1)) b1 (c1 + 1) := by
          refine ⟨?_, ?_, ?_, ?_, ?_, ?_⟩
          · rw [hrd1 lo, if_neg (by omega), if_neg (by omega)]; exact hpv1
          · intro i h1 h2
            rw [hrd1 i, if_neg (by omega), if_neg (by omega)]
            exact hstrict1 i h1 h2
          · intro i h1 h2
            rw [hrd1 i, if_neg (by omega), if_neg (by omega)]
            exact hle1 i h1 h2
          · intro i h1 h2
            rw [hrd1 i, if_neg (by omega)]
            by_cases hic : i = c1
            · rw [if_pos hic]
              exact ⟨hg1', hlast1⟩
            · rw [if_neg hic]
              exact hmid1 i h1 (by omega)
          · intro i h1 h2
            rw [hrd1 i, if_neg (by omega), if_neg (by omega)]
            exact hgt1 i (by omega) h2
          · rw [hrd1 (hi - 1), if_pos rfl]
            exact hasym _ _ hgtc
        obtain ⟨k1, k2, k3, k4, k5, k6⟩ := dpDupsTail_spec ltb db hasym lo hi
          ((lo + hi) / 2)
          (dpSkipA ltb db hi (lo + 1) (hi - 1) lo
            (medianOfThreeGo ltb db (dpNinther ltb db l lo hi ((lo + hi) / 2))
              lo ((lo + hi) / 2) (hi - 1)))
          (rdL db (medianOfThreeGo ltb db (dpNinther ltb db l lo hi ((lo + hi) / 2))
            lo ((lo + hi) / 2) (hi - 1)) lo)
          b1 (c1 + 1) 1 (swapL l1 c1 (hi - 1))
          (by omega) (by omega) (by rw [swapL_length]; omega)
          (by omega) d1 (by omega) (by omega) hPS'
        rw [k3]
        refine ⟨k1, k2, by omega, by omega, by rw [k4, swapL_length], k5, ?_⟩
        refine Within_trans db ?_ k6
        exact Within_swapL db l1 (by omega) (by omega) (by omega) (by omega)
      · rw [if_neg hg1]
        obtain ⟨k1, k2, k3, k4, k5, k6⟩ := dpDupsTail_spec ltb db hasym lo hi
          ((lo + hi) / 2)
          (dpSkipA ltb db hi (lo + 1) (hi - 1) lo
            (medianOfThreeGo ltb db (dpNinther ltb db l lo hi ((lo + hi) / 2))
              lo ((lo + hi) / 2) (hi - 1)))
          (rdL db (medianOfThreeGo ltb db (dpNinther ltb db l lo hi ((lo + hi) / 2))
            lo ((lo + hi) / 2) (hi - 1)) lo)
          b1 c1 0 l1
          (by omega) (by omega) (by omega) (by omega) d1 (by omega) (by omega)
          ⟨hpv1, hstrict1, hle1, hmid1, hgt1, hlast1⟩
        rw [k3]
        exact ⟨k1, k2, le_refl c1, by omega, k4, k5, k6⟩
    · rw [if_neg houter]
      dsimp only
      exact ⟨d1, le_refl b1, le_refl c1, by omega, rfl,
        ⟨hpv1, hstrict1, hle1, hmid1, hgt1, hlast1⟩, Within_refl db l1 (lo + 1) hi⟩
  rcases hDD : dpDups ltb db l1 lo hi ((lo + hi) / 2) lo b1 c1 with ⟨l2, b2, c2, prot⟩
  rw [hDD] at heq hDDfacts
  dsimp only at heq hDDfacts
  obtain ⟨e1, e2, e3, e4, e5, e6, e7⟩ := hDDfacts
  obtain ⟨hpv2, hstrict2, hle2, hmid2, hgt2, hlast2⟩ := e6
  have hl2len : l2.length = l.length := by rw [e5, hl1len]
  have hPRfacts :
      lo + 1 ≤ (if prot = true then dpProtLoop ltb db lo hi
          (dpSkipA ltb db hi (lo + 1) (hi - 1) lo
            (medianOfThreeGo ltb db (dpNinther ltb db l lo hi ((lo + hi) / 2))
              lo ((lo + hi) / 2) (hi - 1))) b2 l2 else (l2, b2)).2 ∧
      (if prot = true then dpProtLoop ltb db lo hi
          (dpSkipA ltb db hi (lo + 1) (hi - 1) lo
            (medianOfThreeGo ltb db (dpNinther ltb db l lo hi ((lo + hi) / 2))
              lo ((lo + hi) / 2) (hi - 1))) b2 l2 else (l2, b2)).2 ≤ b2 ∧
      (if prot = true then dpProtLoop ltb db lo hi
          (dpSkipA ltb db hi (lo + 1) (hi - 1) lo
            (medianOfThreeGo ltb db (dpNinther ltb db l lo hi ((lo + hi) / 2))
              lo ((lo + hi) / 2) (hi - 1))) b2 l2 else (l2, b2)).1.length = l2.length ∧
      rdL db (if prot = true then dpProtLoop ltb db lo hi
          (dpSkipA ltb db hi (lo + 1) (hi - 1) lo
            (medianOfThreeGo ltb db (dpNinther ltb db l lo hi ((lo + hi) / 2))
              lo ((lo + hi) / 2) (hi - 1))) b2 l2 else (l2, b2)).1 lo =
        rdL db (medianOfThreeGo ltb db (dpNinther ltb db l lo hi ((lo + hi) / 2))
          lo ((lo + hi) / 2) (hi - 1)) lo ∧
      (∀ i, lo + 1 ≤ i → i < (if prot = true then dpProtLoop ltb db lo hi
          (dpSkipA ltb db hi (lo + 1) (hi - 1) lo
            (medianOfThreeGo ltb db (dpNinther ltb db l lo hi ((lo + hi) / 2))
              lo ((lo + hi) / 2) (hi - 1))) b2 l2 else (l2, b2)).2 →
        ltb (rdL db
          (medianOfThreeGo ltb db (dpNinther ltb db l lo hi ((lo + hi) / 2))
            lo ((lo + hi) / 2) (hi - 1)) lo)
          (rdL db (if prot = true then dpProtLoop ltb db lo hi
            (dpSkipA ltb db hi (lo + 1) (hi - 1) lo
              (medianOfThreeGo ltb db (dpNinther ltb db l lo hi ((lo + hi) / 2))
                lo ((lo + hi) / 2) (hi - 1))) b2 l2 else (l2, b2)).1 i) = false) ∧
      (∀ i, (if prot = true then dpProtLoop ltb db lo hi
          (dpSkipA ltb db hi (lo + 1) (hi - 1) lo
            (medianOfThreeGo ltb db (dpNinther ltb db l lo hi ((lo + hi) / 2))
              lo ((lo + hi) / 2) (hi - 1))) b2 l2 else (l2, b2)).2 ≤ i → i < c2 →
        ltb (rdL db
          (medianOfThreeGo ltb db (dpNinther ltb db l lo hi ((lo + hi) / 2))
            lo ((lo + hi) / 2) (hi - 1)) lo)
          (rdL db (if prot = true then dpProtLoop ltb db lo hi
            (dpSkipA ltb db hi (lo + 1) (hi - 1) lo
              (medianOfThreeGo ltb db (dpNinther ltb db l lo hi ((lo + hi) / 2))
                lo ((lo + hi) / 2) (hi - 1))) b2 l2 else (l2, b2)).1 i) = false ∧
        ltb (rdL db (if prot = true then dpProtLoop ltb db lo hi
            (dpSkipA ltb db hi (lo + 1) (hi - 1) lo
              (medianOfThreeGo ltb db (dpNinther ltb db l lo hi ((lo + hi) / 2))
                lo ((lo + hi) / 2) (hi - 1))) b2 l2 else (l2, b2)).1 i)
          (rdL db (medianOfThreeGo ltb db (dpNinther ltb db l lo hi ((lo + hi) / 2))
            lo ((lo + hi) / 2) (hi - 1)) lo) = false) ∧
      (∀ i, c2 ≤ i → i < hi - 1 →
        ltb (rdL db
          (medianOfThreeGo ltb db (dpNinther ltb db l lo hi ((lo + hi) / 2))
            lo ((lo + hi) / 2) (hi - 1)) lo)
          (rdL db (if prot = true then dpProtLoop ltb db lo hi
            (dpSkipA ltb db hi (lo + 1) (hi - 1) lo
              (medianOfThreeGo ltb db (dpNinther ltb db l lo hi ((lo + hi) / 2))
                lo ((lo + hi) / 2) (hi - 1))) b2 l2 else (l2, b2)).1 i) = true) ∧
      ltb (rdL db (if prot = true then dpProtLoop ltb db lo hi
          (dpSkipA ltb db hi (lo + 1) (hi - 1) lo
            (medianOfThreeGo ltb db (dpNinther ltb db l lo hi ((lo + hi) / 2))
              lo ((lo + hi) / 2) (hi - 1))) b2 l2 else (l2, b2)).1 (hi - 1))
        (rdL db (medianOfThreeGo ltb db (dpNinther ltb db l lo hi ((lo + hi) / 2))
          lo ((lo + hi) / 2) (hi - 1)) lo) = false ∧
      Within db l2 (if prot = true then dpProtLoop ltb db lo hi
          (dpSkipA ltb db hi (lo + 1) (hi - 1) lo
            (medianOfThreeGo ltb db (dpNinther ltb db l lo hi ((lo + hi) / 2))
              lo ((lo + hi) / 2) (hi - 1))) b2 l2 else (l2, b2)).1 (lo + 1) hi := by
    cases prot with
    | false =>
      rw [if_neg Bool.false_ne_true]
      refine ⟨by omega, le_refl b2, rfl, hpv2, fun i h1 h2 => ?_, hmid2, hgt2, hlast2,
        Within_refl db l2 (lo + 1) hi⟩
      by_cases hia : i < dpSkipA ltb db hi (lo + 1) (hi - 1) lo
          (medianOfThreeGo ltb db (dpNinther ltb db l lo hi ((lo + hi) / 2))
            lo ((lo + hi) / 2) (hi - 1))
      · exact hasym _ _ (hstrict2 i h1 hia)
      · exact hle2 i (by omega) h2
    | true =>
      rw [if_pos rfl]
      obtain ⟨p1, p2, p3, p4, p5, p6, p7⟩ := dpProtLoop_spec ltb db lo (lo + 1)
        (rdL db (medianOfThreeGo ltb db (dpNinther ltb db l lo hi ((lo + hi) / 2))
          lo ((lo + hi) / 2) (hi - 1)) lo) hi
        (dpSkipA ltb db hi (lo + 1) (hi - 1) lo
          (medianOfThreeGo ltb db (dpNinther ltb db l lo hi ((lo + hi) / 2))
            lo ((lo + hi) / 2) (hi - 1))) b2 l2
        (by omega) (by omega) e1 (by omega) hpv2 hstrict2 hle2 (by omega)
      refine ⟨p1, p2, p3, p4, fun i h1 h2 => ?_, fun i h1 h2 => ?_, fun i h1 h2 => ?_,
        ?_, Within_mono db (by omega) (by omega) p7⟩
      · exact hasym _ _ (p5 i h1 h2)
      · by_cases hib : i < b2
        · exact p6 i h1 hib
        · have hiu := p7.2.1 i (by omega)
          rw [hiu]
          exact hmid2 i (by omega) h2
      · have hiu := p7.2.1 i (by omega)
        rw [hiu]
        exact hgt2 i h1 h2
      · have hiu := p7.2.1 (hi - 1) (by omega)
        rw [hiu]
        exact hlast2
  rcases hPR : (if prot = true then dpProtLoop ltb db lo hi
      (dpSkipA ltb db hi (lo + 1) (hi - 1) lo
        (medianOfThreeGo ltb db (dpNinther ltb db l lo hi ((lo + hi) / 2))
          lo ((lo + hi) / 2) (hi - 1))) b2 l2 else (l2, b2)) with ⟨l3, b3⟩
  rw [hPR] at heq hPRfacts
  dsimp only at heq hPRfacts
  obtain ⟨f1, f2, f3, f4, f5, f6, f7, f8, f9⟩ := hPRfacts
  have hl3len : l3.length = l.length := by rw [f3, hl2len]
  have hrdF : ∀ k, rdL db (swapL l3 lo (b3 - 1)) k =
      if k = b3 - 1 then rdL db l3 lo else if k = lo then rdL db l3 (b3 - 1)
      else rdL db l3 k :=
    fun k => rdL_swapL db l3 lo (b3 - 1) k (by omega) (by omega)
  cases heq
  have hpvF : rdL db (swapL l3 lo (b3 - 1)) (b3 - 1) =
      rdL db (medianOfThreeGo ltb db (dpNinther ltb db l lo hi ((lo + hi) / 2))
        lo ((lo + hi) / 2) (hi - 1)) lo := by
    rw [hrdF (b3 - 1), if_pos rfl, f4]
  refine ⟨by omega, by omega, by omega, by rw [swapL_length, hl3len], ?_,
    fun i h1 h2 => ?_, fun i h1 h2 => ?_, fun i h1 h2 => ?_⟩
  · refine Within_trans db WM (Within_trans db (Within_mono db (by omega) (by omega) d8)
      (Within_trans db (Within_mono db (by omega) (by omega) e7)
      (Within_trans db (Within_mono db (by omega) (by omega) f9) ?_)))
    exact Within_swapL db l3 (le_refl lo) (by omega) (by omega) (by omega)
  · rw [hpvF, hrdF i, if_neg (by omega)]
    by_cases hil : i = lo
    · rw [if_pos hil]
      exact f5 (b3 - 1) (by omega) (by omega)
    · rw [if_neg hil]
      exact f5 i (by omega) (by omega)
  · rw [hpvF, hrdF i]
    by_cases hib : i = b3 - 1
    · rw [if_pos hib, f4]
      exact ⟨ltb_irrefl ltb hasym _, ltb_irrefl ltb hasym _⟩
    · rw [if_neg hib, if_neg (by omega)]
      exact f6 i (by omega) h2
  · rw [hpvF, hrdF i, if_neg (by omega), if_neg (by omega)]
    by_cases hih : i = hi - 1
    · rw [hih]
      exact f8
    · exact hasym _ _ (f7 i (by omega) (by omega))

end GoSortSorted

end Negotiator

namespace Negotiator

/-- Descendant relation of the implicit binary heap layout: `Desc r j`
holds when `j` lies in the subtree rooted at `r`. -/
inductive Desc : Nat → Nat → Prop where
  | refl (r : Nat) : Desc r r
  | left {r j : Nat} : Desc r j → Desc r (2 * j + 1)
  | right {r j : Nat} : Desc r j → Desc r (2 * j + 2)

theorem desc_le {r j : Nat} (h : Desc r j) : r ≤ j := by
  induction h with
  | refl => exact le_refl r
  | left _ ih => omega
  | right _ ih => omega

theorem desc_trans {r s j : Nat} (h1 : Desc r s) (h2 : Desc s j) : Desc r j := by
  induction h2 with
  | refl => exact h1
  | left _ ih => exact Desc.left ih
  | right _ ih => exact Desc.right ih

theorem desc_zero (j : Nat) : Desc 0 j := by
  induction j using Nat.strong_induction_on with
  | _ j ih =>
    match j with
    | 0 => exact Desc.refl 0
    | k + 1 =>
      have hp := ih (k / 2) (by omega)
      rcases Nat.even_or_odd k with he | ho
      · obtain ⟨t, ht⟩ := he
        have hk : k + 1 = 2 * (k / 2) + 1 := by omega
        rw [hk]
        exact Desc.left hp
      · obtain ⟨t, ht⟩ := ho
        have hk : k + 1 = 2 * (k / 2) + 2 := by omega
        rw [hk]
        exact Desc.right hp

/-- The parent of a proper member of `r`'s subtree is itself in the
subtree, hence at least `r`. -/
theorem desc_parent {r x : Nat} (h : Desc r x) (hne : x ≠ r) :
    ∀ j, (x = 2 * j + 1 ∨ x = 2 * j + 2) → r ≤ j := by
  cases h with
  | refl => exact absurd rfl hne
  | left h' =>
    intro j hj
    have := desc_le h'
    omega
  | right h' =>
    intro j hj
    have := desc_le h'
    omega

end Negotiator

namespace Negotiator

section GoSortSorted

variable {β : Type} (ltb : β → β → Bool) (db : β)

/-- The max-heap property on positions `first + k, …, first + hsz - 1`
restricted to parents at index at least `k`. -/
def PartialHeap (first hsz k : Nat) (l : List β) : Prop :=
  ∀ j c, k ≤ j → (c = 2 * j + 1 ∨ c = 2 * j + 2) → c < hsz →
    ltb (rdL db l (first + j)) (rdL db l (first + c)) = false

/-- Along a subtree path the heap property composes: a descendant is never
above its subtree root. -/
theorem heap_path (hneg : ∀ x y z, ltb x y = false → ltb y z = false → ltb x z = false)
    (hasym : ∀ x y, ltb x y = true → ltb y x = false)
    (first hsz k : Nat) (l : List β) (hh : PartialHeap ltb db first hsz k l) :
    ∀ (r i : Nat), k ≤ r → Desc r i → i < hsz →
      ltb (rdL db l (first + r)) (rdL db l (first + i)) = false := by
  intro r i hkr hdesc
  induction hdesc with
  | refl => intro _; exact ltb_irrefl ltb hasym _
  | left h' ih =>
    rename_i j'
    intro hc
    have hj' : j' < hsz := by omega
    exact hneg _ _ _ (ih hj') (hh j' (2 * j' + 1) (le_trans hkr (desc_le h')) (Or.inl rfl) hc)
  | right h' ih =>
    rename_i j'
    intro hc
    have hj' : j' < hsz := by omega
    exact hneg _ _ _ (ih hj') (hh j' (2 * j' + 2) (le_trans hkr (desc_le h')) (Or.inr rfl) hc)

/-- Go `siftDown`: starting from a heap that is valid below the root, it
restores the heap at the root, touching only subtree positions and only
permuting subtree values. -/
theorem siftDownGo_spec (hasym : ∀ x y, ltb x y = true → ltb y x = false)
    (hneg : ∀ x y z, ltb x y = false → ltb y z = false → ltb x z = false)
    (first hsz : Nat) :
    ∀ (fuel root : Nat) (l : List β),
      hsz - root ≤ fuel → first + hsz ≤ l.length →
      PartialHeap ltb db first hsz (root + 1) l →
      PartialHeap ltb db first hsz root (siftDownGo ltb db fuel root hsz first l) ∧
      (siftDownGo ltb db fuel root hsz first l).length = l.length ∧
      (∀ p, (∀ i, Desc root i → i < hsz → p ≠ first + i) →
        rdL db (siftDownGo ltb db fuel root hsz first l) p = rdL db l p) ∧
      (∀ P : β → Prop, (∀ i, Desc root i → i < hsz → P (rdL db l (first + i))) →
        ∀ i, Desc root i → i < hsz →
          P (rdL db (siftDownGo ltb db fuel root hsz first l) (first + i))) := by
  intro fuel
  induction fuel with
  | zero =>
    intro root l hfuel hlen hph
    rw [siftDownGo]
    refine ⟨fun j c hj hc hch => hph j c (by omega) hc hch, rfl, fun p _ => rfl,
      fun P hP i hd hih => hP i hd hih⟩
  | succ fuel ih =>
    intro root l hfuel hlen hph
    rw [siftDownGo]
    dsimp only
    by_cases hc0 : 2 * root + 1 ≥ hsz
    · rw [if_pos hc0]
      refine ⟨fun j c hj hc hch => ?_, rfl, fun p _ => rfl, fun P hP i hd hih => hP i hd hih⟩
      by_cases hjr : j = root
      · subst j; omega
      · exact hph j c (by omega) hc hch
    · rw [if_neg hc0]
      have main : ∀ child : Nat, (child = 2 * root + 1 ∨ child = 2 * root + 2) →
          child < hsz →
          (∀ c, (c = 2 * root + 1 ∨ c = 2 * root + 2) → c < hsz →
            ltb (rdL db l (first + child)) (rdL db l (first + c)) = false) →
          ltb (rdL db l (first + root)) (rdL db l (first + child)) = true →
          PartialHeap ltb db first hsz root
            (siftDownGo ltb db fuel child hsz first (swapL l (first + root) (first + child))) ∧
          (siftDownGo ltb db fuel child hsz first
            (swapL l (first + root) (first + child))).length = l.length ∧
          (∀ p, (∀ i, Desc root i → i < hsz → p ≠ first + i) →
            rdL db (siftDownGo ltb db fuel child hsz first
              (swapL l (first + root) (first + child))) p = rdL db l p) ∧
          (∀ P : β → Prop, (∀ i, Desc root i → i < hsz → P (rdL db l (first + i))) →
            ∀ i, Desc root i → i < hsz →
              P (rdL db (siftDownGo ltb db fuel child hsz first
                (swapL l (first + root) (first + child))) (first + i))) := by
        intro child hchild hchsz hmax hguard
        have hrdsw : ∀ k, rdL db (swapL l (first + root) (first + child)) k =
            if k = first + child then rdL db l (first + root)
            else if k = first + root then rdL db l (first + child)
            else rdL db l k :=
          fun k => rdL_swapL db l (first + root) (first + child) k (by omega) (by omega)
        have hdchild : Desc root child := by
          rcases hchild with h | h
          · rw [h]; exact Desc.left (Desc.refl root)
          · rw [h]; exact Desc.right (Desc.refl root)
        have hph' : PartialHeap ltb db first hsz (child + 1)
            (swapL l (first + root) (first + child)) := by
          intro j c hj hc hch
          rw [hrdsw (first + j), if_neg (by omega), if_neg (by omega),
            hrdsw (first + c), if_neg (by omega), if_neg (by omega)]
          exact hph j c (by omega) hc hch
        obtain ⟨r1, r2, r3, r4⟩ := ih child (swapL l (first + root) (first + child))
          (by omega) (by rw [swapL_length]; exact hlen) hph'
        have hrootu : rdL db (siftDownGo ltb db fuel child hsz first
            (swapL l (first + root) (first + child))) (first + root) =
            rdL db l (first + child) := by
          rw [r3 (first + root) (fun i hd hih => by
            have := desc_le hd
            omega)]
          rw [hrdsw (first + root), if_neg (by omega), if_pos rfl]
        have huntouched : ∀ c, ¬ Desc child c → c ≠ root → c ≠ child →
            rdL db (siftDownGo ltb db fuel child hsz first
              (swapL l (first + root) (first + child))) (first + c) =
            rdL db l (first + c) := by
          intro c hnd hcr hcc
          rw [r3 (first + c) (fun i hd hih => by
            by_cases hic : i = c
            · subst hic; exact absurd hd hnd
            · omega)]
          rw [hrdsw (first + c), if_neg (by omega), if_neg (by omega)]
        refine ⟨?_, by rw [r2, swapL_length], ?_, ?_⟩
        · intro j c hj hc hch
          by_cases hjch : child ≤ j
          · exact r1 j c hjch hc hch
          · by_cases hjr : j = root
            · subst j
              by_cases hcc : c = child
              · subst c
                rw [hrootu]
                refine r4 (fun v => ltb (rdL db l (first + child)) v = false) ?_ child
                  (Desc.refl child) hchsz
                intro i hd hih
                by_cases hic : i = child
                · subst i
                  rw [hrdsw (first + child), if_pos rfl]
                  exact hasym _ _ hguard
                · rw [hrdsw (first + i), if_neg (by
                    have := desc_le hd
                    omega), if_neg (by
                    have := desc_le hd
                    omega)]
                  exact heap_path ltb db hneg hasym first hsz (root + 1) l hph child i
                    (by omega) hd hih
              · have hcnd : ¬ Desc child c := by
                  intro hdc
                  have := desc_parent hdc hcc root hc
                  omega
                rw [hrootu, huntouched c hcnd (by omega) hcc]
                exact hmax c hc hch
            · have hju : rdL db (siftDownGo ltb db fuel child hsz first
                  (swapL l (first + root) (first + child))) (first + j) =
                  rdL db l (first + j) := by
                refine huntouched j (fun hdj => ?_) hjr (by omega)
                have := desc_le hdj
                omega
              have hcnd : ¬ Desc child c := by
                intro hdc
                have hcne : c ≠ child := by omega
                have := desc_parent hdc hcne j hc
                omega
              rw [hju, huntouched c hcnd (by omega) (by omega)]
              exact hph j c (by omega) hc hch
        · intro p hp
          rw [r3 p (fun i hd hih => hp i (desc_trans hdchild hd) hih)]
          rw [hrdsw p, if_neg (hp child hdchild hchsz), if_neg (hp root (Desc.refl root)
            (by omega))]
        · intro P hP i hd hih
          have hPsw : ∀ i, Desc child i → i < hsz →
              P (rdL db (swapL l (first + root) (first + child)) (first + i)) := by
            intro i' hd' hih'
            rw [hrdsw (first + i')]
            by_cases hic : i' = child
            · rw [if_pos (by omega)]
              exact hP root (Desc.refl root) (by omega)
            · rw [if_neg (by
                have := desc_le hd'
                omega), if_neg (by
                have := desc_le hd'
                omega)]
              exact hP i' (desc_trans hdchild hd') hih'
          by_cases hdc : Desc child i
          · exact r4 P hPsw i hdc hih
          · by_cases hir : i = root
            · subst i
              rw [hrootu]
              exact hP child hdchild hchsz
            · by_cases hic : i = child
              · subst i; exact absurd (Desc.refl child) hdc
              · rw [huntouched i hdc hir hic]
                exact hP i hd hih
      by_cases hsel : 2 * root + 1 + 1 < hsz ∧
          lessL ltb db l (first + (2 * root + 1)) (first + (2 * root + 1) + 1) = true
      · rw [if_pos hsel]
        have hmax : ∀ c, (c = 2 * root + 1 ∨ c = 2 * root + 2) → c < hsz →
            ltb (rdL db l (first + (2 * root + 1 + 1))) (rdL db l (first + c)) = false := by
          intro c hc hch
          rcases hc with h | h
          · subst h
            have := hsel.2
            rw [lessL] at this
            have h' := hasym _ _ this
            rw [show first + (2 * root + 1) + 1 = first + (2 * root + 1 + 1) from by omega] at h'
            exact h'
          · subst h
            rw [show 2 * root + 2 = 2 * root + 1 + 1 from by omega]
            exact ltb_irrefl ltb hasym _
        by_cases hguard : ¬ lessL ltb db l (first + root) (first + (2 * root + 1 + 1)) = true
        · rw [if_pos hguard]
          refine ⟨fun j c hj hc hch => ?_, rfl, fun p _ => rfl,
            fun P hP i hd hih => hP i hd hih⟩
          by_cases hjr : j = root
          · subst j
            have hgf : ltb (rdL db l (first + root)) (rdL db l (first + (2 * root + 1 + 1))) =
                false := by
              rcases Bool.eq_false_or_eq_true (lessL ltb db l (first + root)
                (first + (2 * root + 1 + 1))) with ht | hf
              · exact absurd ht hguard
              · rw [lessL] at hf; exact hf
            exact hneg _ _ _ hgf (hmax c hc hch)
          · exact hph j c (by omega) hc hch
        · rw [if_neg hguard]
          have hgt : ltb (rdL db l (first + root)) (rdL db l (first + (2 * root + 1 + 1))) =
              true := by
            rcases Bool.eq_false_or_eq_true (lessL ltb db l (first + root)
              (first + (2 * root + 1 + 1))) with ht | hf
            · rw [lessL] at ht; exact ht
            · exact absurd (by rw [hf]; exact Bool.false_ne_true) hguard
          exact main (2 * root + 1 + 1) (by omega) (by omega) hmax hgt
      · rw [if_neg hsel]
        have hmax : ∀ c, (c = 2 * root + 1 ∨ c = 2 * root + 2) → c < hsz →
            ltb (rdL db l (first + (2 * root + 1))) (rdL db l (first + c)) = false := by
          intro c hc hch
          rcases hc with h | h
          · subst h
            exact ltb_irrefl ltb hasym _
          · subst h
            have hself : lessL ltb db l (first + (2 * root + 1))
                (first + (2 * root + 1) + 1) = false := by
              rcases Bool.eq_false_or_eq_true (lessL ltb db l (first + (2 * root + 1))
                (first + (2 * root + 1) + 1)) with ht | hf
              · exact absurd ⟨by omega, ht⟩ hsel
              · exact hf
            rw [lessL] at hself
            rw [show first + (2 * root + 2) = first + (2 * root + 1) + 1 from by omega]
            exact hself
        by_cases hguard : ¬ lessL ltb db l (first + root) (first + (2 * root + 1)) = true
        · rw [if_pos hguard]
          refine ⟨fun j c hj hc hch => ?_, rfl, fun p _ => rfl,
            fun P hP i hd hih => hP i hd hih⟩
          by_cases hjr : j = root
          · subst j
            have hgf : ltb (rdL db l (first + root)) (rdL db l (first + (2 * root + 1))) =
                false := by
              rcases Bool.eq_false_or_eq_true (lessL ltb db l (first + root)
                (first + (2 * root + 1))) with ht | hf
              · exact absurd ht hguard
              · rw [lessL] at hf; exact hf
            exact hneg _ _ _ hgf (hmax c hc hch)
          · exact hph j c (by omega) hc hch
        · rw [if_neg hguard]
          have hgt : ltb (rdL db l (first + root)) (rdL db l (first + (2 * root + 1))) =
              true := by
            rcases Bool.eq_false_or_eq_true (lessL ltb db l (first + root)
              (first + (2 * root + 1))) with ht | hf
            · rw [lessL] at ht; exact ht
            · exact absurd (by rw [hf]; exact Bool.false_ne_true) hguard
          exact main (2 * root + 1) (by omega) (by omega) hmax hgt

end GoSortSorted

end Negotiator

namespace Negotiator

section GoSortSorted2

variable {β : Type} (ltb : β → β → Bool) (db : β)

/-- In a full heap the root read dominates every heap position. -/
theorem heap_max (hasym : ∀ x y, ltb x y = true → ltb y x = false)
    (hneg : ∀ x y z, ltb x y = false → ltb y z = false → ltb x z = false)
    (first hsz : Nat) (l : List β) (hph : PartialHeap ltb db first hsz 0 l) :
    ∀ j, j < hsz → ltb (rdL db l first) (rdL db l (first + j)) = false := by
  intro j hj
  have h := heap_path ltb db hneg hasym first hsz 0 l hph 0 j (le_refl 0) (desc_zero j) hj
  rw [Nat.add_zero] at h
  exact h

/-- Go `siftDown` only rearranges reads inside the heap window. -/
theorem siftDownGo_within (hasym : ∀ x y, ltb x y = true → ltb y x = false)
    (hneg : ∀ x y z, ltb x y = false → ltb y z = false → ltb x z = false)
    (first hsz fuel root : Nat) (l : List β)
    (hfuel : hsz - root ≤ fuel) (hlen : first + hsz ≤ l.length)
    (hph : PartialHeap ltb db first hsz (root + 1) l) :
    Within db l (siftDownGo ltb db fuel root hsz first l) first (first + hsz) := by
  obtain ⟨_, r2, r3, r4⟩ := siftDownGo_spec ltb db hasym hneg first hsz fuel root l hfuel hlen hph
  refine ⟨r2, fun p hp => r3 p (fun i hd hih hpe => by omega), fun p hp1 hp2 => ?_⟩
  by_cases hsub : Desc root (p - first)
  · have hP := r4 (fun v => ∃ j, first ≤ j ∧ j < first + hsz ∧ rdL db l j = v)
      (fun i hd hih => ⟨first + i, by omega, by omega, rfl⟩) (p - first) hsub (by omega)
    rw [show first + (p - first) = p from by omega] at hP
    exact hP
  · rw [r3 p (fun i hd hih hpe => hsub (by rw [hpe, Nat.add_sub_cancel_left]; exact hd))]
    exact ⟨p, hp1, hp2, rfl⟩

/-- Go `heapSort`'s build phase produces a full heap, rearranging only the
window. -/
theorem heapBuild_spec (hasym : ∀ x y, ltb x y = true → ltb y x = false)
    (hneg : ∀ x y z, ltb x y = false → ltb y z = false → ltb x z = false)
    (first hsz : Nat) :
    ∀ (i : Nat) (l : List β), first + hsz ≤ l.length →
      PartialHeap ltb db first hsz (i + 1) l →
      PartialHeap ltb db first hsz 0 (heapBuild ltb db hsz first i l) ∧
      Within db l (heapBuild ltb db hsz first i l) first (first + hsz) ∧
      (heapBuild ltb db hsz first i l).length = l.length := by
  intro i
  induction i with
  | zero =>
    intro l hlen hph
    rw [heapBuild]
    obtain ⟨s1, s2, s3, s4⟩ := siftDownGo_spec ltb db hasym hneg first hsz (hsz + 1) 0 l
      (by omega) hlen hph
    exact ⟨s1, siftDownGo_within ltb db hasym hneg first hsz (hsz + 1) 0 l (by omega) hlen hph,
      s2⟩
  | succ i ihb =>
    intro l hlen hph
    rw [heapBuild]
    obtain ⟨s1, s2, s3, s4⟩ := siftDownGo_spec ltb db hasym hneg first hsz (hsz + 1) (i + 1) l
      (by omega) hlen hph
    have hW := siftDownGo_within ltb db hasym hneg first hsz (hsz + 1) (i + 1) l (by omega)
      hlen hph
    obtain ⟨b1, b2, b3⟩ := ihb (siftDownGo ltb db (hsz + 1) (i + 1) hsz first l)
      (by rw [s2]; exact hlen) s1
    exact ⟨b1, Within_trans db hW b2, by rw [b3, s2]⟩

/-- Go `heapSort`'s pop phase: given a full heap on `[first, first+i+1]`, a
sorted tail and the cross bound, the result is sorted on `[first, N)`. -/
theorem heapPop_spec (hasym : ∀ x y, ltb x y = true → ltb y x = false)
    (hneg : ∀ x y z, ltb x y = false → ltb y z = false → ltb x z = false)
    (first N : Nat) :
    ∀ (i : Nat) (l : List β),
      first + i < N → N ≤ l.length →
      PartialHeap ltb db first (i + 1) 0 l →
      SortedRng ltb db l (first + i + 1) N →
      (∀ p q, first ≤ p → p < first + i + 1 → first + i + 1 ≤ q → q < N →
        ltb (rdL db l q) (rdL db l p) = false) →
      SortedRng ltb db (heapPop ltb db first i l) first N ∧
      Within db l (heapPop ltb db first i l) first N := by
  intro i
  induction i with
  | zero =>
    intro l hiN hlen hph hsuf hcross
    have hf0 : first < l.length := by omega
    have hstep : heapPop ltb db first 0 l = swapL l first first := by
      rw [heapPop, siftDownGo]
      dsimp only
      rw [if_pos (by omega)]
    have hr : ∀ k, rdL db (swapL l first first) k = rdL db l k := by
      intro k
      rw [rdL_swapL db l first first k hf0 hf0]
      by_cases hk : k = first
      · rw [if_pos hk, hk]
      · rw [if_neg hk, if_neg hk]
    constructor
    · intro p q hp hpq hq
      rw [hstep, hr q, hr p]
      by_cases hp1 : first + 1 ≤ p
      · exact hsuf p q (by omega) hpq hq
      · have hpf : p = first := by omega
        rw [hpf]
        exact hcross first q (le_refl first) (by omega) (by omega) hq
    · rw [hstep]
      exact Within_swapL db l (le_refl first) (by omega) (le_refl first) (by omega)
  | succ i ih =>
    intro l hiN hlen hph hsuf hcross
    have hf1 : first + i + 1 < l.length := by omega
    have hf0 : first < l.length := by omega
    have hrd1 : ∀ k, rdL db (swapL l first (first + i + 1)) k =
        if k = first + i + 1 then rdL db l first
        else if k = first then rdL db l (first + i + 1)
        else rdL db l k := fun k => rdL_swapL db l first (first + i + 1) k hf0 hf1
    have hmax0 : ∀ j, j < i + 2 → ltb (rdL db l first) (rdL db l (first + j)) = false :=
      heap_max ltb db hasym hneg first (i + 2) l hph
    set l1 := swapL l first (first + i + 1) with hl1
    have hph1 : PartialHeap ltb db first (i + 1) 1 l1 := by
      intro j c hj hc hch
      rw [hrd1 (first + j), if_neg (by omega), if_neg (by omega),
        hrd1 (first + c), if_neg (by omega), if_neg (by omega)]
      exact hph j c (by omega) hc (by omega)
    have hlen1 : first + (i + 1) ≤ l1.length := by
      rw [hl1, swapL_length]; omega
    obtain ⟨s1, s2, s3, s4⟩ := siftDownGo_spec ltb db hasym hneg first (i + 1) (i + 2) 0 l1
      (by omega) hlen1 hph1
    set ls := siftDownGo ltb db (i + 2) 0 (i + 1) first l1 with hls
    have hsout : ∀ q, first + i + 1 ≤ q → rdL db ls q = rdL db l1 q := by
      intro q hq
      exact s3 q (fun i' hd hih hpe => by omega)
    have hsN : N ≤ ls.length := by
      rw [s2, hl1, swapL_length]; omega
    have hsuf' : SortedRng ltb db ls (first + i + 1) N := by
      intro p q hp hpq hq
      rw [hsout q (by omega), hsout p hp, hrd1 q, hrd1 p]
      by_cases hp1 : p = first + i + 1
      · rw [if_neg (by omega), if_neg (by omega), if_pos hp1]
        exact hcross first q (le_refl first) (by omega) (by omega) hq
      · rw [if_neg (by omega), if_neg (by omega), if_neg hp1, if_neg (by omega)]
        exact hsuf p q (by omega) hpq hq
    have hcross' : ∀ p q, first ≤ p → p < first + i + 1 → first + i + 1 ≤ q → q < N →
        ltb (rdL db ls q) (rdL db ls p) = false := by
      intro p q hp hpi hq hqN
      have hqv : rdL db ls q = if q = first + i + 1 then rdL db l first else rdL db l q := by
        rw [hsout q hq, hrd1 q]
        by_cases hq1 : q = first + i + 1
        · rw [if_pos hq1, if_pos hq1]
        · rw [if_neg hq1, if_neg (by omega), if_neg hq1]
      have hPpre : ∀ i', Desc 0 i' → i' < i + 1 →
          ltb (rdL db ls q) (rdL db l1 (first + i')) = false := by
        intro i' hd hih
        rw [hrd1 (first + i')]
        by_cases hi0 : i' = 0
        · rw [if_neg (by omega), if_pos (by omega)]
          rw [hqv]
          by_cases hq1 : q = first + i + 1
          · rw [if_pos hq1]
            have h := hmax0 (i + 1) (by omega)
            rw [show first + (i + 1) = first + i + 1 from by omega] at h
            exact h
          · rw [if_neg hq1]
            exact hcross (first + i + 1) q (by omega) (by omega) (by omega) hqN
        · rw [if_neg (by omega), if_neg (by omega)]
          rw [hqv]
          by_cases hq1 : q = first + i + 1
          · rw [if_pos hq1]
            exact hmax0 i' (by omega)
          · rw [if_neg hq1]
            exact hcross (first + i') q (by omega) (by omega) (by omega) hqN
      have hPp := s4 (fun v => ltb (rdL db ls q) v = false) hPpre (p - first)
        (desc_zero (p - first)) (by omega)
      rw [show first + (p - first) = p from by omega] at hPp
      exact hPp
    obtain ⟨c1, c2⟩ := ih ls (by omega) hsN s1 hsuf' hcross'
    constructor
    · rw [heapPop]
      exact c1
    · rw [heapPop]
      have w1 : Within db l l1 first N :=
        Within_swapL db l (le_refl first) (by omega) (by omega) (by omega)
      have w2 : Within db l1 ls first N :=
        Within_mono db (le_refl first) (by omega)
          (siftDownGo_within ltb db hasym hneg first (i + 1) (i + 2) 0 l1 (by omega) hlen1 hph1)
      exact Within_trans db (Within_trans db w1 w2) c2

/-- Go `heapSort` sorts the window `[a, b)` and touches nothing else. -/
theorem heapSortGo_sorted (hasym : ∀ x y, ltb x y = true → ltb y x = false)
    (hneg : ∀ x y z, ltb x y = false → ltb y z = false → ltb x z = false)
    (l : List β) (a b : Nat) (hab : a < b) (hlen : b ≤ l.length) :
    SortedRng ltb db (heapSortGo ltb db l a b) a b ∧
    Within db l (heapSortGo ltb db l a b) a b := by
  rw [heapSortGo]
  have hph0 : PartialHeap ltb db a (b - a) ((b - a - 1) / 2 + 1) l := by
    intro j c hj hc hch
    exact absurd hch (by omega)
  obtain ⟨b1, b2, b3⟩ := heapBuild_spec ltb db hasym hneg a (b - a) ((b - a - 1) / 2) l
    (by omega) hph0
  have hph0' : PartialHeap ltb db a (b - a - 1 + 1) 0
      (heapBuild ltb db (b - a) a ((b - a - 1) / 2) l) := by
    rw [show b - a - 1 + 1 = b - a from by omega]
    exact b1
  obtain ⟨c1, c2⟩ := heapPop_spec ltb db hasym hneg a b (b - a - 1)
    (heapBuild ltb db (b - a) a ((b - a - 1) / 2) l)
    (by omega) (by rw [b3]; omega) hph0'
    (fun p q hp hpq hq => absurd hpq (by omega))
    (fun p q hp hpi hq hqN => absurd hqN (by omega))
  exact ⟨c1, Within_trans db (Within_mono db (le_refl a) (by omega) b2) c2⟩

end GoSortSorted2

end Negotiator

namespace Negotiator

section GoSortSorted3

variable {β : Type} (ltb : β → β → Bool) (db : β)

/-- Merging facts for introsort: window sorted on both sides of a
pivot-equal middle segment, with the cross bounds, is sorted. -/
theorem SortedRng_merge (hneg : ∀ x y z, ltb x y = false → ltb y z = false → ltb x z = false)
    {lf l3 : List β} {a mlo mhi b : Nat}
    (h1 : a ≤ mlo) (h2 : mlo < mhi) (h3 : mhi ≤ b)
    (seg2 : ∀ i, mlo ≤ i → i < mhi →
      ltb (rdL db lf mlo) (rdL db lf i) = false ∧ ltb (rdL db lf i) (rdL db lf mlo) = false)
    (R1 : SortedRng ltb db l3 a mlo)
    (R3 : SortedRng ltb db l3 mhi b)
    (Rmid : ∀ i, mlo ≤ i → i < mhi → rdL db l3 i = rdL db lf i)
    (B1 : ∀ i, a ≤ i → i < mlo → ltb (rdL db lf mlo) (rdL db l3 i) = false)
    (B3 : ∀ i, mhi ≤ i → i < b → ltb (rdL db l3 i) (rdL db lf mlo) = false) :
    SortedRng ltb db l3 a b := by
  intro i j hi hij hj
  by_cases hi1 : i < mlo
  · by_cases hj1 : j < mlo
    · exact R1 i j hi hij hj1
    · by_cases hj2 : j < mhi
      · rw [Rmid j (by omega) hj2]
        exact hneg _ _ _ (seg2 j (by omega) hj2).2 (B1 i hi hi1)
      · exact hneg _ _ _ (B3 j (by omega) hj) (B1 i hi hi1)
  · by_cases hi2 : i < mhi
    · by_cases hj2 : j < mhi
      · rw [Rmid i (by omega) hi2, Rmid j (by omega) hj2]
        exact hneg _ _ _ (seg2 j (by omega) hj2).2 (seg2 i (by omega) hi2).1
      · rw [Rmid i (by omega) hi2]
        exact hneg _ _ _ (B3 j (by omega) hj) (seg2 i (by omega) hi2).1
    · exact R3 i j (by omega) hij hj

/-- Go's introsort `quickSort` sorts the window `[a, b)` for any strict
weak order, touching nothing outside it. -/
theorem quickSortGo_sorted (hasym : ∀ x y, ltb x y = true → ltb y x = false)
    (hneg : ∀ x y z, ltb x y = false → ltb y z = false → ltb x z = false) :
    ∀ (fuel a b depth : Nat) (l : List β),
      b - a ≤ fuel → b ≤ l.length →
      SortedRng ltb db (quickSortGo ltb db fuel a b depth l) a b ∧
      Within db l (quickSortGo ltb db fuel a b depth l) a b := by
  intro fuel
  induction fuel with
  | zero =>
    intro a b depth l hfuel hlen
    rw [quickSortGo]
    exact ⟨SortedRng_trivial ltb db (by omega), Within_refl db l a b⟩
  | succ fuel ih =>
    intro a b depth l hfuel hlen
    rw [quickSortGo]
    by_cases h12 : b - a > 12
    · rw [if_pos h12]
      by_cases hd0 : depth = 0
      · rw [if_pos hd0]
        exact heapSortGo_sorted ltb db hasym hneg l a b (by omega) hlen
      · rw [if_neg hd0]
        dsimp only
        rcases hdp : doPivotGo ltb db l a b with ⟨lf, mlo, mhi⟩
        dsimp only
        obtain ⟨g1, g2, g3, g4, g5, g6, g7, g8⟩ :=
          doPivotGo_spec ltb db hasym l a b (by omega) hlen lf mlo mhi hdp
        have hlenf : b ≤ lf.length := by rw [g4]; exact hlen
        by_cases hbr : mlo - a < b - mhi
        · rw [if_pos hbr]
          obtain ⟨s1a, w1a⟩ := ih a mlo (depth - 1) lf (by omega) (by omega)
          set l2 := quickSortGo ltb db fuel a mlo (depth - 1) lf with hl2
          obtain ⟨s2a, w2a⟩ := ih mhi b (depth - 1) l2 (by omega) (by rw [w1a.1]; exact hlenf)
          set l3 := quickSortGo ltb db fuel mhi b (depth - 1) l2 with hl3
          have rdout2 : ∀ i, i < mhi ∨ b ≤ i → rdL db l3 i = rdL db l2 i := w2a.2.1
          have rdout1 : ∀ i, i < a ∨ mlo ≤ i → rdL db l2 i = rdL db lf i := w1a.2.1
          have R1 : SortedRng ltb db l3 a mlo :=
            SortedRng_congr ltb db (fun i hi hi' => rdout2 i (Or.inl (by omega))) s1a
          have Rmid : ∀ i, mlo ≤ i → i < mhi → rdL db l3 i = rdL db lf i := by
            intro i hi hi'
            rw [rdout2 i (Or.inl hi'), rdout1 i (Or.inr hi)]
          have B1 : ∀ i, a ≤ i → i < mlo → ltb (rdL db lf mlo) (rdL db l3 i) = false := by
            intro i hi hi'
            rw [rdout2 i (Or.inl (by omega))]
            obtain ⟨i', ha', hb', he'⟩ := w1a.2.2 i hi hi'
            rw [← he']
            exact g6 i' ha' hb'
          have B3 : ∀ i, mhi ≤ i → i < b → ltb (rdL db l3 i) (rdL db lf mlo) = false := by
            intro i hi hi'
            obtain ⟨i', ha', hb', he'⟩ := w2a.2.2 i hi hi'
            rw [← he', rdout1 i' (Or.inr (by omega))]
            exact g8 i' ha' hb'
          refine ⟨SortedRng_merge ltb db hneg g1 g2 g3 g7 R1 s2a Rmid B1 B3, ?_⟩
          exact Within_trans db g5 (Within_trans db
            (Within_mono db (le_refl a) (by omega) w1a)
            (Within_mono db (by omega) (le_refl b) w2a))
        · rw [if_neg hbr]
          obtain ⟨s1a, w1a⟩ := ih mhi b (depth - 1) lf (by omega) hlenf
          set l2 := quickSortGo ltb db fuel mhi b (depth - 1) lf with hl2
          obtain ⟨s2a, w2a⟩ := ih a mlo (depth - 1) l2 (by omega) (by rw [w1a.1]; omega)
          set l3 := quickSortGo ltb db fuel a mlo (depth - 1) l2 with hl3
          have rdout2 : ∀ i, i < a ∨ mlo ≤ i → rdL db l3 i = rdL db l2 i := w2a.2.1
          have rdout1 : ∀ i, i < mhi ∨ b ≤ i → rdL db l2 i = rdL db lf i := w1a.2.1
          have R3 : SortedRng ltb db l3 mhi b :=
            SortedRng_congr ltb db (fun i hi hi' => rdout2 i (Or.inr (by omega))) s1a
          have Rmid : ∀ i, mlo ≤ i → i < mhi → rdL db l3 i = rdL db lf i := by
            intro i hi hi'
            rw [rdout2 i (Or.inr hi), rdout1 i (Or.inl hi')]
          have B1 : ∀ i, a ≤ i → i < mlo → ltb (rdL db lf mlo) (rdL db l3 i) = false := by
            intro i hi hi'
            obtain ⟨i', ha', hb', he'⟩ := w2a.2.2 i hi hi'
            rw [← he', rdout1 i' (Or.inl (by omega))]
            exact g6 i' ha' hb'
          have B3 : ∀ i, mhi ≤ i → i < b → ltb (rdL db l3 i) (rdL db lf mlo) = false := by
            intro i hi hi'
            rw [rdout2 i (Or.inr (by omega))]
            obtain ⟨i', ha', hb', he'⟩ := w1a.2.2 i hi hi'
            rw [← he']
            exact g8 i' ha' hb'
          refine ⟨SortedRng_merge ltb db hneg g1 g2 g3 g7 s2a R3 Rmid B1 B3, ?_⟩
          exact Within_trans db g5 (Within_trans db
            (Within_mono db (by omega) (le_refl b) w1a)
            (Within_mono db (le_refl a) (by omega) w2a))
    · rw [if_neg h12]
      by_cases h1 : b - a > 1
      · rw [if_pos h1]
        have hW := shellLoop_within ltb db a b b (a + 6) l (le_refl (a + 6))
        have hlenS : b ≤ (shellLoop ltb db b b (a + 6) l).length := by
          rw [hW.1]; exact hlen
        obtain ⟨sI, wI⟩ :=
          insertionSortGo_sorted ltb db hasym hneg (shellLoop ltb db b b (a + 6) l) a b hlenS
        exact ⟨sI, Within_trans db hW wI⟩
      · rw [if_neg h1]
        exact ⟨SortedRng_trivial ltb db (by omega), Within_refl db l a b⟩

/-- Go `sort.Sort` on the embedded slice: the whole list ends up sorted
for any comparator that is a strict weak order. -/
theorem sortGo_sorted (hasym : ∀ x y, ltb x y = true → ltb y x = false)
    (hneg : ∀ x y z, ltb x y = false → ltb y z = false → ltb x z = false)
    (l : List β) :
    SortedRng ltb db (sortGo ltb db l) 0 l.length ∧
    Within db l (sortGo ltb db l) 0 l.length := by
  rw [sortGo]
  exact quickSortGo_sorted ltb db hasym hneg (l.length + 1) 0 l.length
    (maxDepthGo l.length) l (by omega) (le_refl _)

end GoSortSorted3

end Negotiator

namespace Negotiator

section GoSortCongr

variable {α : Type} [DecidableEq α] (lt1 lt2 : α → α → Bool) (d : α) (G : α → Prop)

theorem rdL_mem_or (l : List α) (k : Nat) : rdL d l k ∈ l ∨ rdL d l k = d := by
  rw [rdL, List.getD_eq_getElem?_getD]
  cases h : l[k]? with
  | none => right; rfl
  | some x =>
    left
    obtain ⟨hlt, he⟩ := List.getElem?_eq_some_iff.mp h
    exact he ▸ List.getElem_mem hlt

theorem G_rd (hGd : G d) {l : List α} (hl : ∀ x ∈ l, G x) (k : Nat) : G (rdL d l k) := by
  rcases rdL_mem_or d l k with h | h
  · exact hl _ h
  · rw [h]; exact hGd

theorem lessL_congr (hAg : ∀ x y, G x → G y → lt1 x y = lt2 x y) (hGd : G d)
    {l : List α} (hl : ∀ x ∈ l, G x) (i j : Nat) :
    lessL lt1 d l i j = lessL lt2 d l i j := by
  rw [lessL, lessL, hAg _ _ (G_rd d G hGd hl i) (G_rd d G hGd hl j)]

theorem AllG_ite {c : Prop} [Decidable c] {A B : List α}
    (hA : ∀ x ∈ A, G x) (hB : ∀ x ∈ B, G x) :
    ∀ x ∈ (if c then A else B), G x := by
  split
  · exact hA
  · exact hB

theorem insBubble_congr (hAg : ∀ x y, G x → G y → lt1 x y = lt2 x y) (hGd : G d) (a : Nat) :
    ∀ (j : Nat) (l : List α), (∀ x ∈ l, G x) →
      insBubble lt1 d a j l = insBubble lt2 d a j l
  | 0, l, hl => by rw [insBubble, insBubble]
  | j + 1, l, hl => by
    rw [insBubble, insBubble, lessL_congr lt1 lt2 d G hAg hGd hl (j + 1) j]
    by_cases h : a < j + 1 ∧ lessL lt2 d l (j + 1) j = true
    · rw [if_pos h, if_pos h]
      exact insBubble_congr hAg hGd a j (swapL l (j + 1) j)
        (fun x hx => hl x ((swapL_perm l (j + 1) j).mem_iff.mp hx))
    · rw [if_neg h, if_neg h]

theorem insLoop_congr (hAg : ∀ x y, G x → G y → lt1 x y = lt2 x y) (hGd : G d) (a b : Nat) :
    ∀ (fuel i : Nat) (l : List α), (∀ x ∈ l, G x) →
      insLoop lt1 d a b fuel i l = insLoop lt2 d a b fuel i l
  | 0, i, l, hl => by rw [insLoop, insLoop]
  | fuel + 1, i, l, hl => by
    rw [insLoop, insLoop]
    by_cases h : i < b
    · rw [if_pos h, if_pos h, insBubble_congr lt1 lt2 d G hAg hGd a i l hl]
      exact insLoop_congr hAg hGd a b fuel (i + 1) (insBubble lt2 d a i l)
        (fun x hx => hl x ((insBubble_perm lt2 d a i l).mem_iff.mp hx))
    · rw [if_neg h, if_neg h]

theorem insertionSortGo_congr (hAg : ∀ x y, G x → G y → lt1 x y = lt2 x y) (hGd : G d)
    (l : List α) (a b : Nat) (hl : ∀ x ∈ l, G x) :
    insertionSortGo lt1 d l a b = insertionSortGo lt2 d l a b := by
  rw [insertionSortGo, insertionSortGo]
  exact insLoop_congr lt1 lt2 d G hAg hGd a b b (a + 1) l hl

theorem shellLoop_congr (hAg : ∀ x y, G x → G y → lt1 x y = lt2 x y) (hGd : G d) (b : Nat) :
    ∀ (fuel i : Nat) (l : List α), (∀ x ∈ l, G x) →
      shellLoop lt1 d b fuel i l = shellLoop lt2 d b fuel i l
  | 0, i, l, hl => by rw [shellLoop, shellLoop]
  | fuel + 1, i, l, hl => by
    rw [shellLoop, shellLoop]
    by_cases h : i < b
    · rw [if_pos h, if_pos h, lessL_congr lt1 lt2 d G hAg hGd hl i (i - 6)]
      by_cases h2 : lessL lt2 d l i (i - 6) = true
      · rw [if_pos h2]
        exact shellLoop_congr hAg hGd b fuel (i + 1) (swapL l i (i - 6))
          (fun x hx => hl x ((swapL_perm l i (i - 6)).mem_iff.mp hx))
      · rw [if_neg h2]
        exact shellLoop_congr hAg hGd b fuel (i + 1) l hl
    · rw [if_neg h, if_neg h]

theorem siftDownGo_congr (hAg : ∀ x y, G x → G y → lt1 x y = lt2 x y) (hGd : G d) :
    ∀ (fuel root hi first : Nat) (l : List α), (∀ x ∈ l, G x) →
      siftDownGo lt1 d fuel root hi first l = siftDownGo lt2 d fuel root hi first l
  | 0, root, hi, first, l, hl => by rw [siftDownGo, siftDownGo]
  | fuel + 1, root, hi, first, l, hl => by
    rw [siftDownGo, siftDownGo]
    dsimp only
    by_cases h0 : 2 * root + 1 ≥ hi
    · simp only [if_pos h0]
    · simp only [if_neg h0]
      rw [lessL_congr lt1 lt2 d G hAg hGd hl (first + (2 * root + 1))
        (first + (2 * root + 1) + 1)]
      by_cases hsel : 2 * root + 1 + 1 < hi ∧
          lessL lt2 d l (first + (2 * root + 1)) (first + (2 * root + 1) + 1) = true
      · simp only [if_pos hsel]
        rw [lessL_congr lt1 lt2 d G hAg hGd hl (first + root) (first + (2 * root + 1 + 1))]
        by_cases hg : ¬ lessL lt2 d l (first + root) (first + (2 * root + 1 + 1)) = true
        · simp only [if_pos hg]
        · simp only [if_neg hg]
          exact siftDownGo_congr hAg hGd fuel (2 * root + 1 + 1) hi first
            (swapL l (first + root) (first + (2 * root + 1 + 1)))
            (fun x hx => hl x ((swapL_perm _ _ _).mem_iff.mp hx))
      · simp only [if_neg hsel]
        rw [lessL_congr lt1 lt2 d G hAg hGd hl (first + root) (first + (2 * root + 1))]
        by_cases hg : ¬ lessL lt2 d l (first + root) (first + (2 * root + 1)) = true
        · simp only [if_pos hg]
        · simp only [if_neg hg]
          exact siftDownGo_congr hAg hGd fuel (2 * root + 1) hi first
            (swapL l (first + root) (first + (2 * root + 1)))
            (fun x hx => hl x ((swapL_perm _ _ _).mem_iff.mp hx))

theorem heapBuild_congr (hAg : ∀ x y, G x → G y → lt1 x y = lt2 x y) (hGd : G d)
    (hi first : Nat) :
    ∀ (i : Nat) (l : List α), (∀ x ∈ l, G x) →
      heapBuild lt1 d hi first i l = heapBuild lt2 d hi first i l
  | 0, l, hl => by
    rw [heapBuild, heapBuild]
    exact siftDownGo_congr lt1 lt2 d G hAg hGd (hi + 1) 0 hi first l hl
  | i + 1, l, hl => by
    rw [heapBuild, heapBuild, siftDownGo_congr lt1 lt2 d G hAg hGd (hi + 1) (i + 1) hi first l hl]
    exact heapBuild_congr hAg hGd hi first i (siftDownGo lt2 d (hi + 1) (i + 1) hi first l)
      (fun x hx => hl x ((siftDownGo_perm lt2 d (hi + 1) (i + 1) hi first l).mem_iff.mp hx))

theorem heapPop_congr (hAg : ∀ x y, G x → G y → lt1 x y = lt2 x y) (hGd : G d)
    (first : Nat) :
    ∀ (i : Nat) (l : List α), (∀ x ∈ l, G x) →
      heapPop lt1 d first i l = heapPop lt2 d first i l
  | 0, l, hl => by
    rw [heapPop, heapPop]
    exact siftDownGo_congr lt1 lt2 d G hAg hGd 1 0 0 first (swapL l first first)
      (fun x hx => hl x ((swapL_perm l first first).mem_iff.mp hx))
  | i + 1, l, hl => by
    have hl1 : ∀ x ∈ swapL l first (first + i + 1), G x :=
      fun x hx => hl x ((swapL_perm l first (first + i + 1)).mem_iff.mp hx)
    rw [heapPop, heapPop,
      siftDownGo_congr lt1 lt2 d G hAg hGd (i + 2) 0 (i + 1) first
        (swapL l first (first + i + 1)) hl1]
    exact heapPop_congr hAg hGd first i
      (siftDownGo lt2 d (i + 2) 0 (i + 1) first (swapL l first (first + i + 1)))
      (fun x hx => hl1 x
        ((siftDownGo_perm lt2 d (i + 2) 0 (i + 1) first _).mem_iff.mp hx))

theorem heapSortGo_congr (hAg : ∀ x y, G x → G y → lt1 x y = lt2 x y) (hGd : G d)
    (l : List α) (a b : Nat) (hl : ∀ x ∈ l, G x) :
    heapSortGo lt1 d l a b = heapSortGo lt2 d l a b := by
  rw [heapSortGo, heapSortGo]
  rw [heapBuild_congr lt1 lt2 d G hAg hGd (b - a) a ((b - a - 1) / 2) l hl]
  exact heapPop_congr lt1 lt2 d G hAg hGd a (b - a - 1)
    (heapBuild lt2 d (b - a) a ((b - a - 1) / 2) l)
    (fun x hx => hl x ((heapBuild_perm lt2 d (b - a) a ((b - a - 1) / 2) l).mem_iff.mp hx))

end GoSortCongr

end Negotiator

namespace Negotiator

section GoSortCongr2

variable {α : Type} [DecidableEq α] (lt1 lt2 : α → α → Bool) (d : α) (G : α → Prop)

theorem medianOfThreeGo_congr (hAg : ∀ x y, G x → G y → lt1 x y = lt2 x y) (hGd : G d)
    (l : List α) (m1 m0 m2 : Nat) (hl : ∀ x ∈ l, G x) :
    medianOfThreeGo lt1 d l m1 m0 m2 = medianOfThreeGo lt2 d l m1 m0 m2 := by
  rw [medianOfThreeGo, medianOfThreeGo]
  dsimp only
  rw [lessL_congr lt1 lt2 d G hAg hGd hl m1 m0]
  have hlL1 : ∀ x ∈ (if lessL lt2 d l m1 m0 = true then swapL l m1 m0 else l), G x :=
    AllG_ite G (fun x hx => hl x ((swapL_perm l m1 m0).mem_iff.mp hx)) hl
  rw [lessL_congr lt1 lt2 d G hAg hGd hlL1 m2 m1]
  by_cases h2 : lessL lt2 d (if lessL lt2 d l m1 m0 = true then swapL l m1 m0 else l) m2 m1 =
      true
  · simp only [if_pos h2]
    rw [lessL_congr lt1 lt2 d G hAg hGd
      (fun x hx => hlL1 x ((swapL_perm _ m2 m1).mem_iff.mp hx)) m1 m0]
  · simp only [if_neg h2]

theorem dpSkipA_congr (hAg : ∀ x y, G x → G y → lt1 x y = lt2 x y) (hGd : G d) :
    ∀ (fuel a c pivot : Nat) (l : List α), (∀ x ∈ l, G x) →
      dpSkipA lt1 d fuel a c pivot l = dpSkipA lt2 d fuel a c pivot l
  | 0, a, c, pivot, l, hl => by rw [dpSkipA, dpSkipA]
  | fuel + 1, a, c, pivot, l, hl => by
    rw [dpSkipA, dpSkipA, lessL_congr lt1 lt2 d G hAg hGd hl a pivot]
    by_cases h : a < c ∧ lessL lt2 d l a pivot = true
    · simp only [if_pos h]
      exact dpSkipA_congr hAg hGd fuel (a + 1) c pivot l hl
    · simp only [if_neg h]

theorem dpSkipB_congr (hAg : ∀ x y, G x → G y → lt1 x y = lt2 x y) (hGd : G d) :
    ∀ (fuel b c pivot : Nat) (l : List α), (∀ x ∈ l, G x) →
      dpSkipB lt1 d fuel b c pivot l = dpSkipB lt2 d fuel b c pivot l
  | 0, b, c, pivot, l, hl => by rw [dpSkipB, dpSkipB]
  | fuel + 1, b, c, pivot, l, hl => by
    rw [dpSkipB, dpSkipB, lessL_congr lt1 lt2 d G hAg hGd hl pivot b]
    by_cases h : b < c ∧ ¬ lessL lt2 d l pivot b = true
    · simp only [if_pos h]
      exact dpSkipB_congr hAg hGd fuel (b + 1) c pivot l hl
    · simp only [if_neg h]

theorem dpSkipC_congr (hAg : ∀ x y, G x → G y → lt1 x y = lt2 x y) (hGd : G d) :
    ∀ (fuel c b pivot : Nat) (l : List α), (∀ x ∈ l, G x) →
      dpSkipC lt1 d fuel c b pivot l = dpSkipC lt2 d fuel c b pivot l
  | 0, c, b, pivot, l, hl => by rw [dpSkipC, dpSkipC]
  | fuel + 1, c, b, pivot, l, hl => by
    rw [dpSkipC, dpSkipC, lessL_congr lt1 lt2 d G hAg hGd hl pivot (c - 1)]
    by_cases h : b < c ∧ lessL lt2 d l pivot (c - 1) = true
    · simp only [if_pos h]
      exact dpSkipC_congr hAg hGd fuel (c - 1) b pivot l hl
    · simp only [if_neg h]

theorem dpSkipB2_congr (hAg : ∀ x y, G x → G y → lt1 x y = lt2 x y) (hGd : G d) :
    ∀ (fuel b a pivot : Nat) (l : List α), (∀ x ∈ l, G x) →
      dpSkipB2 lt1 d fuel b a pivot l = dpSkipB2 lt2 d fuel b a pivot l
  | 0, b, a, pivot, l, hl => by rw [dpSkipB2, dpSkipB2]
  | fuel + 1, b, a, pivot, l, hl => by
    rw [dpSkipB2, dpSkipB2, lessL_congr lt1 lt2 d G hAg hGd hl (b - 1) pivot]
    by_cases h : a < b ∧ ¬ lessL lt2 d l (b - 1) pivot = true
    · simp only [if_pos h]
      exact dpSkipB2_congr hAg hGd fuel (b - 1) a pivot l hl
    · simp only [if_neg h]

theorem dpSkipA2_congr (hAg : ∀ x y, G x → G y → lt1 x y = lt2 x y) (hGd : G d) :
    ∀ (fuel a b pivot : Nat) (l : List α), (∀ x ∈ l, G x) →
      dpSkipA2 lt1 d fuel a b pivot l = dpSkipA2 lt2 d fuel a b pivot l
  | 0, a, b, pivot, l, hl => by rw [dpSkipA2, dpSkipA2]
  | fuel + 1, a, b, pivot, l, hl => by
    rw [dpSkipA2, dpSkipA2, lessL_congr lt1 lt2 d G hAg hGd hl a pivot]
    by_cases h : a < b ∧ lessL lt2 d l a pivot = true
    · simp only [if_pos h]
      exact dpSkipA2_congr hAg hGd fuel (a + 1) b pivot l hl
    · simp only [if_neg h]

theorem dpLoop_congr (hAg : ∀ x y, G x → G y → lt1 x y = lt2 x y) (hGd : G d) (pivot : Nat) :
    ∀ (fuel b c : Nat) (l : List α), (∀ x ∈ l, G x) →
      dpLoop lt1 d pivot fuel b c l = dpLoop lt2 d pivot fuel b c l
  | 0, b, c, l, hl => by rw [dpLoop, dpLoop]
  | fuel + 1, b, c, l, hl => by
    rw [dpLoop, dpLoop]
    rw [dpSkipB_congr lt1 lt2 d G hAg hGd (c + 1) b c pivot l hl]
    rw [dpSkipC_congr lt1 lt2 d G hAg hGd (c + 1) c
      (dpSkipB lt2 d (c + 1) b c pivot l) pivot l hl]
    by_cases h : dpSkipB lt2 d (c + 1) b c pivot l ≥
        dpSkipC lt2 d (c + 1) c (dpSkipB lt2 d (c + 1) b c pivot l) pivot l
    · simp only [if_pos h]
    · simp only [if_neg h]
      exact dpLoop_congr hAg hGd pivot fuel _ _ (swapL l _ _)
        (fun x hx => hl x ((swapL_perm l _ _).mem_iff.mp hx))

theorem dpProtLoop_congr (hAg : ∀ x y, G x → G y → lt1 x y = lt2 x y) (hGd : G d)
    (pivot : Nat) :
    ∀ (fuel a b : Nat) (l : List α), (∀ x ∈ l, G x) →
      dpProtLoop lt1 d pivot fuel a b l = dpProtLoop lt2 d pivot fuel a b l
  | 0, a, b, l, hl => by rw [dpProtLoop, dpProtLoop]
  | fuel + 1, a, b, l, hl => by
    rw [dpProtLoop, dpProtLoop]
    rw [dpSkipB2_congr lt1 lt2 d G hAg hGd (b + 1) b a pivot l hl]
    rw [dpSkipA2_congr lt1 lt2 d G hAg hGd
      (dpSkipB2 lt2 d (b + 1) b a pivot l + 1) a
      (dpSkipB2 lt2 d (b + 1) b a pivot l) pivot l hl]
    by_cases h : dpSkipA2 lt2 d (dpSkipB2 lt2 d (b + 1) b a pivot l + 1) a
        (dpSkipB2 lt2 d (b + 1) b a pivot l) pivot l ≥ dpSkipB2 lt2 d (b + 1) b a pivot l
    · simp only [if_pos h]
    · simp only [if_neg h]
      exact dpProtLoop_congr hAg hGd pivot fuel _ _ (swapL l _ _)
        (fun x hx => hl x ((swapL_perm l _ _).mem_iff.mp hx))

theorem dpNinther_congr (hAg : ∀ x y, G x → G y → lt1 x y = lt2 x y) (hGd : G d)
    (l : List α) (lo hi m : Nat) (hl : ∀ x ∈ l, G x) :
    dpNinther lt1 d l lo hi m = dpNinther lt2 d l lo hi m := by
  rw [dpNinther, dpNinther]
  by_cases h : hi - lo > 40
  · simp only [if_pos h]
    rw [medianOfThreeGo_congr lt1 lt2 d G hAg hGd l lo (lo + (hi - lo) / 8)
      (lo + 2 * ((hi - lo) / 8)) hl]
    have hl1 : ∀ x ∈ medianOfThreeGo lt2 d l lo (lo + (hi - lo) / 8)
        (lo + 2 * ((hi - lo) / 8)), G x :=
      fun x hx => hl x ((medianOfThreeGo_perm lt2 d l _ _ _).mem_iff.mp hx)
    rw [medianOfThreeGo_congr lt1 lt2 d G hAg hGd _ m (m - (hi - lo) / 8)
      (m + (hi - lo) / 8) hl1]
    have hl2 : ∀ x ∈ medianOfThreeGo lt2 d (medianOfThreeGo lt2 d l lo (lo + (hi - lo) / 8)
        (lo + 2 * ((hi - lo) / 8))) m (m - (hi - lo) / 8) (m + (hi - lo) / 8), G x :=
      fun x hx => hl1 x ((medianOfThreeGo_perm lt2 d _ _ _ _).mem_iff.mp hx)
    rw [medianOfThreeGo_congr lt1 lt2 d G hAg hGd _ (hi - 1) (hi - 1 - (hi - lo) / 8)
      (hi - 1 - 2 * ((hi - lo) / 8)) hl2]
  · simp only [if_neg h]

theorem dpDups_congr (hAg : ∀ x y, G x → G y → lt1 x y = lt2 x y) (hGd : G d)
    (l : List α) (lo hi m pivot b c : Nat) (hl : ∀ x ∈ l, G x) :
    dpDups lt1 d l lo hi m pivot b c = dpDups lt2 d l lo hi m pivot b c := by
  rw [dpDups, dpDups]
  dsimp only
  by_cases h0 : decide (hi - c < 5) = false ∧ hi - c < (hi - lo) / 4
  · simp only [if_pos h0]
    rw [lessL_congr lt1 lt2 d G hAg hGd hl pivot (hi - 1)]
    by_cases h1 : ¬ lessL lt2 d l pivot (hi - 1) = true
    · simp only [if_pos h1]
      have hl1 : ∀ x ∈ swapL l c (hi - 1), G x :=
        fun x hx => hl x ((swapL_perm l c (hi - 1)).mem_iff.mp hx)
      rw [lessL_congr lt1 lt2 d G hAg hGd hl1 (b - 1) pivot]
      by_cases h2 : ¬ lessL lt2 d (swapL l c (hi - 1)) (b - 1) pivot = true
      · simp only [if_pos h2]
        rw [lessL_congr lt1 lt2 d G hAg hGd hl1 m pivot]
      · simp only [if_neg h2]
        rw [lessL_congr lt1 lt2 d G hAg hGd hl1 m pivot]
    · simp only [if_neg h1]
      rw [lessL_congr lt1 lt2 d G hAg hGd hl (b - 1) pivot]
      by_cases h2 : ¬ lessL lt2 d l (b - 1) pivot = true
      · simp only [if_pos h2]
        rw [lessL_congr lt1 lt2 d G hAg hGd hl m pivot]
      · simp only [if_neg h2]
        rw [lessL_congr lt1 lt2 d G hAg hGd hl m pivot]
  · simp only [if_neg h0]

theorem doPivotGo_congr (hAg : ∀ x y, G x → G y → lt1 x y = lt2 x y) (hGd : G d)
    (l : List α) (lo hi : Nat) (hl : ∀ x ∈ l, G x) :
    doPivotGo lt1 d l lo hi = doPivotGo lt2 d l lo hi := by
  rw [doPivotGo, doPivotGo]
  dsimp only
  rw [dpNinther_congr lt1 lt2 d G hAg hGd l lo hi ((lo + hi) / 2) hl]
  have hl1 : ∀ x ∈ dpNinther lt2 d l lo hi ((lo + hi) / 2), G x :=
    fun x hx => hl x ((dpNinther_perm lt2 d l lo hi ((lo + hi) / 2)).mem_iff.mp hx)
  rw [medianOfThreeGo_congr lt1 lt2 d G hAg hGd _ lo ((lo + hi) / 2) (hi - 1) hl1]
  have hl2 : ∀ x ∈ medianOfThreeGo lt2 d (dpNinther lt2 d l lo hi ((lo + hi) / 2)) lo
      ((lo + hi) / 2) (hi - 1), G x :=
    fun x hx => hl1 x ((medianOfThreeGo_perm lt2 d _ _ _ _).mem_iff.mp hx)
  rw [dpSkipA_congr lt1 lt2 d G hAg hGd hi (lo + 1) (hi - 1) lo _ hl2]
  rw [dpLoop_congr lt1 lt2 d G hAg hGd lo hi _ (hi - 1) _ hl2]
  rcases hdl : dpLoop lt2 d lo hi
      (dpSkipA lt2 d hi (lo + 1) (hi - 1) lo
        (medianOfThreeGo lt2 d (dpNinther lt2 d l lo hi ((lo + hi) / 2)) lo
          ((lo + hi) / 2) (hi - 1)))
      (hi - 1)
      (medianOfThreeGo lt2 d (dpNinther lt2 d l lo hi ((lo + hi) / 2)) lo
        ((lo + hi) / 2) (hi - 1)) with ⟨l3, b, c⟩
  dsimp only
  have hl3 : ∀ x ∈ l3, G x := by
    have hp := dpLoop_perm lt2 d lo hi
      (dpSkipA lt2 d hi (lo + 1) (hi - 1) lo
        (medianOfThreeGo lt2 d (dpNinther lt2 d l lo hi ((lo + hi) / 2)) lo
          ((lo + hi) / 2) (hi - 1)))
      (hi - 1)
      (medianOfThreeGo lt2 d (dpNinther lt2 d l lo hi ((lo + hi) / 2)) lo
        ((lo + hi) / 2) (hi - 1))
    rw [hdl] at hp
    exact fun x hx => hl2 x (hp.mem_iff.mp hx)
  rw [dpDups_congr lt1 lt2 d G hAg hGd l3 lo hi ((lo + hi) / 2) lo b c hl3]
  rcases hdd : dpDups lt2 d l3 lo hi ((lo + hi) / 2) lo b c with ⟨l4, b4, c4, prot⟩
  dsimp only
  have hl4 : ∀ x ∈ l4, G x := by
    have hp := dpDups_perm lt2 d l3 lo hi ((lo + hi) / 2) lo b c
    rw [hdd] at hp
    exact fun x hx => hl3 x (hp.mem_iff.mp hx)
  by_cases hp : prot = true
  · simp only [if_pos hp]
    rw [dpProtLoop_congr lt1 lt2 d G hAg hGd lo hi _ b4 l4 hl4]
  · simp only [if_neg hp]

theorem quickSortGo_congr (hAg : ∀ x y, G x → G y → lt1 x y = lt2 x y) (hGd : G d) :
    ∀ (fuel a b depth : Nat) (l : List α), (∀ x ∈ l, G x) →
      quickSortGo lt1 d fuel a b depth l = quickSortGo lt2 d fuel a b depth l
  | 0, a, b, depth, l, hl => by rw [quickSortGo, quickSortGo]
  | fuel + 1, a, b, depth, l, hl => by
    rw [quickSortGo, quickSortGo]
    by_cases h12 : b - a > 12
    · simp only [if_pos h12]
      by_cases hd : depth = 0
      · simp only [if_pos hd]
        exact heapSortGo_congr lt1 lt2 d G hAg hGd l a b hl
      · simp only [if_neg hd]
        rw [doPivotGo_congr lt1 lt2 d G hAg hGd l a b hl]
        rcases hdp : doPivotGo lt2 d l a b with ⟨lf, mlo, mhi⟩
        dsimp only
        have hlf : ∀ x ∈ lf, G x := by
          have hp := doPivotGo_perm lt2 d l a b
          rw [hdp] at hp
          exact fun x hx => hl x (hp.mem_iff.mp hx)
        by_cases hbr : mlo - a < b - mhi
        · simp only [if_pos hbr]
          rw [quickSortGo_congr hAg hGd fuel a mlo (depth - 1) lf hlf]
          exact quickSortGo_congr hAg hGd fuel mhi b (depth - 1)
            (quickSortGo lt2 d fuel a mlo (depth - 1) lf)
            (fun x hx => hlf x
              ((quickSortGo_perm lt2 d fuel a mlo (depth - 1) lf).mem_iff.mp hx))
        · simp only [if_neg hbr]
          rw [quickSortGo_congr hAg hGd fuel mhi b (depth - 1) lf hlf]
          exact quickSortGo_congr hAg hGd fuel a mlo (depth - 1)
            (quickSortGo lt2 d fuel mhi b (depth - 1) lf)
            (fun x hx => hlf x
              ((quickSortGo_perm lt2 d fuel mhi b (depth - 1) lf).mem_iff.mp hx))
    · simp only [if_neg h12]
      by_cases h1 : b - a > 1
      · simp only [if_pos h1]
        rw [shellLoop_congr lt1 lt2 d G hAg hGd b b (a + 6) l hl]
        exact insertionSortGo_congr lt1 lt2 d G hAg hGd (shellLoop lt2 d b b (a + 6) l) a b
          (fun x hx => hl x ((shellLoop_perm lt2 d b b (a + 6) l).mem_iff.mp hx))
      · simp only [if_neg h1]

theorem sortGo_congr (hAg : ∀ x y, G x → G y → lt1 x y = lt2 x y) (hGd : G d)
    (l : List α) (hl : ∀ x ∈ l, G x) :
    sortGo lt1 d l = sortGo lt2 d l := by
  rw [sortGo, sortGo]
  exact quickSortGo_congr lt1 lt2 d G hAg hGd (l.length + 1) 0 l.length
    (maxDepthGo l.length) l hl

end GoSortCongr2

end Negotiator

namespace Negotiator

deriving instance DecidableEq for Except

/-- Claim-side rule (C3, following the specification's words): a candidate
score strictly better than the incumbent in the lexicographic order
"higher specificity bits first, then higher quality, then lower original
entry order". -/
def claimLexBetter (inc cand : Specificity) : Bool :=
  decide (inc.s < cand.s) ∨
  (inc.s = cand.s ∧ GoF.lt inc.q cand.q) ∨
  (inc.s = cand.s ∧ GoF.goEq inc.q cand.q ∧ decide (cand.o < inc.o))

/-- Claim-side rule (C3): the greatest matching score in that lexicographic
order (first maximum), `none` when nothing matches. -/
def claimLexGreatest (ms : List Specificity) : Option Specificity :=
  ms.foldl
    (fun acc s =>
      match acc with
      | none => some s
      | some inc => if claimLexBetter inc s then some s else some inc)
    none

/-- Claim-side rule (C6, following the specification's words): strip the
surrounding double quotes — only the first and last character, a single
`"` becoming the empty string. -/
def claimStrip (v : Str) : Str :=
  if v.head? = some '"' ∧ v.getLast? = some '"' ∧ v ≠ [] then
    if v.length = 1 then [] else (v.drop 1).dropLast
  else v

/-- Claim-side rule (C6): the parameter value the claim expects to find
under key `k` — the last occurrence before any `q` parameter, with quotes
stripped. -/
def paramsSpecLookup (k : Str) : List (Str × Str) → Option Str
  | [] => none
  | (k', v) :: rest =>
    if goLower k' = "q".data then none
    else if goLower k' = k then
      match paramsSpecLookup k rest with
      | some v' => some v'
      | none => some (claimStrip v)
    else paramsSpecLookup k rest

/-- Option-valued association lookup used to state the C6 theorems. -/
def lookupAssoc : List (Str × Str) → Str → Option Str
  | [], _ => none
  | (k', v) :: rest, k => if k' = k then some v else lookupAssoc rest k

end Negotiator

namespace Negotiator

/-- C1, counterexample: on `Accept-Charset: *;q=0.5, utf-8` with candidates
`utf-8, iso-8859-1`, the resolved priorities give `utf-8` quality 1 and
`iso-8859-1` quality 0.5, yet the code returns `iso-8859-1` first — the
output is not ordered by resolved quality descending. -/
theorem claim_C1_counterexample :
    getCharsetPriority "utf-8".data
        [⟨"*".data, .num (1/2), 0⟩, ⟨"utf-8".data, .num 1, 1⟩] 0 = ⟨0, 1, .num 1, 1⟩ ∧
    getCharsetPriority "iso-8859-1".data
        [⟨"*".data, .num (1/2), 0⟩, ⟨"utf-8".data, .num 1, 1⟩] 1 = ⟨1, 0, .num (1/2), 0⟩ ∧
    GoF.gt (.num 1) (.num (1/2)) = true ∧
    parseAcceptCharset "*;q=0.5, utf-8".data =
      .ok [⟨"*".data, .num (1/2), 0⟩, ⟨"utf-8".data, .num 1, 1⟩] ∧
    PreferredCharsets "*;q=0.5, utf-8".data ["utf-8".data, "iso-8859-1".data] =
      .ok ["iso-8859-1".data, "utf-8".data] := by
  with_unfolding_all decide

/-- C2, counterexample: on a seven-entry `Accept-Charset` header whose
first entry has quality 0.5 and last 0.9, the no-candidate mode returns the
entries in original header order instead of quality-descending order (the
unguarded comparator meets the shell pass of Go's sort). -/
theorem claim_C2_counterexample :
    PreferredCharsets "a;q=0.5, b, c, d, e, f, g;q=0.9".data [] =
      .ok ["a".data, "b".data, "c".data, "d".data, "e".data, "f".data, "g".data] ∧
    ["a".data, "b".data, "c".data, "d".data, "e".data, "f".data, "g".data] ≠
      ["b".data, "c".data, "d".data, "e".data, "f".data, "g".data, "a".data] := by
  with_unfolding_all decide

/-- C3, counterexample: for candidate `utf-8` against entries `utf-8`
(quality 1, order 0) and `*` (quality 0.5, order 1), the lexicographically
greatest matching score is the exact match `(bits 1, quality 1)`, but
`getCharsetPriority` returns the wildcard's `(bits 0, quality 0.5)` score:
a later matching entry always overwrites the incumbent. -/
theorem claim_C3_counterexample :
    claimLexGreatest
        ([⟨"utf-8".data, .num 1, 0⟩, ⟨"*".data, .num (1/2), 1⟩].filterMap
          fun ac => charsetSpecify "utf-8".data ac 0) = some ⟨0, 0, .num 1, 1⟩ ∧
    getCharsetPriority "utf-8".data
        [⟨"utf-8".data, .num 1, 0⟩, ⟨"*".data, .num (1/2), 1⟩] 0 = ⟨0, 1, .num (1/2), 0⟩ ∧
    (⟨0, 1, .num (1/2), 0⟩ : Specificity) ≠ ⟨0, 0, .num 1, 1⟩ := by
  with_unfolding_all decide

/-- C4, counterexample: on `Accept-Encoding: gzip;q=x, br` only one entry
(`br`) parses, but the synthetic `identity` entry is appended with order 2
— the raw comma-segment count — not 1, the count of surviving parsed
entries. -/
theorem claim_C4_counterexample :
    parseAcceptEncoding "gzip;q=x, br".data =
      .ok [⟨"br".data, .num 1, 1⟩, ⟨"identity".data, .num 1, 2⟩] ∧
    ((2 : Int) ≠ 1) := by
  with_unfolding_all decide

/-- C5, counterexample: `parseCharset` stores the quality of
`utf-8;q=5` as 5, outside the closed interval `[0,1]` asserted by the
claim — qualities are not clamped. -/
theorem claim_C5_counterexample :
    parseCharset "utf-8;q=5".data 0 = .ok (some ⟨"utf-8".data, .num 5, 0⟩) ∧
    ¬((0 : ℚ) ≤ 5 ∧ (5 : ℚ) ≤ 1) := by
  with_unfolding_all decide

/-- C6, counterexample: in `text/html;q=0.5;p=1` the parameter `p=1`
follows the `q` parameter, and the parameter scan breaks at `q`, so `p`
is absent from the resulting parameter map although its lowercased key is
not `q`. -/
theorem claim_C6_counterexample :
    parseMediaType "text/html;q=0.5;p=1".data 0 =
      some ⟨"text".data, "html".data, [], .num (1/2), 0⟩ ∧
    ((splitParameters "q=0.5;p=1".data).map splitKeyValuePair) =
      [("q".data, "0.5".data), ("p".data, "1".data)] ∧
    lookupAssoc ([] : List (Str × Str)) "p".data ≠ some "1".data := by
  with_unfolding_all decide

/-- C7, counterexample: with the duplicate candidate list
`utf-8, utf-8` both positions match `Accept-Charset: utf-8`, and the
output contains the string `utf-8` twice. -/
theorem claim_C7_counterexample :
    PreferredCharsets "utf-8".data ["utf-8".data, "utf-8".data] =
      .ok ["utf-8".data, "utf-8".data] ∧
    ¬ (["utf-8".data, "utf-8".data].Nodup) := by
  with_unfolding_all decide

end Negotiator

namespace Negotiator

/-- The running-priority fold over pre-computed scorer results, used to
characterise the `getXPriority` loops. -/
def priorityOptFold : List (Option Specificity) → Specificity → Specificity
  | [], pr => pr
  | none :: rest, pr => priorityOptFold rest pr
  | some spec :: rest, pr => priorityOptFold rest (priorityStep pr spec)

theorem priorityStep_of_o_lt {pr spec : Specificity} (h : pr.o < spec.o) :
    priorityStep pr spec = spec := by
  unfold priorityStep
  rw [if_pos]
  exact Or.inr (Or.inr (by omega))

theorem priorityOptFold_getLast :
    ∀ (xs : List (Option Specificity)) (pr : Specificity),
      (xs.filterMap id).Pairwise (fun a b => a.o < b.o) →
      (∀ s ∈ xs.filterMap id, pr.o < s.o) →
      priorityOptFold xs pr = ((xs.filterMap id).getLast?).getD pr
  | [], pr, _, _ => rfl
  | none :: rest, pr, h1, h2 => priorityOptFold_getLast rest pr h1 h2
  | some spec :: rest, pr, h1, h2 => by
    have h1' : (spec :: rest.filterMap id).Pairwise (fun a b => a.o < b.o) := h1
    have h2' : ∀ s ∈ spec :: rest.filterMap id, pr.o < s.o := h2
    rw [List.pairwise_cons] at h1'
    have hstep : priorityStep pr spec = spec :=
      priorityStep_of_o_lt (h2' spec (List.mem_cons_self _ _))
    have ih := priorityOptFold_getLast rest spec h1'.2 h1'.1
    show priorityOptFold rest (priorityStep pr spec) =
      ((spec :: rest.filterMap id).getLast?).getD pr
    rw [hstep, ih]
    cases h : rest.filterMap id with
    | nil => rfl
    | cons y ys =>
      rw [List.getLast?_cons_cons]
      cases hz : (y :: ys).getLast? with
      | none => exact absurd (List.getLast?_eq_none_iff.mp hz) (List.cons_ne_nil y ys)
      | some z => rfl

theorem getCharsetPriorityAux_eq_optFold (c : Str) (idx : Int) :
    ∀ (acs : List AcceptCharset) (pr : Specificity),
      getCharsetPriorityAux c idx acs pr =
        priorityOptFold (acs.map fun ac => charsetSpecify c ac idx) pr
  | [], _ => rfl
  | ac :: rest, pr => by
    unfold getCharsetPriorityAux
    cases h : charsetSpecify c ac idx with
    | none => simp only [List.map_cons, h, priorityOptFold, getCharsetPriorityAux_eq_optFold c idx rest]
    | some spec => simp only [List.map_cons, h, priorityOptFold, getCharsetPriorityAux_eq_optFold c idx rest]

theorem charsetSpecify_o {c : Str} {ac : AcceptCharset} {idx : Int} {s : Specificity}
    (h : charsetSpecify c ac idx = some s) : s.o = ac.i := by
  unfold charsetSpecify at h
  split at h
  · cases h; rfl
  · split at h
    · cases h
    · cases h; rfl

end Negotiator

namespace Negotiator

theorem priorityOptFold_lastMatch {β : Type} (specify : β → Option Specificity) (acI : β → Int)
    (ho : ∀ ac s, specify ac = some s → s.o = acI ac) (acs : List β)
    (h1 : acs.Pairwise fun a b => acI a < acI b) (h2 : ∀ ac ∈ acs, 0 ≤ acI ac) :
    priorityOptFold (acs.map specify) sentinelSpec =
      ((acs.filterMap specify).getLast?).getD sentinelSpec := by
  have hfm : (acs.map specify).filterMap id = acs.filterMap specify := by
    rw [List.filterMap_map]
    rfl
  have hp : ((acs.map specify).filterMap id).Pairwise (fun a b => a.o < b.o) := by
    rw [hfm, List.pairwise_filterMap]
    refine h1.imp fun {a b} hab => ?_
    intro x hx y hy
    rw [ho a x hx, ho b y hy]
    exact hab
  have hm : ∀ s ∈ (acs.map specify).filterMap id, sentinelSpec.o < s.o := by
    rw [hfm]
    intro s hs
    obtain ⟨ac, hac, hspec⟩ := List.mem_filterMap.mp hs
    have := h2 ac hac
    have := ho ac s hspec
    show (-1 : Int) < s.o
    omega
  rw [priorityOptFold_getLast _ _ hp hm, hfm]

theorem mediaTypeSpecify_o {c : Str} {ac : AcceptMediaType} {idx : Int} {s : Specificity}
    (h : mediaTypeSpecify c ac idx = some s) : s.o = ac.i := by
  unfold mediaTypeSpecify at h
  split at h
  · cases h
  · dsimp only at h
    split at h
    · cases h
    · split at h
      · cases h
      · split at h
        · split at h
          · cases h; rfl
          · cases h
        · cases h; rfl

theorem languageSpecifyCore_o {p? : Option AcceptLanguage} {ac : AcceptLanguage} {idx : Int}
    {s : Specificity} (h : languageSpecifyCore p? ac idx = some s) : s.o = ac.i := by
  unfold languageSpecifyCore at h
  split at h
  · cases h
  · split at h
    · cases h; rfl
    · split at h
      · cases h; rfl
      · split at h
        · cases h; rfl
        · split at h
          · cases h
          · cases h; rfl

theorem getMediaTypePriorityAux_eq_optFold (c : Str) (idx : Int) :
    ∀ (acs : List AcceptMediaType) (pr : Specificity),
      getMediaTypePriorityAux c idx acs pr =
        priorityOptFold (acs.map fun ac => mediaTypeSpecify c ac idx) pr
  | [], _ => rfl
  | ac :: rest, pr => by
    unfold getMediaTypePriorityAux
    cases h : mediaTypeSpecify c ac idx with
    | none =>
      simp only [List.map_cons, h, priorityOptFold, getMediaTypePriorityAux_eq_optFold c idx rest]
    | some spec =>
      simp only [List.map_cons, h, priorityOptFold, getMediaTypePriorityAux_eq_optFold c idx rest]

theorem languageSpecify_ok {c : Str} {idx : Int} {p? : Option AcceptLanguage}
    (hp : parseLanguage c idx = .ok p?) (ac : AcceptLanguage) :
    languageSpecify c ac idx = .ok (languageSpecifyCore p? ac idx) := by
  unfold languageSpecify
  rw [hp]
  rfl

theorem getLanguagePriorityAux_eq_optFold {c : Str} {idx : Int} {p? : Option AcceptLanguage}
    (hp : parseLanguage c idx = .ok p?) :
    ∀ (acs : List AcceptLanguage) (pr : Specificity),
      getLanguagePriorityAux c idx acs pr =
        .ok (priorityOptFold (acs.map fun ac => languageSpecifyCore p? ac idx) pr)
  | [], _ => rfl
  | ac :: rest, pr => by
    unfold getLanguagePriorityAux
    rw [languageSpecify_ok hp ac]
    cases h : languageSpecifyCore p? ac idx with
    | none =>
      simp only [List.map_cons, h, priorityOptFold]
      exact getLanguagePriorityAux_eq_optFold hp rest pr
    | some spec =>
      simp only [List.map_cons, h, priorityOptFold]
      exact getLanguagePriorityAux_eq_optFold hp rest (priorityStep pr spec)

end Negotiator

namespace Negotiator

/-- C3 (amended): the per-candidate priority functions do not keep the
lexicographically greatest matching score — the incumbent is overwritten
whenever the new match is strictly greater in any one of bits, quality, or
matched-entry order.  Since entry orders strictly increase along the entry
list (hypotheses: pairwise increasing, nonnegative — as the parsers produce
them), every later match overwrites the earlier one, so each function
returns the score of the **last** matching entry, or the sentinel when none
match.  (For the language dimension the candidate's reparse is also given,
since reparsing may panic.) -/
theorem claim_C3_amended :
    (∀ (c : Str) (acs : List AcceptCharset) (idx : Int),
      acs.Pairwise (fun a b => a.i < b.i) → (∀ ac ∈ acs, 0 ≤ ac.i) →
      getCharsetPriority c acs idx =
        ((acs.filterMap fun ac => charsetSpecify c ac idx).getLast?).getD sentinelSpec) ∧
    (∀ (c : Str) (acs : List AcceptMediaType) (idx : Int),
      acs.Pairwise (fun a b => a.i < b.i) → (∀ ac ∈ acs, 0 ≤ ac.i) →
      getMediaTypePriority c acs idx =
        ((acs.filterMap fun ac => mediaTypeSpecify c ac idx).getLast?).getD sentinelSpec) ∧
    (∀ (c : Str) (acs : List AcceptLanguage) (idx : Int) (p? : Option AcceptLanguage),
      parseLanguage c idx = .ok p? →
      acs.Pairwise (fun a b => a.i < b.i) → (∀ ac ∈ acs, 0 ≤ ac.i) →
      getLanguagePriority c acs idx =
        .ok (((acs.filterMap fun ac => languageSpecifyCore p? ac idx).getLast?).getD
          sentinelSpec)) := by
  refine ⟨fun c acs idx h1 h2 => ?_, fun c acs idx h1 h2 => ?_,
    fun c acs idx p? hp h1 h2 => ?_⟩
  · rw [getCharsetPriority, getCharsetPriorityAux_eq_optFold]
    exact priorityOptFold_lastMatch _ AcceptCharset.i
      (fun ac s h => charsetSpecify_o h) acs h1 h2
  · rw [getMediaTypePriority, getMediaTypePriorityAux_eq_optFold]
    exact priorityOptFold_lastMatch _ AcceptMediaType.i
      (fun ac s h => mediaTypeSpecify_o h) acs h1 h2
  · rw [getLanguagePriority, getLanguagePriorityAux_eq_optFold hp]
    rw [priorityOptFold_lastMatch _ AcceptLanguage.i
      (fun ac s h => languageSpecifyCore_o h) acs h1 h2]

/-- C3 witness: the charset clause at the counterexample input — the last
matching entry is the wildcard, so the returned priority is its
`(bits 0, quality 0.5, order 1)` score. -/
theorem claim_C3_amended_witness :
    getCharsetPriority "utf-8".data
        [⟨"utf-8".data, .num 1, 0⟩, ⟨"*".data, .num (mkRat 1 2), 1⟩] 0 =
      (([⟨"utf-8".data, .num 1, 0⟩,
         (⟨"*".data, .num (mkRat 1 2), 1⟩ : AcceptCharset)].filterMap
          fun ac => charsetSpecify "utf-8".data ac 0).getLast?).getD sentinelSpec :=
  claim_C3_amended.1 "utf-8".data
    [⟨"utf-8".data, .num 1, 0⟩, ⟨"*".data, .num (mkRat 1 2), 1⟩] 0
    (by with_unfolding_all decide) (by with_unfolding_all decide)

end Negotiator

namespace Negotiator

/-- Claim-side reference for C4: the surviving parsed entries of an
`Accept-Encoding` header — the "already-parsed entries" the claim counts —
i.e. the parse loop without the synthetic-identity bookkeeping. -/
def parseEncodingEntries : List Str → Int → Except Unit (List AcceptEncoding)
  | [], _ => .ok []
  | seg :: rest, i => do
    let e ← parseEncoding (trimSp seg) i
    let tail ← parseEncodingEntries rest (i + 1)
    match e with
    | none => pure tail
    | some ac => pure (ac :: tail)

theorem parseAcceptEncodingAux_eq :
    ∀ (segs : List Str) (i : Int) (hasId : Bool) (minQ : GoF),
      parseAcceptEncodingAux segs i hasId minQ =
        (parseEncodingEntries segs i).map fun entries =>
          (entries,
           hasId || entries.any fun e => (encodingSpecify "identity".data e 0).isSome,
           entries.foldl (fun m e => GoF.goMin m e.q) minQ)
  | [], i, hasId, minQ => by
    simp [parseAcceptEncodingAux, parseEncodingEntries, Except.map]
  | seg :: rest, i, hasId, minQ => by
    rw [parseAcceptEncodingAux, parseEncodingEntries]
    cases he : parseEncoding (trimSp seg) i with
    | error u => cases u; rfl
    | ok e? =>
      cases e? with
      | none =>
        simp only [bind, Except.bind, pure, Except.pure, Except.map,
          parseAcceptEncodingAux_eq rest (i + 1) hasId minQ]
        cases parseEncodingEntries rest (i + 1) with
        | error u => cases u; rfl
        | ok tail => rfl
      | some enc =>
        simp only [bind, Except.bind, pure, Except.pure, Except.map,
          parseAcceptEncodingAux_eq rest (i + 1)]
        cases parseEncodingEntries rest (i + 1) with
        | error u => cases u; rfl
        | ok tail =>
          simp only [List.any_cons, List.foldl_cons, Bool.or_assoc]
end Negotiator

namespace Negotiator

/-- C4 (amended): when no surviving parsed entry matches `identity` under
the encoding specificity matcher, `parseAcceptEncoding` appends one entry
`identity` whose quality is the minimum of 1.0 and the parsed qualities and
whose order field is the number of comma-separated segments of the header —
not the count of surviving parsed entries (the two differ when a segment
fails to parse). -/
theorem claim_C4_amended :
    ∀ (accept : Str) (entries : List AcceptEncoding),
      parseEncodingEntries (splitCh ',' accept) 0 = .ok entries →
      (entries.any fun e => (encodingSpecify "identity".data e 0).isSome) = false →
      parseAcceptEncoding accept =
        .ok (entries ++
          [⟨"identity".data, entries.foldl (fun m e => GoF.goMin m e.q) (.num 1),
            ((splitCh ',' accept).length : Int)⟩]) := by
  intro accept entries hparse hnone
  rw [parseAcceptEncoding]
  simp only [bind, Except.bind, pure, Except.pure, parseAcceptEncodingAux_eq, hparse,
    Except.map, hnone, Bool.false_or]
  rfl

/-- C4 witness: on `gzip;q=x, br` only `br` survives, no entry matches
`identity`, and the synthetic entry is appended with order 2 = the segment
count. -/
theorem claim_C4_amended_witness :
    parseEncodingEntries (splitCh ',' "gzip;q=x, br".data) 0 = .ok [⟨"br".data, .num 1, 1⟩] ∧
    parseAcceptEncoding "gzip;q=x, br".data =
      .ok ([⟨"br".data, .num 1, 1⟩] ++
        [⟨"identity".data,
          [(⟨"br".data, .num 1, 1⟩ : AcceptEncoding)].foldl (fun m e => GoF.goMin m e.q) (.num 1),
          ((splitCh ',' "gzip;q=x, br".data).length : Int)⟩]) :=
  ⟨by with_unfolding_all decide,
   claim_C4_amended "gzip;q=x, br".data [⟨"br".data, .num 1, 1⟩]
     (by with_unfolding_all decide) (by with_unfolding_all decide)⟩

end Negotiator

namespace Negotiator

theorem qScan_quality :
    ∀ (pieces : List Str) (q : GoF), qScan pieces = .ok (some q) →
      q = .num 1 ∨ ∃ v : Str, parseGoFloat v = some q
  | [], q, h => by
    rw [qScan] at h
    cases h
    exact Or.inl rfl
  | piece :: rest, q, h => by
    rw [qScan] at h
    split at h
    · exact qScan_quality rest q h
    · split at h
      · cases h
      · exact qScan_quality rest q h
    · split at h
      · split at h
        · cases h
        · cases h
          exact Or.inr ⟨_, by assumption⟩
      · exact qScan_quality rest q h

theorem mediaParamsScan_quality :
    ∀ (kvps : List (Str × Str)) (params0 params : List (Str × Str)) (q : GoF),
      mediaParamsScan kvps params0 = some (params, q) →
      q = .num 1 ∨ ∃ v : Str, parseGoFloat v = some q
  | [], _, params, q, h => by
    rw [mediaParamsScan] at h
    cases h
    exact Or.inl rfl
  | (k, v) :: rest, params0, params, q, h => by
    rw [mediaParamsScan] at h
    split at h
    · split at h
      · cases h
      · cases h
        exact Or.inr ⟨_, by assumption⟩
    · exact mediaParamsScan_quality rest _ params q h

/-- C5 (amended): qualities are not clamped to `[0,1]` — each of the four
segment parsers stores quality 1 when no `q` parameter occurs and otherwise
the raw `strconv.ParseFloat` output, whatever its magnitude or sign (even
`±Inf`/`NaN`); what remains true is that the selectors' quality filters
keep exactly the entries with quality strictly greater than zero. -/
theorem claim_C5_amended :
    (∀ (s : Str) (i : Int) (ac : AcceptCharset), parseCharset s i = .ok (some ac) →
      ac.q = .num 1 ∨ ∃ v : Str, parseGoFloat v = some ac.q) ∧
    (∀ (s : Str) (i : Int) (ac : AcceptEncoding), parseEncoding s i = .ok (some ac) →
      ac.q = .num 1 ∨ ∃ v : Str, parseGoFloat v = some ac.q) ∧
    (∀ (s : Str) (i : Int) (ac : AcceptLanguage), parseLanguage s i = .ok (some ac) →
      ac.q = .num 1 ∨ ∃ v : Str, parseGoFloat v = some ac.q) ∧
    (∀ (s : Str) (i : Int) (ac : AcceptMediaType), parseMediaType s i = some ac →
      ac.q = .num 1 ∨ ∃ v : Str, parseGoFloat v = some ac.q) ∧
    (∀ (acs : List AcceptCharset) (ac : AcceptCharset),
      ac ∈ acs.filter isAcceptCharsetQuality → GoF.gt ac.q (.num 0) = true) ∧
    (∀ (acs : List AcceptEncoding) (ac : AcceptEncoding),
      ac ∈ acs.filter isAcceptEncodingQuality → GoF.gt ac.q (.num 0) = true) ∧
    (∀ (acs : List AcceptLanguage) (ac : AcceptLanguage),
      ac ∈ acs.filter isAcceptLanguageQuality → GoF.gt ac.q (.num 0) = true) ∧
    (∀ (acs : List AcceptMediaType) (ac : AcceptMediaType),
      ac ∈ acs.filter isAcceptMediaTypeQuality → GoF.gt ac.q (.num 0) = true) := by
  refine ⟨?_, ?_, ?_, ?_,
    fun acs ac h => (List.mem_filter.mp h).2,
    fun acs ac h => (List.mem_filter.mp h).2,
    fun acs ac h => (List.mem_filter.mp h).2,
    fun acs ac h => (List.mem_filter.mp h).2⟩
  · intro s i ac h
    rw [parseCharset] at h
    (try dsimp only at h)
    repeat' split at h
    all_goals
      first
        | (cases h; exact Or.inl rfl)
        | (cases h; exact qScan_quality _ _ (by assumption))
        | cases h
  · intro s i ac h
    rw [parseEncoding] at h
    (try dsimp only at h)
    repeat' split at h
    all_goals
      first
        | (cases h; exact Or.inl rfl)
        | (cases h; exact qScan_quality _ _ (by assumption))
        | cases h
  · intro s i ac h
    rw [parseLanguage] at h
    (try dsimp only at h)
    repeat' split at h
    all_goals
      first
        | (cases h; exact Or.inl rfl)
        | (cases h; exact qScan_quality _ _ (by assumption))
        | cases h
  · intro s i ac h
    rw [parseMediaType] at h
    (try dsimp only at h)
    repeat' split at h
    all_goals
      first
        | (cases h; exact Or.inl rfl)
        | (cases h; exact mediaParamsScan_quality _ _ _ _ (by assumption))
        | cases h

/-- C5 witness: the counterexample entry `utf-8;q=5` has quality 5, the
exact `ParseFloat` output for `5`. -/
theorem claim_C5_amended_witness :
    (⟨"utf-8".data, .num 5, 0⟩ : AcceptCharset).q = .num 1 ∨
      ∃ v : Str, parseGoFloat v = some (⟨"utf-8".data, .num 5, 0⟩ : AcceptCharset).q :=
  claim_C5_amended.1 "utf-8;q=5".data 0 ⟨"utf-8".data, .num 5, 0⟩
    (by with_unfolding_all decide)

end Negotiator

namespace Negotiator

theorem stripQuotesGo_eq_claimStrip : ∀ v : Str, stripQuotesGo v = claimStrip v := by
  intro v
  rw [stripQuotesGo, claimStrip]
  by_cases h1 : v.head? = some '"'
  · by_cases h2 : v.getLast? = some '"'
    · by_cases h3 : v = []
      · simp [h3] at h1
      · rw [if_pos ⟨h3, h1, h2⟩, if_pos ⟨h1, h2, h3⟩]
        by_cases h4 : v.length = 1
        · obtain ⟨c, hc⟩ : ∃ c, v = [c] := List.length_eq_one.mp h4
          subst hc
          rfl
        · have h5 : 2 ≤ v.length := by
            have hpos : 0 < v.length := List.length_pos.mpr h3
            omega
          rw [if_neg h4]
          have hmax : max (v.length - 1) 1 = v.length - 1 := by omega
          rw [hmax, List.drop_take, List.dropLast_eq_take, List.length_drop]
        
    · rw [if_neg (by tauto), if_neg (by tauto)]
  · rw [if_neg (by tauto), if_neg (by tauto)]

end Negotiator

namespace Negotiator

theorem lookupAssoc_insertAssoc :
    ∀ (params : List (Str × Str)) (k v k' : Str),
      lookupAssoc (insertAssoc params k v) k' =
        if k = k' then some v else lookupAssoc params k'
  | [], k, v, k' => by
    simp only [insertAssoc, lookupAssoc]
  | (k0, v0) :: rest, k, v, k' => by
    by_cases h0 : k0 = k
    · subst h0
      simp only [insertAssoc, if_pos rfl, lookupAssoc]
      by_cases h1 : k0 = k'
      · rw [if_pos h1, if_pos h1]
      · rw [if_neg h1, if_neg h1, if_neg h1]
    · simp only [insertAssoc, if_neg h0, lookupAssoc]
      by_cases h1 : k0 = k'
      · subst h1
        rw [if_pos rfl, if_neg (fun hh => h0 hh.symm), if_pos rfl]
      · rw [if_neg h1, if_neg h1, lookupAssoc_insertAssoc rest k v k']

theorem mediaParamsScan_lookup :
    ∀ (kvps : List (Str × Str)) (params0 params : List (Str × Str)) (q : GoF),
      mediaParamsScan kvps params0 = some (params, q) →
      ∀ k : Str, k ≠ "q".data →
        lookupAssoc params k =
          match paramsSpecLookup k kvps with
          | some v => some v
          | none => lookupAssoc params0 k
  | [], params0, params, q, h, k, hk => by
    rw [mediaParamsScan] at h
    cases h
    rfl
  | (k0, v0) :: rest, params0, params, q, h, k, hk => by
    rw [mediaParamsScan] at h
    rw [paramsSpecLookup]
    split at h
    · split at h
      · cases h
      · cases h
        rw [if_pos (by assumption)]
    · rw [if_neg (by assumption)]
      have ih := mediaParamsScan_lookup rest _ params q h k hk
      rw [ih, lookupAssoc_insertAssoc]
      by_cases hkk : goLower k0 = k
      · rw [if_pos hkk, if_pos hkk]
        cases hrest : paramsSpecLookup k rest with
        | some v' => rfl
        | none => rw [stripQuotesGo_eq_claimStrip]
      · rw [if_neg hkk, if_neg hkk]

/-- C6 (amended): a media-type segment's non-`q` parameters are retained
under their lowercased keys only up to the first `q` parameter — the scan
breaks at `q`, so later parameters are dropped; when the same key occurs
several times before `q`, the last occurrence's value is kept.  Quoted
values have exactly their first and last character stripped when both are
`"`, the single-character value `"` becoming the empty string (never an
out-of-range read — `stripQuotesGo` agrees everywhere with the
specification's stripping rule `claimStrip`). -/
theorem claim_C6_amended :
    (∀ v : Str, stripQuotesGo v = claimStrip v) ∧
    (∀ (s : Str) (i : Int) (mt : AcceptMediaType) (main sub g3 : Str),
      parseMediaType s i = some mt →
      simpleMediaTypeRegExpMatch s = some (main, sub, g3) →
      ∀ k : Str, k ≠ "q".data →
        lookupAssoc mt.params k =
          if g3 = [] then none
          else paramsSpecLookup k ((splitParameters g3).map splitKeyValuePair)) := by
  refine ⟨stripQuotesGo_eq_claimStrip, ?_⟩
  intro s i mt main sub g3 hmt hregex k hk
  rw [parseMediaType, hregex] at hmt
  (try dsimp only at hmt)
  by_cases hg : g3 = []
  · rw [if_pos hg]
    rw [if_neg (by simp [hg])] at hmt
    cases hmt
    rfl
  · rw [if_neg hg]
    rw [if_pos hg] at hmt
    (try dsimp only at hmt)
    split at hmt
    · cases hmt
    · cases hmt
      have := mediaParamsScan_lookup _ _ _ _ (by assumption) k hk
      rw [this]
      cases paramsSpecLookup k ((splitParameters g3).map splitKeyValuePair) with
      | some v => rfl
      | none => rfl

/-- C6 witness: in `text/html;p=1;x=2` both parameters precede any `q`, so
key `x` is retained with value `2`. -/
theorem claim_C6_amended_witness :
    lookupAssoc
        (⟨"text".data, "html".data, [("p".data, "1".data), ("x".data, "2".data)],
          .num 1, 0⟩ : AcceptMediaType).params "x".data =
      if "p=1;x=2".data = ([] : Str) then none
      else paramsSpecLookup "x".data
        ((splitParameters "p=1;x=2".data).map splitKeyValuePair) :=
  claim_C6_amended.2 "text/html;p=1;x=2".data 0
    ⟨"text".data, "html".data, [("p".data, "1".data), ("x".data, "2".data)], .num 1, 0⟩
    "text".data "html".data "p=1;x=2".data
    (by with_unfolding_all decide) (by with_unfolding_all decide)
    "x".data (by with_unfolding_all decide)

end Negotiator

namespace Negotiator

/-- Rank of a quality for the totalised language comparator: infinite
quality first, then finite values, then the never-surviving specials. -/
def langRank : GoF → Nat
  | .inf => 0
  | .num _ => 1
  | .nan => 2
  | .ninf => 3

/-- Finite-value key of a quality, negated so that ascending key order is
descending quality. -/
def langVal : GoF → ℚ
  | .num x => -x
  | _ => 0

/-- Totalised version of `acceptLanguageBy`: lexicographic on rank, negated
value and header position.  It agrees with `acceptLanguageBy` on every
entry that the quality filter lets through (and on the sort's default
element), and unlike it is a strict weak order on all entries. -/
def langTotalBy (ac1 ac2 : AcceptLanguage) : Bool :=
  if langRank ac1.q < langRank ac2.q then true
  else if langRank ac2.q < langRank ac1.q then false
  else if langVal ac1.q < langVal ac2.q then true
  else if langVal ac2.q < langVal ac1.q then false
  else decide (ac1.i < ac2.i)

/-- The strict lexicographic order computed by `langTotalBy`. -/
def langLt (a b : AcceptLanguage) : Prop :=
  langRank a.q < langRank b.q ∨ (langRank a.q = langRank b.q ∧
    (langVal a.q < langVal b.q ∨ (langVal a.q = langVal b.q ∧ a.i < b.i)))

/-- Complete key equality for `langTotalBy`. -/
def langKeyEq (a b : AcceptLanguage) : Prop :=
  langRank a.q = langRank b.q ∧ langVal a.q = langVal b.q ∧ a.i = b.i

theorem langTotalBy_eq_true_iff (a b : AcceptLanguage) :
    langTotalBy a b = true ↔ langLt a b := by
  rw [langTotalBy, langLt]
  by_cases h1 : langRank a.q < langRank b.q
  · rw [if_pos h1]
    exact ⟨fun _ => Or.inl h1, fun _ => rfl⟩
  · rw [if_neg h1]
    by_cases h2 : langRank b.q < langRank a.q
    · rw [if_pos h2]
      constructor
      · intro hf; exact absurd hf Bool.false_ne_true
      · rintro (hc | ⟨he, -⟩)
        · exact (h1 hc).elim
        · exact absurd he (by omega)
    · rw [if_neg h2]
      have he : langRank a.q = langRank b.q := by omega
      by_cases h3 : langVal a.q < langVal b.q
      · rw [if_pos h3]
        exact ⟨fun _ => Or.inr ⟨he, Or.inl h3⟩, fun _ => rfl⟩
      · rw [if_neg h3]
        by_cases h4 : langVal b.q < langVal a.q
        · rw [if_pos h4]
          constructor
          · intro hf; exact absurd hf Bool.false_ne_true
          · rintro (hc | ⟨-, hc2 | ⟨hce, -⟩⟩)
            · exact (h1 hc).elim
            · exact (h3 hc2).elim
            · exact absurd h4 (by rw [hce]; exact lt_irrefl _)
        · rw [if_neg h4]
          have hve : langVal a.q = langVal b.q :=
            le_antisymm (le_of_not_lt h4) (le_of_not_lt h3)
          constructor
          · intro hd; exact Or.inr ⟨he, Or.inr ⟨hve, of_decide_eq_true hd⟩⟩
          · rintro (hc | ⟨-, hc2 | ⟨-, hi⟩⟩)
            · exact (h1 hc).elim
            · exact (h3 hc2).elim
            · exact decide_eq_true hi

theorem langLt_asym (a b : AcceptLanguage) : langLt a b → ¬ langLt b a := by
  intro h g
  rcases h with h1 | ⟨e1, h2 | ⟨e2, h3⟩⟩ <;> rcases g with g1 | ⟨f1, g2 | ⟨f2, g3⟩⟩ <;>
    first
      | omega
      | linarith

theorem langLt_total (a b : AcceptLanguage) : langLt a b ∨ langLt b a ∨ langKeyEq a b := by
  rcases lt_trichotomy (langRank a.q) (langRank b.q) with h | h | h
  · exact Or.inl (Or.inl h)
  · rcases lt_trichotomy (langVal a.q) (langVal b.q) with h2 | h2 | h2
    · exact Or.inl (Or.inr ⟨h, Or.inl h2⟩)
    · rcases lt_trichotomy a.i b.i with h3 | h3 | h3
      · exact Or.inl (Or.inr ⟨h, Or.inr ⟨h2, h3⟩⟩)
      · exact Or.inr (Or.inr ⟨h, h2, h3⟩)
      · exact Or.inr (Or.inl (Or.inr ⟨h.symm, Or.inr ⟨h2.symm, h3⟩⟩))
    · exact Or.inr (Or.inl (Or.inr ⟨h.symm, Or.inl h2⟩))
  · exact Or.inr (Or.inl (Or.inl h))

theorem langLt_trans (a b c : AcceptLanguage) : langLt a b → langLt b c → langLt a c := by
  intro h g
  rcases h with h1 | ⟨e1, h2 | ⟨e2, h3⟩⟩ <;> rcases g with g1 | ⟨f1, g2 | ⟨f2, g3⟩⟩ <;>
    first
      | exact Or.inl (by omega)
      | exact Or.inr ⟨by omega, Or.inl (by linarith)⟩
      | exact Or.inr ⟨by omega, Or.inr ⟨by linarith, by omega⟩⟩

theorem langLt_congr_right (a b c : AcceptLanguage) :
    langLt a b → langKeyEq b c → langLt a c := by
  intro h hk
  obtain ⟨k1, k2, k3⟩ := hk
  rcases h with h1 | ⟨e1, h2 | ⟨e2, h3⟩⟩
  · exact Or.inl (by omega)
  · exact Or.inr ⟨by omega, Or.inl (by linarith)⟩
  · exact Or.inr ⟨by omega, Or.inr ⟨by linarith, by omega⟩⟩

theorem langLt_congr_left (a b c : AcceptLanguage) :
    langKeyEq a b → langLt b c → langLt a c := by
  intro hk h
  obtain ⟨k1, k2, k3⟩ := hk
  rcases h with h1 | ⟨e1, h2 | ⟨e2, h3⟩⟩
  · exact Or.inl (by omega)
  · exact Or.inr ⟨by omega, Or.inl (by linarith)⟩
  · exact Or.inr ⟨by omega, Or.inr ⟨by linarith, by omega⟩⟩

theorem langTotalBy_asym (x y : AcceptLanguage) :
    langTotalBy x y = true → langTotalBy y x = false := by
  intro h
  rcases Bool.eq_false_or_eq_true (langTotalBy y x) with ht | hf
  · exact absurd ((langTotalBy_eq_true_iff x y).mp h)
      (langLt_asym y x ((langTotalBy_eq_true_iff y x).mp ht))
  · exact hf

theorem langTotalBy_negtrans (x y z : AcceptLanguage) :
    langTotalBy x y = false → langTotalBy y z = false → langTotalBy x z = false := by
  intro hxy hyz
  have nxy : ¬ langLt x y := fun hp =>
    Bool.false_ne_true (hxy ▸ (langTotalBy_eq_true_iff x y).mpr hp)
  have nyz : ¬ langLt y z := fun hp =>
    Bool.false_ne_true (hyz ▸ (langTotalBy_eq_true_iff y z).mpr hp)
  rcases Bool.eq_false_or_eq_true (langTotalBy x z) with ht | hf
  · exfalso
    have hxz := (langTotalBy_eq_true_iff x z).mp ht
    rcases langLt_total y x with hyx | h2 | hk1
    · rcases langLt_total z y with hzy | h3 | hk2
      · exact langLt_asym x z hxz (langLt_trans z y x hzy hyx)
      · exact nyz h3
      · exact nxy (langLt_congr_right x z y hxz hk2)
    · exact nxy h2
    · exact nyz (langLt_congr_left y x z hk1 hxz)
  · exact hf

/-- Qualities that can reach the language sort: a surviving entry's or the
default element's. -/
theorem langGoodQ (x : AcceptLanguage)
    (hx : isAcceptLanguageQuality x = true ∨ x = dummyLanguage) :
    (∃ r : ℚ, x.q = .num r) ∨ x.q = .inf := by
  rcases hx with h | h
  · rw [isAcceptLanguageQuality] at h
    cases hq : x.q with
    | num r => exact Or.inl ⟨r, rfl⟩
    | inf => exact Or.inr rfl
    | ninf => rw [hq] at h; exact Bool.noConfusion h
    | nan => rw [hq] at h; exact Bool.noConfusion h
  · rw [h]; exact Or.inl ⟨0, rfl⟩

/-- On the entries the language sort can see, the guarded comparator of
`PreferredLanguages` coincides with its totalisation. -/
theorem acceptLanguageBy_agree (x y : AcceptLanguage)
    (hx : isAcceptLanguageQuality x = true ∨ x = dummyLanguage)
    (hy : isAcceptLanguageQuality y = true ∨ y = dummyLanguage) :
    acceptLanguageBy x y = langTotalBy x y := by
  rcases langGoodQ x hx with ⟨a, hxa⟩ | hxa <;> rcases langGoodQ y hy with ⟨b, hyb⟩ | hyb
  · rw [acceptLanguageBy, langTotalBy, hxa, hyb]
    by_cases hab : a = b
    · subst hab
      rw [if_neg (by simp [GoF.goEq])]
      rw [if_neg (by simp [langRank]), if_neg (by simp [langRank]),
        if_neg (by simp [langVal]), if_neg (by simp [langVal])]
    · rw [if_pos (by simp [GoF.goEq, hab])]
      rw [if_neg (by simp [langRank]), if_neg (by simp [langRank])]
      by_cases hba : b < a
      · rw [if_pos (by simp only [langVal]; linarith)]
        simp only [GoF.gt, GoF.lt]
        exact decide_eq_true hba
      · have hab2 : a < b := lt_of_le_of_ne (le_of_not_lt hba) hab
        rw [if_neg (by simp only [langVal]; linarith),
          if_pos (by simp only [langVal]; linarith)]
        simp only [GoF.gt, GoF.lt]
        exact decide_eq_false hba
  · rw [acceptLanguageBy, langTotalBy, hxa, hyb]
    rw [if_pos (by simp [GoF.goEq]), if_neg (by simp [langRank]), if_pos (by simp [langRank])]
    rfl
  · rw [acceptLanguageBy, langTotalBy, hxa, hyb]
    rw [if_pos (by simp [GoF.goEq]), if_pos (by simp [langRank])]
    rfl
  · rw [acceptLanguageBy, langTotalBy, hxa, hyb]
    rw [if_neg (by simp [GoF.goEq]), if_neg (by simp [langRank]), if_neg (by simp [langRank]),
      if_neg (by simp [langVal]), if_neg (by simp [langVal])]

/-- Reading the comparator verdict back: among reachable entries with
distinct positions, not-before means strictly higher quality or equal
quality and earlier position. -/
theorem langTotal_not_lt (x y : AcceptLanguage)
    (hx : (∃ r : ℚ, x.q = .num r) ∨ x.q = .inf)
    (hy : (∃ r : ℚ, y.q = .num r) ∨ y.q = .inf)
    (hne : x.i ≠ y.i)
    (h : langTotalBy y x = false) :
    GoF.gt x.q y.q = true ∨ (GoF.goEq x.q y.q = true ∧ x.i < y.i) := by
  have nyx : ¬ langLt y x := fun hp =>
    Bool.false_ne_true (h ▸ (langTotalBy_eq_true_iff y x).mpr hp)
  rw [langLt] at nyx
  rcases hx with ⟨a, hxa⟩ | hxa <;> rcases hy with ⟨b, hyb⟩ | hyb
  · rw [hxa, hyb]
    rw [hxa, hyb] at nyx
    by_cases hba : b < a
    · left
      simp only [GoF.gt, GoF.lt]
      exact decide_eq_true hba
    · by_cases hab : a < b
      · exact absurd (Or.inr ⟨rfl, Or.inl (by simp only [langVal]; linarith)⟩) nyx
      · have heq : a = b := le_antisymm (le_of_not_lt hba) (le_of_not_lt hab)
        subst heq
        right
        refine ⟨by simp [GoF.goEq], ?_⟩
        have hni : ¬ (y.i < x.i) := fun hi => nyx (Or.inr ⟨rfl, Or.inr ⟨rfl, hi⟩⟩)
        omega
  · rw [hxa, hyb] at nyx
    exact absurd (Or.inl (by simp [langRank])) nyx
  · rw [hxa, hyb]
    left
    rfl
  · rw [hxa, hyb]
    rw [hxa, hyb] at nyx
    right
    refine ⟨rfl, ?_⟩
    have hni : ¬ (y.i < x.i) := fun hi => nyx (Or.inr ⟨rfl, Or.inr ⟨rfl, hi⟩⟩)
    omega

/-- `parseLanguage(s, i)` stamps the supplied index on the entry. -/
theorem parseLanguage_i (s : Str) (i : Int) (ac : AcceptLanguage)
    (h : parseLanguage s i = .ok (some ac)) : ac.i = i := by
  rw [parseLanguage] at h
  cases hm : simpleLanguageRegExpMatch s with
  | none => rw [hm] at h; exact Option.noConfusion (Except.ok.inj h)
  | some t =>
    obtain ⟨primary, suffix, g3⟩ := t
    rw [hm] at h
    dsimp only at h
    by_cases hg : g3 ≠ []
    · rw [if_pos hg] at h
      cases hq : qScan (splitCh ';' g3) with
      | error u => rw [hq] at h; exact Except.noConfusion h
      | ok qo =>
        cases qo with
        | none => rw [hq] at h; exact Option.noConfusion (Except.ok.inj h)
        | some q =>
          rw [hq] at h
          rw [← Option.some.inj (Except.ok.inj h)]
    · rw [if_neg hg] at h
      rw [← Option.some.inj (Except.ok.inj h)]

/-- The segment loop of `parseAcceptLanguage` stamps strictly increasing
indices, all at least the starting index. -/
theorem parseAcceptLanguageAux_i :
    ∀ (segs : List Str) (i : Int) (als : List AcceptLanguage),
      parseAcceptLanguageAux segs i = .ok als →
      als.Pairwise (fun a1 a2 => a1.i < a2.i) ∧ ∀ a ∈ als, i ≤ a.i
  | [], i, als => by
    rw [parseAcceptLanguageAux]
    intro h
    rw [← Except.ok.inj h]
    exact ⟨List.Pairwise.nil, fun a ha => absurd ha (List.not_mem_nil a)⟩
  | seg :: rest, i, als => by
    rw [parseAcceptLanguageAux]
    intro h
    cases hp : parseLanguage (trimSp seg) i with
    | error u => rw [hp] at h; exact Except.noConfusion h
    | ok e =>
      rw [hp] at h
      cases ht : parseAcceptLanguageAux rest (i + 1) with
      | error u => rw [ht] at h; cases e <;> exact Except.noConfusion h
      | ok tail =>
        rw [ht] at h
        obtain ⟨hpw, hge⟩ := parseAcceptLanguageAux_i rest (i + 1) tail ht
        cases e with
        | none =>
          rw [← Except.ok.inj h]
          exact ⟨hpw, fun a ha => le_trans (by omega) (hge a ha)⟩
        | some ac =>
          have haci : ac.i = i := parseLanguage_i (trimSp seg) i ac hp
          rw [← Except.ok.inj h]
          refine ⟨List.Pairwise.cons ?_ hpw, ?_⟩
          · intro a ha
            have h2 := hge a ha
            omega
          · intro a ha
            rcases List.mem_cons.mp ha with h1 | h1
            · rw [h1]
              omega
            · have h2 := hge a h1
              omega

/-- `parseAcceptLanguage` returns entries with strictly increasing
positions. -/
theorem parseAcceptLanguage_i (accept : Str) (als : List AcceptLanguage)
    (h : parseAcceptLanguage accept = .ok als) :
    als.Pairwise (fun a1 a2 => a1.i < a2.i) :=
  (parseAcceptLanguageAux_i (splitCh ',' accept) 0 als h).1

/-- The language sort's output is pairwise ordered by quality descending,
position ascending, whenever the input survives the quality filter and has
pairwise distinct positions. -/
theorem sortGo_acceptLanguage_pairwise (als : List AcceptLanguage)
    (hq : ∀ x ∈ als, isAcceptLanguageQuality x = true)
    (hne : als.Pairwise (fun a1 a2 => a1.i ≠ a2.i)) :
    (sortGo acceptLanguageBy dummyLanguage als).Pairwise
      (fun a1 a2 => GoF.gt a1.q a2.q = true ∨
        (GoF.goEq a1.q a2.q = true ∧ a1.i < a2.i)) := by
  have hG : ∀ x ∈ als, (isAcceptLanguageQuality x = true ∨ x = dummyLanguage) :=
    fun x hx => Or.inl (hq x hx)
  have hcongr : sortGo acceptLanguageBy dummyLanguage als = sortGo langTotalBy dummyLanguage als :=
    sortGo_congr acceptLanguageBy langTotalBy dummyLanguage
      (fun ac => isAcceptLanguageQuality ac = true ∨ ac = dummyLanguage)
      acceptLanguageBy_agree (Or.inr rfl) als hG
  rw [hcongr]
  obtain ⟨hsort, hwithin⟩ := sortGo_sorted langTotalBy dummyLanguage langTotalBy_asym
    langTotalBy_negtrans als
  have hperm : (sortGo langTotalBy dummyLanguage als).Perm als :=
    sortGo_perm langTotalBy dummyLanguage als
  have hlen : (sortGo langTotalBy dummyLanguage als).length = als.length := hperm.length_eq
  have hmemq : ∀ x ∈ sortGo langTotalBy dummyLanguage als,
      (∃ r : ℚ, x.q = .num r) ∨ x.q = .inf := by
    intro x hx
    exact langGoodQ x (Or.inl (hq x (hperm.mem_iff.mp hx)))
  have hnout : (sortGo langTotalBy dummyLanguage als).Pairwise (fun a1 a2 => a1.i ≠ a2.i) :=
    (hperm.pairwise_iff (fun h => fun he => h he.symm)).mpr hne
  rw [List.pairwise_iff_getElem]
  intro i j hi hj hij
  have hs := hsort i j (Nat.zero_le i) hij (by omega)
  rw [rdL, rdL,
    List.getD_eq_getElem _ dummyLanguage (by omega : j < (sortGo langTotalBy dummyLanguage als).length),
    List.getD_eq_getElem _ dummyLanguage (by omega : i < (sortGo langTotalBy dummyLanguage als).length)] at hs
  have hnij := List.pairwise_iff_getElem.mp hnout i j hi hj hij
  exact langTotal_not_lt _ _ (hmemq _ (List.getElem_mem hi)) (hmemq _ (List.getElem_mem hj))
    hnij hs

/-- C2 (amended): in no-candidate mode each selector returns exactly the
parsed entries with quality > 0 — one output string per surviving entry.
For `PreferredCharsets` and `PreferredMediaTypes` only a permutation is
guaranteed: their unguarded comparator `q > q' || i < i'` under Go's
unstable sort does not yield the claimed quality-descending order (see the
counterexample, where a seven-entry header is returned in original header
order).  `PreferredLanguages`, whose comparator guards on quality equality
and is therefore a genuine lexicographic comparison, does return the full
claimed order: quality descending, ties by header position ascending. -/
theorem claim_C2_amended :
    (∀ (accept : Str) (acs : List AcceptCharset), parseAcceptCharset accept = .ok acs →
      ∃ out, PreferredCharsets accept [] = .ok out ∧
        out.Perm ((acs.filter isAcceptCharsetQuality).map AcceptCharset.charset)) ∧
    (∀ accept : Str,
      (PreferredMediaTypes accept []).Perm
        (((parseAcceptMediaType accept).filter isAcceptMediaTypeQuality).map
          fun ac => ac.mainType ++ '/' :: ac.subtype)) ∧
    (∀ (accept : Str) (acs : List AcceptLanguage), parseAcceptLanguage accept = .ok acs →
      ∃ sorted : List AcceptLanguage,
        sorted.Perm (acs.filter isAcceptLanguageQuality) ∧
        sorted.Pairwise (fun a1 a2 => GoF.gt a1.q a2.q = true ∨
          (GoF.goEq a1.q a2.q = true ∧ a1.i < a2.i)) ∧
        PreferredLanguages accept [] = .ok (sorted.map AcceptLanguage.full)) := by
  refine ⟨?_, ?_, ?_⟩
  · intro accept acs h
    refine ⟨_, by rw [PreferredCharsets]; rw [h]; rfl, ?_⟩
    exact (sortGo_perm acceptCharsetBy dummyCharset _).map AcceptCharset.charset
  · intro accept
    rw [PreferredMediaTypes]
    exact (sortGo_perm acceptMediaTypeBy dummyMediaType _).map _
  · intro accept acs h
    refine ⟨sortGo acceptLanguageBy dummyLanguage (acs.filter isAcceptLanguageQuality),
      sortGo_perm acceptLanguageBy dummyLanguage _, ?_, ?_⟩
    · refine sortGo_acceptLanguage_pairwise (acs.filter isAcceptLanguageQuality)
        (fun x hx => (List.mem_filter.mp hx).2) ?_
      exact ((parseAcceptLanguage_i accept acs h).sublist (List.filter_sublist acs)).imp
        (fun hlt => ne_of_lt hlt)
    · rw [PreferredLanguages, h]
      rfl

/-- C2 witness: both flavours at concrete headers — the charset clause on
the counterexample header (a permutation of the seven surviving entries),
and the language clause on a two-entry header, with the sorted list and
its full ordering produced by the theorem. -/
theorem claim_C2_amended_witness :
    ∃ sorted : List AcceptLanguage,
      sorted.Perm (([⟨"en".data, [], "en".data, .num (mkRat 1 2), 0⟩,
        ⟨"fr".data, [], "fr".data, .num 1, 1⟩] : List AcceptLanguage).filter
          isAcceptLanguageQuality) ∧
      sorted.Pairwise (fun a1 a2 => GoF.gt a1.q a2.q = true ∨
        (GoF.goEq a1.q a2.q = true ∧ a1.i < a2.i)) ∧
      PreferredLanguages "en;q=0.5, fr".data [] = .ok (sorted.map AcceptLanguage.full) :=
  claim_C2_amended.2.2 "en;q=0.5, fr".data
    [⟨"en".data, [], "en".data, .num (mkRat 1 2), 0⟩, ⟨"fr".data, [], "fr".data, .num 1, 1⟩]
    (by with_unfolding_all decide)

end Negotiator

namespace Negotiator

/-- C8 (confirmed): for a candidate that parses under the language grammar,
`languageSpecify` scores an entry `E` with bits 4 when `E.full` equals the
candidate's full tag case-insensitively; otherwise bits 2 when `E`'s
primary tag equals the candidate's full tag; otherwise bits 1 when `E.full`
equals the candidate's primary tag; otherwise bits 0 when `E.full` is the
literal `*`; otherwise no match. -/
theorem claim_C8 :
    ∀ (language : Str) (ac : AcceptLanguage) (index : Int) (p : AcceptLanguage),
      parseLanguage language index = .ok (some p) →
      ((goLower ac.full = goLower p.full →
          languageSpecify language ac index = .ok (some ⟨index, ac.i, ac.q, 4⟩)) ∧
       (goLower ac.full ≠ goLower p.full → goLower ac.primary = goLower p.full →
          languageSpecify language ac index = .ok (some ⟨index, ac.i, ac.q, 2⟩)) ∧
       (goLower ac.full ≠ goLower p.full → goLower ac.primary ≠ goLower p.full →
          goLower ac.full = goLower p.primary →
          languageSpecify language ac index = .ok (some ⟨index, ac.i, ac.q, 1⟩)) ∧
       (goLower ac.full ≠ goLower p.full → goLower ac.primary ≠ goLower p.full →
          goLower ac.full ≠ goLower p.primary → ac.full = "*".data →
          languageSpecify language ac index = .ok (some ⟨index, ac.i, ac.q, 0⟩)) ∧
       (goLower ac.full ≠ goLower p.full → goLower ac.primary ≠ goLower p.full →
          goLower ac.full ≠ goLower p.primary → ac.full ≠ "*".data →
          languageSpecify language ac index = .ok none)) := by
  intro language ac index p hp
  rw [languageSpecify_ok hp ac]
  rw [languageSpecifyCore]
  refine ⟨fun h1 => ?_, fun h1 h2 => ?_, fun h1 h2 h3 => ?_,
    fun h1 h2 h3 h4 => ?_, fun h1 h2 h3 h4 => ?_⟩
  · rw [if_pos h1]
  · rw [if_neg h1, if_pos h2]
  · rw [if_neg h1, if_neg h2, if_pos h3]
  · rw [if_neg h1, if_neg h2, if_neg h3, if_neg (by simp [h4])]
  · rw [if_neg h1, if_neg h2, if_neg h3, if_pos h4]

/-- C8 witness: entry `en-GB` scores candidate `en` with bits 2 (entry
primary tag equals candidate full tag). -/
theorem claim_C8_witness :
    languageSpecify "en".data ⟨"en".data, "GB".data, "en-GB".data, .num 1, 0⟩ 0 =
      .ok (some ⟨0, (0 : Int), .num 1, 2⟩) :=
  ((claim_C8 "en".data ⟨"en".data, "GB".data, "en-GB".data, .num 1, 0⟩ 0
      ⟨"en".data, [], "en".data, .num 1, 0⟩
      (by with_unfolding_all decide)).2.1
    (by with_unfolding_all decide) (by with_unfolding_all decide))

/-- C10 (confirmed): wildcard matching for charsets and encodings is
asymmetric — a `*` entry matches every candidate (bits 0, except the
candidate `*` itself which it matches exactly with bits 1), while the
candidate `*` is matched only by an entry lowercasing to `*`, and a
non-wildcard entry never matches the candidate `*`. -/
theorem claim_C10 :
    (∀ (cand : Str) (ac : AcceptCharset) (index : Int), ac.charset = "*".data →
      charsetSpecify cand ac index =
        some ⟨index, ac.i, ac.q, if goLower cand = "*".data then 1 else 0⟩) ∧
    (∀ (ac : AcceptCharset) (index : Int),
      (charsetSpecify "*".data ac index).isSome = true ↔ goLower ac.charset = "*".data) ∧
    (∀ (ac : AcceptCharset) (index : Int), ac.charset ≠ "*".data →
      charsetSpecify "*".data ac index = none) ∧
    (∀ (cand : Str) (ac : AcceptEncoding) (index : Int), ac.encoding = "*".data →
      encodingSpecify cand ac index =
        some ⟨index, ac.i, ac.q, if goLower cand = "*".data then 1 else 0⟩) ∧
    (∀ (ac : AcceptEncoding) (index : Int),
      (encodingSpecify "*".data ac index).isSome = true ↔ goLower ac.encoding = "*".data) ∧
    (∀ (ac : AcceptEncoding) (index : Int), ac.encoding ≠ "*".data →
      encodingSpecify "*".data ac index = none) := by
  have hlow : ∀ s : Str, goLower s = "*".data → s = "*".data := by
    intro s hs
    cases s with
    | nil => cases hs
    | cons c t =>
      cases t with
      | nil =>
        have hc : goLowerChar c = '*' := by
          have := congrArg (fun l => l.headI) hs
          simpa [goLower] using this
        rw [goLowerChar] at hc
        split at hc
        · exfalso
          rename_i hAZ
          have hA : 65 ≤ c.toNat := hAZ.1
          have hZ : c.toNat ≤ 90 := hAZ.2
          have hv : (c.toNat + 32).isValidChar := Or.inl (by omega)
          have h42 : (Char.ofNat (c.toNat + 32)).toNat = 42 := by rw [hc]; rfl
          rw [Char.ofNat, dif_pos hv] at h42
          have hself : (Char.ofNatAux (c.toNat + 32) hv).toNat = c.toNat + 32 := rfl
          omega
        · rw [hc]
      | cons d u =>
        have := congrArg List.length hs
        simp [goLower] at this
  refine ⟨?_, ?_, ?_, ?_, ?_, ?_⟩
  · intro cand ac index hac
    rw [charsetSpecify, hac]
    by_cases h : goLower cand = "*".data
    · rw [if_pos (by rw [h]; rfl), if_pos h]
    · rw [if_neg (by intro hh; exact h (by simpa [goLower] using hh.symm)),
        if_neg (by simp), if_neg h]
  · intro ac index
    rw [charsetSpecify]
    constructor
    · intro h
      by_cases h1 : goLower ac.charset = goLower "*".data
      · exact h1
      · rw [if_neg h1] at h
        split at h
        · cases h
        · exact (by assumption : ¬ ac.charset ≠ "*".data).elim
            fun hx => by simp_all
    · intro h
      rw [if_pos (by rw [h]; rfl)]
      rfl
  · intro ac index hac
    rw [charsetSpecify]
    rw [if_neg (fun hh => hac (hlow ac.charset
        (hh.trans (by with_unfolding_all decide)))),
      if_pos hac]
  · intro cand ac index hac
    rw [encodingSpecify, hac]
    by_cases h : goLower cand = "*".data
    · rw [if_pos (by rw [h]; rfl), if_pos h]
    · rw [if_neg (by intro hh; exact h (by simpa [goLower] using hh.symm)),
        if_neg (by simp), if_neg h]
  · intro ac index
    rw [encodingSpecify]
    constructor
    · intro h
      by_cases h1 : goLower ac.encoding = goLower "*".data
      · exact h1
      · rw [if_neg h1] at h
        split at h
        · cases h
        · exact (by assumption : ¬ ac.encoding ≠ "*".data).elim
            fun hx => by simp_all
    · intro h
      rw [if_pos (by rw [h]; rfl)]
      rfl
  · intro ac index hac
    rw [encodingSpecify]
    rw [if_neg (fun hh => hac (hlow ac.encoding
        (hh.trans (by with_unfolding_all decide)))),
      if_pos hac]

/-- C10 witness: the wildcard entry matches candidate `utf-16` with bits 0. -/
theorem claim_C10_witness :
    charsetSpecify "utf-16".data ⟨"*".data, .num (mkRat 2 5), 4⟩ 4 =
      some ⟨4, (4 : Int), .num (mkRat 2 5),
        if goLower "utf-16".data = "*".data then 1 else 0⟩ :=
  claim_C10.1 "utf-16".data ⟨"*".data, .num (mkRat 2 5), 4⟩ 4 (by with_unfolding_all decide)

end Negotiator

namespace Negotiator

/-- A strictly positive Go quality is Go-equal to itself and not Go-equal
to zero. -/
theorem gt_zero_goEq (q : GoF) (h : GoF.gt q (.num 0) = true) :
    GoF.goEq q q = true ∧ GoF.goEq (.num 0) q = false := by
  cases q with
  | num a =>
    rw [GoF.gt, GoF.lt] at h
    have ha : (0 : ℚ) < a := by simpa using h
    constructor
    · simp [GoF.goEq]
    · simp [GoF.goEq]
      exact (ne_of_lt ha)
  | inf => exact ⟨rfl, rfl⟩
  | ninf => cases h
  | nan => cases h

/-- Go `==` holds reflexively on a quality-positive specificity. -/
theorem specEqGo_self (v : Specificity) (hq : isSpecificityQuality v = true) :
    specEqGo v v = true := by
  rw [specEqGo]
  rw [isSpecificityQuality] at hq
  simp [(gt_zero_goEq v.q hq).1]

/-- The sentinel is never Go-equal to a quality-positive specificity. -/
theorem specEqGo_sentinel (v : Specificity) (hq : isSpecificityQuality v = true) :
    specEqGo sentinelSpec v = false := by
  rw [specEqGo]
  rw [isSpecificityQuality] at hq
  simp [sentinelSpec, (gt_zero_goEq v.q hq).2]

/-- Distinct candidate indices make Go `==` fail. -/
theorem specEqGo_ne_i (x v : Specificity) (h : x.i ≠ v.i) : specEqGo x v = false := by
  rw [specEqGo]
  simp [h]

/-- The sentinel never survives the quality filter. -/
theorem isSpecificityQuality_sentinel : isSpecificityQuality sentinelSpec = false := by
  with_unfolding_all decide

/-- `specificities.indexOf` finds a quality-positive element at its own
position when every list element is either the sentinel or carries its
position (shifted by `k`) in its `i` field. -/
theorem indexOfSpecAux_find (v : Specificity) (hq : isSpecificityQuality v = true) :
    ∀ (l : List Specificity) (k : Int),
      (∀ j' (h' : j' < l.length),
        l.get ⟨j', h'⟩ = sentinelSpec ∨ (l.get ⟨j', h'⟩).i = k + j') →
      ∀ (j : Nat) (hj : j < l.length), l.get ⟨j, hj⟩ = v →
      indexOfSpec.indexOfSpecAux l v k = k + j := by
  intro l
  induction l with
  | nil => intro k _ j hj; cases hj
  | cons x rest ih =>
    intro k hshape j hj hv
    rw [indexOfSpec.indexOfSpecAux]
    cases j with
    | zero =>
      have hx : x = v := hv
      rw [if_pos (by rw [hx]; exact specEqGo_self v hq)]
      simp
    | succ j' =>
      have hvi : v.i = k + (j' + 1 : Nat) := by
        have := hshape (j' + 1) hj
        rw [hv] at this
        rcases this with h | h
        · rw [h] at hq; rw [isSpecificityQuality_sentinel] at hq; cases hq
        · exact h
      have hne : specEqGo x v = false := by
        rcases hshape 0 (by simp) with h | h
        · rw [show x = List.get (x :: rest) ⟨0, by simp⟩ from rfl, h]
          exact specEqGo_sentinel v hq
        · refine specEqGo_ne_i x v ?_
          rw [show (List.get (x :: rest) ⟨0, by simp⟩).i = x.i from rfl] at h
          rw [h, hvi]
          push_cast
          omega
      rw [if_neg (by rw [hne]; exact Bool.false_ne_true)]
      have hrest : ∀ j' (h' : j' < rest.length),
          rest.get ⟨j', h'⟩ = sentinelSpec ∨ (rest.get ⟨j', h'⟩).i = (k + 1) + j' := by
        intro m hm
        have := hshape (m + 1) (by simpa using Nat.succ_lt_succ hm)
        rcases this with h | h
        · exact Or.inl h
        · right
          rw [show ((x :: rest).get ⟨m + 1, _⟩) = rest.get ⟨m, hm⟩ from rfl] at h
          rw [h]
          push_cast
          ring
      rw [ih (k + 1) hrest j' (by simpa using Nat.lt_of_succ_lt_succ hj)
        (by rw [← hv]; rfl)]
      push_cast
      ring

end Negotiator

namespace Negotiator

/-- `charsetSpecify` stamps the candidate position into the `i` field. -/
theorem charsetSpecify_i (charset : Str) (ac : AcceptCharset) (index : Int)
    (spec : Specificity) (h : charsetSpecify charset ac index = some spec) :
    spec.i = index := by
  rw [charsetSpecify] at h
  repeat' split at h
  all_goals first | (cases h; rfl) | cases h

/-- `mediaTypeSpecify` stamps the candidate position into the `i` field. -/
theorem mediaTypeSpecify_i (mediaType : Str) (ac : AcceptMediaType) (index : Int)
    (spec : Specificity) (h : mediaTypeSpecify mediaType ac index = some spec) :
    spec.i = index := by
  rw [mediaTypeSpecify] at h
  repeat' split at h
  all_goals (try dsimp only at h)
  all_goals repeat' split at h
  all_goals first | (cases h; rfl) | cases h

/-- The `getCharsetPriority` entry loop preserves "sentinel or stamped with
the candidate position". -/
theorem getCharsetPriorityAux_shape (charset : Str) (index : Int) :
    ∀ (acs : List AcceptCharset) (pr : Specificity),
      (pr = sentinelSpec ∨ pr.i = index) →
      (getCharsetPriorityAux charset index acs pr = sentinelSpec ∨
        (getCharsetPriorityAux charset index acs pr).i = index) := by
  intro acs
  induction acs with
  | nil => intro pr hpr; exact hpr
  | cons ac rest ih =>
    intro pr hpr
    rw [getCharsetPriorityAux]
    cases hsp : charsetSpecify charset ac index with
    | none => exact ih pr hpr
    | some spec =>
      refine ih _ ?_
      rw [priorityStep]
      split
      · exact Or.inr (charsetSpecify_i charset ac index spec hsp)
      · exact hpr

/-- `getCharsetPriority` is the sentinel or stamped with its position. -/
theorem getCharsetPriority_shape (charset : Str) (acs : List AcceptCharset) (index : Int) :
    getCharsetPriority charset acs index = sentinelSpec ∨
      (getCharsetPriority charset acs index).i = index :=
  getCharsetPriorityAux_shape charset index acs sentinelSpec (Or.inl rfl)

/-- The `getMediaTypePriority` entry loop preserves "sentinel or stamped
with the candidate position". -/
theorem getMediaTypePriorityAux_shape (mediaType : Str) (index : Int) :
    ∀ (acs : List AcceptMediaType) (pr : Specificity),
      (pr = sentinelSpec ∨ pr.i = index) →
      (getMediaTypePriorityAux mediaType index acs pr = sentinelSpec ∨
        (getMediaTypePriorityAux mediaType index acs pr).i = index) := by
  intro acs
  induction acs with
  | nil => intro pr hpr; exact hpr
  | cons ac rest ih =>
    intro pr hpr
    rw [getMediaTypePriorityAux]
    cases hsp : mediaTypeSpecify mediaType ac index with
    | none => exact ih pr hpr
    | some spec =>
      refine ih _ ?_
      rw [priorityStep]
      split
      · exact Or.inr (mediaTypeSpecify_i mediaType ac index spec hsp)
      · exact hpr

/-- `getMediaTypePriority` is the sentinel or stamped with its position. -/
theorem getMediaTypePriority_shape (mediaType : Str) (acs : List AcceptMediaType) (index : Int) :
    getMediaTypePriority mediaType acs index = sentinelSpec ∨
      (getMediaTypePriority mediaType acs index).i = index :=
  getMediaTypePriorityAux_shape mediaType index acs sentinelSpec (Or.inl rfl)

/-- `getCharsetSpecificities` yields one priority per candidate. -/
theorem getCharsetSpecificitiesAux_length (acs : List AcceptCharset) :
    ∀ (types : List Str) (i0 : Int),
      (getCharsetSpecificitiesAux acs types i0).length = types.length := by
  intro types
  induction types with
  | nil => intro i0; rfl
  | cons v rest ih =>
    intro i0
    rw [getCharsetSpecificitiesAux, List.length_cons, List.length_cons, ih]

/-- Every element of `getCharsetSpecificities` is the sentinel or stamped
with its own (shifted) position. -/
theorem getCharsetSpecificitiesAux_shape (acs : List AcceptCharset) :
    ∀ (types : List Str) (i0 : Int) (j : Nat)
      (h : j < (getCharsetSpecificitiesAux acs types i0).length),
      (getCharsetSpecificitiesAux acs types i0).get ⟨j, h⟩ = sentinelSpec ∨
        ((getCharsetSpecificitiesAux acs types i0).get ⟨j, h⟩).i = i0 + j := by
  intro types
  induction types with
  | nil => intro i0 j h; cases h
  | cons v rest ih =>
    intro i0 j h
    cases j with
    | zero =>
      rcases getCharsetPriority_shape v acs i0 with hs | hs
      · exact Or.inl hs
      · right
        rw [show ((getCharsetSpecificitiesAux acs (v :: rest) i0).get ⟨0, h⟩) =
            getCharsetPriority v acs i0 from rfl, hs]
        simp
    | succ j' =>
      have h' : j' < (getCharsetSpecificitiesAux acs rest (i0 + 1)).length := by
        have := h
        rw [getCharsetSpecificitiesAux, List.length_cons] at this
        omega
      rcases ih (i0 + 1) j' h' with hs | hs
      · exact Or.inl hs
      · right
        rw [show ((getCharsetSpecificitiesAux acs (v :: rest) i0).get ⟨j' + 1, h⟩) =
            ((getCharsetSpecificitiesAux acs rest (i0 + 1)).get ⟨j', h'⟩) from rfl, hs]
        push_cast
        ring

/-- `getMediaTypeSpecificities` yields one priority per candidate. -/
theorem getMediaTypeSpecificitiesAux_length (acs : List AcceptMediaType) :
    ∀ (types : List Str) (i0 : Int),
      (getMediaTypeSpecificitiesAux acs types i0).length = types.length := by
  intro types
  induction types with
  | nil => intro i0; rfl
  | cons v rest ih =>
    intro i0
    rw [getMediaTypeSpecificitiesAux, List.length_cons, List.length_cons, ih]

/-- Every element of `getMediaTypeSpecificities` is the sentinel or stamped
with its own (shifted) position. -/
theorem getMediaTypeSpecificitiesAux_shape (acs : List AcceptMediaType) :
    ∀ (types : List Str) (i0 : Int) (j : Nat)
      (h : j < (getMediaTypeSpecificitiesAux acs types i0).length),
      (getMediaTypeSpecificitiesAux acs types i0).get ⟨j, h⟩ = sentinelSpec ∨
        ((getMediaTypeSpecificitiesAux acs types i0).get ⟨j, h⟩).i = i0 + j := by
  intro types
  induction types with
  | nil => intro i0 j h; cases h
  | cons v rest ih =>
    intro i0 j h
    cases j with
    | zero =>
      rcases getMediaTypePriority_shape v acs i0 with hs | hs
      · exact Or.inl hs
      · right
        rw [show ((getMediaTypeSpecificitiesAux acs (v :: rest) i0).get ⟨0, h⟩) =
            getMediaTypePriority v acs i0 from rfl, hs]
        simp
    | succ j' =>
      have h' : j' < (getMediaTypeSpecificitiesAux acs rest (i0 + 1)).length := by
        have := h
        rw [getMediaTypeSpecificitiesAux, List.length_cons] at this
        omega
      rcases ih (i0 + 1) j' h' with hs | hs
      · exact Or.inl hs
      · right
        rw [show ((getMediaTypeSpecificitiesAux acs (v :: rest) i0).get ⟨j' + 1, h⟩) =
            ((getMediaTypeSpecificitiesAux acs rest (i0 + 1)).get ⟨j', h'⟩) from rfl, hs]
        push_cast
        ring

end Negotiator

namespace Negotiator

/-- The spec's candidate-mode survivor list (§4.5): the candidates whose
resolved priority has strictly positive quality, in candidate order. -/
def claimSurvivors (priorities : List Specificity) (provided : List Str) : List Str :=
  ((priorities.zip provided).filter (fun p => isSpecificityQuality p.1)).map Prod.snd

/-- Shape hypothesis for a priority list: every element is the sentinel or
carries its own position in its `i` field. -/
def SpecShape (p : List Specificity) : Prop :=
  ∀ j (h : j < p.length), p.get ⟨j, h⟩ = sentinelSpec ∨ (p.get ⟨j, h⟩).i = (j : Int)

/-- A quality-positive survivor of a shaped priority list sits at the
position recorded in its `i` field. -/
theorem surv_mem (p : List Specificity) (hshape : SpecShape p) :
    ∀ v ∈ p.filter isSpecificityQuality,
      ∃ (j : Nat) (hj : j < p.length), p.get ⟨j, hj⟩ = v ∧ v.i = (j : Int) := by
  intro v hv
  obtain ⟨hmem, hq⟩ := List.mem_filter.mp hv
  obtain ⟨⟨j, hj⟩, hget⟩ := List.mem_iff_get.mp hmem
  refine ⟨j, hj, hget, ?_⟩
  rcases hshape j hj with h | h
  · rw [hget] at h
    rw [h, isSpecificityQuality_sentinel] at hq
    cases hq
  · rw [hget] at h
    exact h

/-- On a shaped priority list, `indexOf` maps each quality-positive
survivor back to the position in its `i` field. -/
theorem indexOfSpec_filter (p : List Specificity) (hshape : SpecShape p) :
    ∀ v ∈ p.filter isSpecificityQuality, indexOfSpec p v = v.i := by
  intro v hv
  have hq := (List.mem_filter.mp hv).2
  obtain ⟨j, hj, hget, hvi⟩ := surv_mem p hshape v hv
  rw [indexOfSpec, indexOfSpecAux_find v hq p 0
    (by intro j' h'; simpa using hshape j' h') j hj hget, hvi]
  simp

/-- The quality filter of a shaped priority list has strictly increasing
`i` fields. -/
theorem filter_pairwise_i :
    ∀ (l : List Specificity) (k : Int),
      (∀ j (h : j < l.length), l.get ⟨j, h⟩ = sentinelSpec ∨ (l.get ⟨j, h⟩).i = k + j) →
      (l.filter isSpecificityQuality).Pairwise (fun a b => a.i < b.i) := by
  intro l
  induction l with
  | nil => intro k _; simp
  | cons x ts ih =>
    intro k hshape
    have hts : ∀ j (h : j < ts.length),
        ts.get ⟨j, h⟩ = sentinelSpec ∨ (ts.get ⟨j, h⟩).i = (k + 1) + j := by
      intro m hm
      rcases hshape (m + 1) (by simpa using Nat.succ_lt_succ hm) with h | h
      · exact Or.inl h
      · right
        rw [show ((x :: ts).get ⟨m + 1, _⟩) = ts.get ⟨m, hm⟩ from rfl] at h
        rw [h]
        push_cast
        ring
    rw [List.filter_cons]
    by_cases hq : isSpecificityQuality x = true
    · rw [if_pos hq]
      refine List.Pairwise.cons ?_ (ih (k + 1) hts)
      intro b hb
      have hbq := (List.mem_filter.mp hb).2
      obtain ⟨⟨m, hm⟩, hget⟩ := List.mem_iff_get.mp (List.mem_filter.mp hb).1
      have hxi : x.i = k := by
        rcases hshape 0 (by simp) with h | h
        · rw [show ((x :: ts).get ⟨0, by simp⟩) = x from rfl] at h
          rw [h, isSpecificityQuality_sentinel] at hq
          cases hq
        · simpa using h
      have hbi : b.i = (k + 1) + m := by
        rcases hts m hm with h | h
        · rw [hget] at h
          rw [h, isSpecificityQuality_sentinel] at hbq
          cases hbq
        · rw [hget] at h
          exact h
      rw [hxi, hbi]
      omega
    · rw [if_neg hq]
      exact ih (k + 1) hts

/-- The projection loop is a plain map on a list of survivors whose
`indexOf` lookup returns their own nonnegative `i` field. -/
theorem projectResults_eq_map (priorities : List Specificity) (provided : List Str) :
    ∀ (L : List Specificity),
      (∀ v ∈ L, indexOfSpec priorities v = v.i ∧ 0 ≤ v.i) →
      projectResults priorities provided L =
        L.map fun v => provided.getD v.i.toNat [] := by
  intro L
  induction L with
  | nil => intro _; rfl
  | cons v rest ih =>
    intro h
    obtain ⟨h1, h2⟩ := h v (List.mem_cons_self v rest)
    rw [projectResults]
    rw [if_pos (by rw [h1]; exact h2), h1, List.map_cons,
      ih (fun w hw => h w (List.mem_cons_of_mem _ hw))]

end Negotiator

namespace Negotiator

/-- Projecting the unsorted survivors of a shaped priority list through the
full candidate list equals the spec's zip-and-filter survivor list. -/
theorem filter_map_zip (provided : List Str) :
    ∀ (ps : List Specificity) (pv : List Str) (k : Nat),
      ps.length = pv.length →
      (∀ j (h : j < ps.length),
        ps.get ⟨j, h⟩ = sentinelSpec ∨ (ps.get ⟨j, h⟩).i = (k : Int) + j) →
      (∀ j (h : j < pv.length), provided.getD (k + j) [] = pv.get ⟨j, h⟩) →
      (ps.filter isSpecificityQuality).map (fun v => provided.getD v.i.toNat []) =
        ((ps.zip pv).filter (fun p => isSpecificityQuality p.1)).map Prod.snd := by
  intro ps
  induction ps with
  | nil => intro pv k _ _ _; simp
  | cons x ts ih =>
    intro pv k hlen hshape hget
    cases pv with
    | nil => simp at hlen
    | cons y ys =>
      have hts : ∀ j (h : j < ts.length),
          ts.get ⟨j, h⟩ = sentinelSpec ∨ (ts.get ⟨j, h⟩).i = ((k + 1 : Nat) : Int) + j := by
        intro m hm
        rcases hshape (m + 1) (by simpa using Nat.succ_lt_succ hm) with h | h
        · exact Or.inl h
        · right
          rw [show ((x :: ts).get ⟨m + 1, _⟩) = ts.get ⟨m, hm⟩ from rfl] at h
          rw [h]
          push_cast
          ring
      have hys : ∀ j (h : j < ys.length), provided.getD ((k + 1) + j) [] = ys.get ⟨j, h⟩ := by
        intro m hm
        have heq : (k + 1) + m = k + (m + 1) := by omega
        rw [heq]
        exact hget (m + 1) (by simpa using Nat.succ_lt_succ hm)
      rw [List.zip_cons_cons, List.filter_cons, List.filter_cons]
      by_cases hq : isSpecificityQuality x = true
      · rw [if_pos hq, if_pos (by simpa using hq), List.map_cons, List.map_cons]
        have hxi : x.i = (k : Int) := by
          rcases hshape 0 (by simp) with h | h
          · rw [show ((x :: ts).get ⟨0, by simp⟩) = x from rfl] at h
            rw [h, isSpecificityQuality_sentinel] at hq
            cases hq
          · simpa using h
        have hhead : provided.getD x.i.toNat [] = y := by
          rw [hxi]
          have := hget 0 (by simp)
          simpa using this
        rw [hhead, ih ys (k + 1) (by simpa using hlen) hts hys]
      · rw [if_neg hq, if_neg (by simpa using hq)]
        exact ih ys (k + 1) (by simpa using hlen) hts hys

/-- Master lemma for the candidate-mode tail shared by `PreferredCharsets`
and `PreferredMediaTypes`: sort the quality-positive priorities, look each
one up with `indexOf`, and project through the candidate list. The output
is a permutation of the spec's survivor list, every output element is a
supplied candidate, and the output has no duplicates when the candidates
have none. -/
theorem pipeline_master (p : List Specificity) (provided : List Str)
    (hlen : p.length = provided.length) (hshape : SpecShape p) :
    (projectResults p provided
        (sortGo specDisjBy dummySpec (p.filter isSpecificityQuality))).Perm
      (claimSurvivors p provided) ∧
    (∀ x ∈ projectResults p provided
        (sortGo specDisjBy dummySpec (p.filter isSpecificityQuality)), x ∈ provided) ∧
    (provided.Nodup → (projectResults p provided
        (sortGo specDisjBy dummySpec (p.filter isSpecificityQuality))).Nodup) := by
  have hperm : (sortGo specDisjBy dummySpec (p.filter isSpecificityQuality)).Perm
      (p.filter isSpecificityQuality) :=
    sortGo_perm specDisjBy dummySpec (p.filter isSpecificityQuality)
  have hmemF : ∀ v ∈ sortGo specDisjBy dummySpec (p.filter isSpecificityQuality),
      v ∈ p.filter isSpecificityQuality := fun v hv => hperm.mem_iff.mp hv
  have hFprops : ∀ v ∈ p.filter isSpecificityQuality,
      indexOfSpec p v = v.i ∧ 0 ≤ v.i := by
    intro v hv
    obtain ⟨j, hj, _, hvi⟩ := surv_mem p hshape v hv
    exact ⟨indexOfSpec_filter p hshape v hv, by rw [hvi]; exact Int.natCast_nonneg j⟩
  have hmap : projectResults p provided
      (sortGo specDisjBy dummySpec (p.filter isSpecificityQuality)) =
      (sortGo specDisjBy dummySpec (p.filter isSpecificityQuality)).map
        fun v => provided.getD v.i.toNat [] :=
    projectResults_eq_map p provided _ (fun v hv => hFprops v (hmemF v hv))
  have hFmap : (p.filter isSpecificityQuality).map (fun v => provided.getD v.i.toNat []) =
      claimSurvivors p provided := by
    rw [claimSurvivors]
    refine filter_map_zip provided p provided 0 hlen ?_ ?_
    · intro j h
      simpa using hshape j h
    · intro j h
      rw [Nat.zero_add, List.getD_eq_getElem provided [] h]
      rfl
  refine ⟨?_, ?_, ?_⟩
  · rw [hmap, ← hFmap]
    exact hperm.map _
  · intro x hx
    rw [hmap] at hx
    obtain ⟨v, hv, hfx⟩ := List.mem_map.mp hx
    obtain ⟨j, hj, _, hvi⟩ := surv_mem p hshape v (hmemF v hv)
    rw [← hfx, hvi]
    have hjp : j < provided.length := hlen ▸ hj
    rw [show ((j : Int)).toNat = j by simp, List.getD_eq_getElem provided [] hjp]
    exact List.getElem_mem hjp
  · intro hnd
    rw [hmap]
    have hPW : (p.filter isSpecificityQuality).Pairwise (fun a b => a.i < b.i) :=
      filter_pairwise_i p 0 (by intro j h; simpa using hshape j h)
    have hFnd : (p.filter isSpecificityQuality).Nodup :=
      hPW.imp (fun hab heq => by rw [heq] at hab; exact lt_irrefl _ hab)
    refine List.Nodup.map_on ?_ (hperm.nodup_iff.mpr hFnd)
    intro x hx y hy hfxy
    obtain ⟨jx, hjx, hgx, hxi⟩ := surv_mem p hshape x (hmemF x hx)
    obtain ⟨jy, hjy, hgy, hyi⟩ := surv_mem p hshape y (hmemF y hy)
    rw [hxi, hyi] at hfxy
    have hjxp : jx < provided.length := hlen ▸ hjx
    have hjyp : jy < provided.length := hlen ▸ hjy
    rw [show ((jx : Int)).toNat = jx by simp, show ((jy : Int)).toNat = jy by simp,
      List.getD_eq_getElem provided [] hjxp, List.getD_eq_getElem provided [] hjyp] at hfxy
    have hj : jx = jy := (List.Nodup.getElem_inj_iff hnd).mp hfxy
    rw [← hgx, ← hgy]
    congr 1
    exact Fin.ext hj

end Negotiator

namespace Negotiator

/-- C1 (amended): for every header and non-empty candidate list, the
candidate-mode selectors drop each candidate whose resolved priority
quality is ≤ 0 and return some permutation of the remaining candidates
(the claimed quality/specificity/order/position sort order does not hold,
see the counterexample). -/
theorem claim_C1_amended :
    (∀ (accept : Str) (provided : List Str) (acs : List AcceptCharset),
      parseAcceptCharset accept = .ok acs → provided.length ≠ 0 →
      ∃ out, PreferredCharsets accept provided = .ok out ∧
        out.Perm (claimSurvivors (getCharsetSpecificities provided acs) provided)) ∧
    (∀ (accept : Str) (provided : List Str), provided.length ≠ 0 →
      (PreferredMediaTypes accept provided).Perm
        (claimSurvivors
          (getMediaTypeSpecificities provided (parseAcceptMediaType accept)) provided)) := by
  constructor
  · intro accept provided acs hp hne
    have hPC : PreferredCharsets accept provided =
        .ok (projectResults (getCharsetSpecificities provided acs) provided
          (sortGo specDisjBy dummySpec
            ((getCharsetSpecificities provided acs).filter isSpecificityQuality))) := by
      rw [PreferredCharsets, hp]
      simp only [bind, Except.bind]
      rw [if_neg hne]
      rfl
    have hlen : (getCharsetSpecificities provided acs).length = provided.length :=
      getCharsetSpecificitiesAux_length acs provided 0
    have hshape : SpecShape (getCharsetSpecificities provided acs) := by
      intro j h
      simpa using getCharsetSpecificitiesAux_shape acs provided 0 j h
    exact ⟨_, hPC, (pipeline_master _ provided hlen hshape).1⟩
  · intro accept provided hne
    have hPM : PreferredMediaTypes accept provided =
        projectResults (getMediaTypeSpecificities provided (parseAcceptMediaType accept))
          provided
          (sortGo specDisjBy dummySpec
            ((getMediaTypeSpecificities provided
              (parseAcceptMediaType accept)).filter isSpecificityQuality)) := by
      rw [PreferredMediaTypes]
      rw [if_neg hne]
    have hlen : (getMediaTypeSpecificities provided (parseAcceptMediaType accept)).length =
        provided.length :=
      getMediaTypeSpecificitiesAux_length (parseAcceptMediaType accept) provided 0
    have hshape :
        SpecShape (getMediaTypeSpecificities provided (parseAcceptMediaType accept)) := by
      intro j h
      simpa using
        getMediaTypeSpecificitiesAux_shape (parseAcceptMediaType accept) provided 0 j h
    rw [hPM]
    exact (pipeline_master _ provided hlen hshape).1

/-- C1 witness: header `utf-8` against candidates `utf-8`, `iso-8859-1`. -/
theorem claim_C1_amended_witness :
    parseAcceptCharset "utf-8".data = .ok [⟨"utf-8".data, .num 1, 0⟩] ∧
    (["utf-8".data, "iso-8859-1".data] : List Str).length ≠ 0 ∧
    ∃ out, PreferredCharsets "utf-8".data ["utf-8".data, "iso-8859-1".data] = .ok out ∧
      out.Perm (claimSurvivors
        (getCharsetSpecificities ["utf-8".data, "iso-8859-1".data] [⟨"utf-8".data, .num 1, 0⟩])
        ["utf-8".data, "iso-8859-1".data]) :=
  ⟨by with_unfolding_all decide, by with_unfolding_all decide,
    claim_C1_amended.1 "utf-8".data ["utf-8".data, "iso-8859-1".data]
      [⟨"utf-8".data, .num 1, 0⟩] (by with_unfolding_all decide)
      (by with_unfolding_all decide)⟩

/-- C7 (amended): for every header and non-empty candidate list, every
output value of the candidate-mode selectors is a supplied candidate, and
the output has no duplicates provided the candidate list itself has none
(a duplicated candidate is emitted twice, see the counterexample). -/
theorem claim_C7_amended :
    (∀ (accept : Str) (provided : List Str) (out : List Str), provided.length ≠ 0 →
      PreferredCharsets accept provided = .ok out →
      (∀ x ∈ out, x ∈ provided) ∧ (provided.Nodup → out.Nodup)) ∧
    (∀ (accept : Str) (provided : List Str), provided.length ≠ 0 →
      (∀ x ∈ PreferredMediaTypes accept provided, x ∈ provided) ∧
      (provided.Nodup → (PreferredMediaTypes accept provided).Nodup)) := by
  constructor
  · intro accept provided out hne hout
    cases hp : parseAcceptCharset accept with
    | error e =>
      rw [PreferredCharsets, hp] at hout
      simp only [bind, Except.bind] at hout
      exact Except.noConfusion hout
    | ok acs =>
      rw [PreferredCharsets, hp] at hout
      simp only [bind, Except.bind] at hout
      rw [if_neg hne] at hout
      simp only [pure, Except.pure, Except.ok.injEq] at hout
      have hlen : (getCharsetSpecificities provided acs).length = provided.length :=
        getCharsetSpecificitiesAux_length acs provided 0
      have hshape : SpecShape (getCharsetSpecificities provided acs) := by
        intro j h
        simpa using getCharsetSpecificitiesAux_shape acs provided 0 j h
      obtain ⟨_, hsub, hnd⟩ := pipeline_master (getCharsetSpecificities provided acs)
        provided hlen hshape
      rw [← hout]
      exact ⟨hsub, hnd⟩
  · intro accept provided hne
    have hPM : PreferredMediaTypes accept provided =
        projectResults (getMediaTypeSpecificities provided (parseAcceptMediaType accept))
          provided
          (sortGo specDisjBy dummySpec
            ((getMediaTypeSpecificities provided
              (parseAcceptMediaType accept)).filter isSpecificityQuality)) := by
      rw [PreferredMediaTypes]
      rw [if_neg hne]
    have hlen : (getMediaTypeSpecificities provided (parseAcceptMediaType accept)).length =
        provided.length :=
      getMediaTypeSpecificitiesAux_length (parseAcceptMediaType accept) provided 0
    have hshape :
        SpecShape (getMediaTypeSpecificities provided (parseAcceptMediaType accept)) := by
      intro j h
      simpa using
        getMediaTypeSpecificitiesAux_shape (parseAcceptMediaType accept) provided 0 j h
    obtain ⟨_, hsub, hnd⟩ := pipeline_master
      (getMediaTypeSpecificities provided (parseAcceptMediaType accept)) provided hlen hshape
    rw [hPM]
    exact ⟨hsub, hnd⟩

/-- C7 witness: header `utf-8` against candidates `utf-8`, `iso-8859-1`
gives output `utf-8`, a duplicate-free sublist of the candidates. -/
theorem claim_C7_amended_witness :
    (["utf-8".data, "iso-8859-1".data] : List Str).length ≠ 0 ∧
    PreferredCharsets "utf-8".data ["utf-8".data, "iso-8859-1".data] = .ok ["utf-8".data] ∧
    ((∀ x ∈ (["utf-8".data] : List Str), x ∈ ["utf-8".data, "iso-8859-1".data]) ∧
      ((["utf-8".data, "iso-8859-1".data] : List Str).Nodup →
        (["utf-8".data] : List Str).Nodup)) :=
  ⟨by with_unfolding_all decide, by with_unfolding_all decide,
    claim_C7_amended.1 "utf-8".data ["utf-8".data, "iso-8859-1".data] ["utf-8".data]
      (by with_unfolding_all decide) (by with_unfolding_all decide)⟩

end Negotiator
